import Mathlib

/-!
Shallow embedding of the reset-remove map CRDT from `src/map.rs`,
together with a model of its external version-clock collaborator
(`crate::vclock`, specified in §6.1 of the spec).

Rust `BTreeMap`/`BTreeSet`/`HashMap` values are modelled as association
lists in canonical (strictly key-sorted) form, so that Lean structural
equality coincides with the Rust derived `PartialEq` (content equality).
-/

namespace Crdt

/-- Actors are opaque totally ordered replica identities; modelled as naturals. -/
abbrev Actor := Nat

/-- Modelled from the spec: a `Dot` is one `(actor, counter)` pair (`crate::vclock::Dot`, §3). -/
structure Dot where
  actor : Actor
  counter : Nat
deriving DecidableEq, Repr

/-- Modelled from the spec: a version clock (`crate::vclock::VClock`, §6.1) is a mapping
actor → counter with absent = 0, held in canonical strictly-sorted positive form. -/
abbrev VClock := List (Nat × Nat)

/-- Modelled from the spec: `get(actor) -> counter` (absent = 0), §6.1. -/
def vget (c : VClock) (a : Actor) : Nat :=
  match c with
  | [] => 0
  | (b, n) :: t => if a = b then n else vget t a

/-- The actors mentioned by a clock. -/
def vsupp (c : VClock) : List Actor := c.map Prod.fst

/-- Insert an actor into a sorted duplicate-free list of actors. -/
def insKey (a : Nat) : List Nat → List Nat
  | [] => [a]
  | b :: t => if a < b then a :: b :: t else if a = b then b :: t else b :: insKey a t

/-- Sort a list of actors, removing duplicates. -/
def sortKeys (l : List Nat) : List Nat := l.foldr insKey []

/-- Build the canonical clock whose counter at `a` is `f a` for `a ∈ s` and 0 elsewhere. -/
def mkVC (s : List Actor) (f : Actor → Nat) : VClock :=
  (sortKeys s).filterMap (fun a => if f a = 0 then none else some (a, f a))

/-- Modelled from the spec: `merge(other)` — pointwise max, §6.1. -/
def vmerge (c1 c2 : VClock) : VClock :=
  mkVC (vsupp c1 ++ vsupp c2) (fun a => max (vget c1 a) (vget c2 a))

/-- Modelled from the spec: `subtract(other)` — for each `a`, if `self[a] ≤ other[a]`
remove `a`, §6.1. -/
def vsub (c1 c2 : VClock) : VClock :=
  mkVC (vsupp c1) (fun a => if vget c1 a ≤ vget c2 a then 0 else vget c1 a)

/-- Modelled from the spec: `intersection(other)` — pointwise min, dropping zeros, §6.1. -/
def vinter (c1 c2 : VClock) : VClock :=
  mkVC (vsupp c1 ++ vsupp c2) (fun a => min (vget c1 a) (vget c2 a))

/-- Modelled from the spec: `apply(dot)` — `clock[actor] = max(clock[actor], dot.counter)`, §6.1. -/
def vapplyDot (c : VClock) (d : Dot) : VClock :=
  mkVC (d.actor :: vsupp c)
    (fun a => if a = d.actor then max (vget c a) d.counter else vget c a)

/-- Modelled from the spec: `is_empty()` — true iff no actor has a nonzero counter, §6.1. -/
def visEmpty (c : VClock) : Bool := c.isEmpty

/-- Modelled from the spec: the partial order `c1 ≤ c2` iff `∀a: c1[a] ≤ c2[a]`, §3. -/
def vleB (c1 c2 : VClock) : Bool :=
  (vsupp c1).all (fun a => decide (vget c1 a ≤ vget c2 a))

/-- Modelled from the spec: `partial_cmp(other)` — `Less | Equal | Greater | Incomparable`, §6.1. -/
def vcomp (c1 c2 : VClock) : Option Ordering :=
  if vleB c1 c2 then (if vleB c2 c1 then some .eq else some .lt)
  else (if vleB c2 c1 then some .gt else none)

/-- A canonical clock: strictly sorted actors, all counters positive. -/
def VCWF (c : VClock) : Prop :=
  List.Pairwise (fun p q => p.1 < q.1) c ∧ ∀ p ∈ c, 0 < p.2

/-- The pointwise partial order on clocks: `c1 ≤ c2` iff `∀a: c1[a] ≤ c2[a]` (§3). -/
def vle (c1 c2 : VClock) : Prop := ∀ a, vget c1 a ≤ vget c2 a

/-! ### Generic association lists (model of `BTreeMap` / `HashMap`) -/

/-- Lookup in an association list (`BTreeMap::get` / `HashMap::get`). -/
def alookup {K V : Type} [DecidableEq K] (k : K) : List (K × V) → Option V
  | [] => none
  | (k2, v) :: t => if k = k2 then some v else alookup k t

/-- Ordered insert-or-replace (`BTreeMap::insert` / `HashMap::insert`), keeping
the canonical key-sorted form, where `ltb` decides the key order. -/
def ainsert {K V : Type} [DecidableEq K] (ltb : K → K → Bool) (k : K) (v : V) :
    List (K × V) → List (K × V)
  | [] => [(k, v)]
  | (k2, v2) :: t =>
    if ltb k k2 then (k, v) :: (k2, v2) :: t
    else if k = k2 then (k, v) :: t
    else (k2, v2) :: ainsert ltb k v t

/-- Key removal (`BTreeMap::remove` / `HashMap::remove`). -/
def aerase {K V : Type} [DecidableEq K] (k : K) : List (K × V) → List (K × V)
  | [] => []
  | (k2, v) :: t => if k = k2 then t else (k2, v) :: aerase k t

/-- Decidable strict order on naturals, for entry keys. -/
def natLtB (a b : Nat) : Bool := decide (a < b)

/-- Lexicographic strict order on the pairs of a clock list. -/
def pairLtB (p q : Nat × Nat) : Bool :=
  decide (p.1 < q.1 ∨ (p.1 = q.1 ∧ p.2 < q.2))

/-- Lexicographic strict order on clock lists, giving the deferred table a canonical
key order (Rust's `HashMap` is unordered; equality is content equality, which the
canonical order models). -/
def listLtB : List (Nat × Nat) → List (Nat × Nat) → Bool
  | [], [] => false
  | [], _ :: _ => true
  | _ :: _, [] => false
  | p :: t, q :: s => if pairLtB p q then true else if p = q then listLtB t s else false

/-! ### The map CRDT (`src/map.rs`) -/

/-- The capability set required of nested values `V` (the trait bounds
`Val<A> = Debug + Default + Clone + Causal<A> + CmRDT + CvRDT` of `src/map.rs`). -/
structure ValOps : Type 1 where
  V : Type
  Op : Type
  default : V
  apply : V → Op → V
  merge : V → V → V
  truncate : V → VClock → V
  deq : DecidableEq V
  deqOp : DecidableEq Op

instance (W : ValOps) : DecidableEq W.V := W.deq
instance (W : ValOps) : DecidableEq W.Op := W.deqOp

/-- An entry of the map: per-entry clock plus the nested CRDT (`struct Entry`). -/
structure Entry (W : ValOps) where
  clock : VClock
  val : W.V
deriving DecidableEq

/-- Operations which can be applied to the map CRDT (`enum Op`). -/
inductive MOp (W : ValOps) where
  | nop
  | rm (clock : VClock) (key : Nat)
  | up (dot : Dot) (key : Nat) (op : W.Op)
deriving DecidableEq

/-- The map CRDT state (`struct Map`): global clock, key-ordered entries,
deferred-remove table. -/
structure MapS (W : ValOps) where
  clock : VClock
  entries : List (Nat × Entry W)
  deferred : List (VClock × List Nat)
deriving DecidableEq

/-- `Map::new()` — empty map. -/
def MapS.new (W : ValOps) : MapS W := ⟨[], [], []⟩

/-- `self.deferred.entry(clock).or_default(); deferred_set.insert(key)`. -/
def dinsert (c : VClock) (k : Nat) (d : List (VClock × List Nat)) :
    List (VClock × List Nat) :=
  match alookup c d with
  | some ks => ainsert listLtB c (insKey k ks) d
  | none => ainsert listLtB c [k] d

/-- `Map::apply_rm(key, clock)` — defer if not dominated, then prune the entry. -/
def MapS.applyRm {W : ValOps} (m : MapS W) (key : Nat) (c : VClock) : MapS W :=
  let deferred2 :=
    match vcomp c m.clock with
    | none => dinsert c key m.deferred
    | some .gt => dinsert c key m.deferred
    | _ => m.deferred
  match alookup key m.entries with
  | none => ⟨m.clock, m.entries, deferred2⟩
  | some e =>
    let ec := vsub e.clock c
    if visEmpty ec then ⟨m.clock, aerase key m.entries, deferred2⟩
    else ⟨m.clock, ainsert natLtB key ⟨ec, W.truncate e.val c⟩ m.entries, deferred2⟩

/-- `Map::apply_deferred()` — drain the deferred table and re-apply every
deferred remove. -/
def MapS.applyDeferred {W : ValOps} (m : MapS W) : MapS W :=
  m.deferred.foldl (fun acc p => p.2.foldl (fun a k => a.applyRm k p.1) acc)
    ⟨m.clock, m.entries, []⟩

/-- `CmRDT::apply` for the map (`Op::Nop`, `Op::Rm`, `Op::Up`). -/
def MapS.apply {W : ValOps} (m : MapS W) (op : MOp W) : MapS W :=
  match op with
  | .nop => m
  | .rm c k => m.applyRm k c
  | .up d k vop =>
    if d.counter ≤ vget m.clock d.actor then m
    else
      let e := (alookup k m.entries).getD ⟨[], W.default⟩
      let e2 : Entry W := ⟨vapplyDot e.clock d, W.apply e.val vop⟩
      (MapS.mk (vapplyDot m.clock d) (ainsert natLtB k e2 m.entries) m.deferred).applyDeferred

/-- The first loop of `CvRDT::merge`: walk `self.entries`, building `keep` and
consuming the tracking copy `other_remaining`; `none` models the
`other_remaining.remove(&key).unwrap()` panic. -/
def mergeLoop (W : ValOps) (selfClock otherClock : VClock)
    (otherEntries : List (Nat × Entry W)) :
    List (Nat × Entry W) → List (Nat × Entry W) → List (Nat × Entry W) →
    Option (List (Nat × Entry W) × List (Nat × Entry W))
  | [], keep, remaining => some (keep, remaining)
  | (k, e) :: rest, keep, remaining =>
    match alookup k otherEntries with
    | none =>
      let ec := vsub e.clock otherClock
      if visEmpty ec then mergeLoop W selfClock otherClock otherEntries rest keep remaining
      else
        let del := vsub otherClock ec
        mergeLoop W selfClock otherClock otherEntries rest
          (ainsert natLtB k ⟨ec, W.truncate e.val del⟩ keep) remaining
    | some oe =>
      let common0 := vinter e.clock oe.clock
      let ec := vsub (vsub e.clock common0) otherClock
      let oec := vsub (vsub oe.clock common0) selfClock
      let common := vmerge (vmerge common0 ec) oec
      let keep2 :=
        if visEmpty common then keep
        else
          let v := W.merge e.val oe.val
          let del := vsub (vmerge e.clock oe.clock) common
          ainsert natLtB k ⟨common, W.truncate v del⟩ keep
      match alookup k remaining with
      | none => none
      | some _ =>
        mergeLoop W selfClock otherClock otherEntries rest keep2 (aerase k remaining)

/-- `CvRDT::merge` for the map. Returns `none` exactly when the
`other_remaining.remove(&key).unwrap()` in the both-present branch would panic. -/
def MapS.merge {W : ValOps} (m other : MapS W) : Option (MapS W) :=
  match mergeLoop W m.clock other.clock other.entries m.entries [] other.entries with
  | none => none
  | some (keep, remaining) =>
    let keep2 := remaining.foldl (fun kp p =>
      let ec := vsub p.2.clock m.clock
      if visEmpty ec then kp
      else
        let del := vsub m.clock ec
        ainsert natLtB p.1 ⟨ec, W.truncate p.2.val del⟩ kp) keep
    let mRm := other.deferred.foldl
      (fun acc p => p.2.foldl (fun a k => a.applyRm k p.1) acc) m
    let m2 : MapS W := ⟨vmerge m.clock other.clock, keep2, mRm.deferred⟩
    some m2.applyDeferred

/-- `AddCtx` — carries one fresh dot (§6.4). -/
structure AddCtx where
  dot : Dot
deriving DecidableEq

/-- `RmCtx` — carries an observed clock (§6.4). -/
structure RmCtx where
  clock : VClock
deriving DecidableEq

/-- `Map::update(key, ctx, f)` — pure builder of an `Op::Up` record; rendered in
state-passing style (the Rust method takes `&self`), returning the op together
with the (unchanged) receiver state. -/
def MapS.update {W : ValOps} (m : MapS W) (key : Nat) (ctx : AddCtx)
    (f : W.V → AddCtx → W.Op) : MOp W × MapS W :=
  let d := ctx.dot
  let op :=
    match alookup key m.entries with
    | some e => f e.val ctx
    | none => f W.default ctx
  (.up d key op, m)

/-- `Map::rm(key, ctx)` — pure builder of an `Op::Rm` record, in the same
state-passing rendering. -/
def MapS.rm {W : ValOps} (m : MapS W) (key : Nat) (ctx : RmCtx) : MOp W × MapS W :=
  (.rm ctx.clock key, m)

/-- Apply a whole list of operations in order. -/
def MapS.applyList {W : ValOps} (m : MapS W) (ops : List (MOp W)) : MapS W :=
  ops.foldl MapS.apply m

/-- A nested value type instantiating the capability set of §6.2 with the version
clock itself: ops are dots, `apply` installs a dot, `merge` is pointwise max and
`truncate` is `subtract` (a lawful causal CRDT). -/
def ClockVal : ValOps where
  V := VClock
  Op := Dot
  default := []
  apply := vapplyDot
  merge := vmerge
  truncate := vsub
  deq := inferInstance
  deqOp := inferInstance

/-- Canonical form of an entries table: strictly key-sorted, entry clocks canonical. -/
def EntriesWF {W : ValOps} (l : List (Nat × Entry W)) : Prop :=
  List.Pairwise (fun p q => p.1 < q.1) l ∧ ∀ p ∈ l, VCWF p.2.clock

/-- Canonical form of a deferred table: strictly key-sorted in the lexicographic
clock order, canonical clock keys, sorted key sets. -/
def DeferredWF (l : List (VClock × List Nat)) : Prop :=
  List.Pairwise (fun p q => listLtB p.1 q.1 = true) l ∧
    ∀ p ∈ l, VCWF p.1 ∧ List.Pairwise (· < ·) p.2

/-- Canonical (well-formed) map state: what every value of the Rust `Map` type
satisfies by construction of `BTreeMap`/`HashMap`/`VClock`. -/
def MapS.WF {W : ValOps} (m : MapS W) : Prop :=
  VCWF m.clock ∧ EntriesWF m.entries ∧ DeferredWF m.deferred

/-- Invariant I1 (§3): the map-wide clock dominates the clock of every live entry. -/
def MapS.I1 {W : ValOps} (m : MapS W) : Prop :=
  ∀ p ∈ m.entries, vle p.2.clock m.clock

/-- Invariant I3 (§3): every clock held in the deferred table is not dominated by
the map clock. -/
def MapS.I3 {W : ValOps} (m : MapS W) : Prop :=
  ∀ p ∈ m.deferred, ¬ vle p.1 m.clock

/-- The remove clocks mentioned by a list of operations. -/
def rmClocksOf {W : ValOps} (ops : List (MOp W)) : List VClock :=
  ops.filterMap (fun op => match op with | .rm c _ => some c | _ => none)

/-- Causal discipline on `ClockVal`-valued entries: each nested value is a
canonical clock dominated by its entry clock (as holds for every state built by
disciplined operations). -/
def MapS.Disc (m : MapS ClockVal) : Prop :=
  ∀ p ∈ m.entries, VCWF p.2.val ∧ vle p.2.val p.2.clock

/-- Causal discipline on a `ClockVal` map operation: an update's nested op
carries the update's own dot (as the repository's tests do). -/
def MOp.Disc : MOp ClockVal → Prop
  | .up d _ vop => vop = d
  | _ => True

/-- Two operations whose update dots (when both are updates) lie on distinct actors. -/
def MOp.DistinctUps {W : ValOps} : MOp W → MOp W → Prop
  | .up d1 _ _, .up d2 _ _ => d1.actor ≠ d2.actor
  | _, _ => True

/-- An operation whose remove clock (if any) is in canonical form — true of every
operation built through the context machinery. -/
def MOp.CWF {W : ValOps} : MOp W → Prop
  | .rm c _ => VCWF c
  | _ => True

/-- The effect of one remove with clock `c` on an (optional) entry: subtract `c`
from the entry clock, delete the entry if that empties it, else truncate the
nested value by `c`. -/
def pruneOpt (W : ValOps) (c : VClock) : Option (Entry W) → Option (Entry W)
  | none => none
  | some e =>
    let ec := vsub e.clock c
    if visEmpty ec then none else some ⟨ec, W.truncate e.val c⟩

/-- The per-key value of the entries table computed by `merge` (before the final
`apply_deferred`), as a function of the two sides' entries at that key. -/
def mergeKeepF (W : ValOps) (sc oc : VClock) :
    Option (Entry W) → Option (Entry W) → Option (Entry W)
  | none, none => none
  | some e, none =>
    let ec := vsub e.clock oc
    if visEmpty ec then none else some ⟨ec, W.truncate e.val (vsub oc ec)⟩
  | none, some e =>
    let ec := vsub e.clock sc
    if visEmpty ec then none else some ⟨ec, W.truncate e.val (vsub sc ec)⟩
  | some e, some oe =>
    let common0 := vinter e.clock oe.clock
    let ec := vsub (vsub e.clock common0) oc
    let oec := vsub (vsub oe.clock common0) sc
    let common := vmerge (vmerge common0 ec) oec
    if visEmpty common then none
    else some ⟨common, W.truncate (W.merge e.val oe.val) (vsub (vmerge e.clock oe.clock) common)⟩

/-- The entry written by a non-skipped `Op::Up` at `ClockVal`: the existing (or
default) entry with the update dot installed in its clock and the nested op
applied to its value (the `Up` branch of `CmRDT::apply`, with the nested op the
update's own dot). -/
def upEntry (d : Dot) (k : Nat) (E : List (Nat × Entry ClockVal)) : Entry ClockVal :=
  ⟨vapplyDot ((alookup k E).getD ⟨[], ClockVal.default⟩).clock d,
    ClockVal.apply ((alookup k E).getD ⟨[], ClockVal.default⟩).val d⟩

/-- Per-key effect of replaying a deferred table on an (optional) entry: each
deferred remove that mentions the key prunes it, in table order (the
entry-pruning every `apply_rm` call inside `apply_deferred` performs). -/
def dprune (D : List (VClock × List Nat)) (j : Nat) (o : Option (Entry ClockVal)) :
    Option (Entry ClockVal) :=
  D.foldl (fun o p => if j ∈ p.2 then pruneOpt ClockVal p.1 o else o) o

/-- The deferred table rebuilt by `apply_deferred` under clock `ck`: an entry
survives iff its key set is nonempty (so some `apply_rm` runs for it) and its
clock is still not dominated by the map clock. -/
def dferKeep (ck : VClock) (D : List (VClock × List Nat)) :
    List (VClock × List Nat) :=
  D.filter (fun p => !(p.2.isEmpty) && !(vleB p.1 ck))

/-- The intermediate state a non-skipped update builds before replaying the
deferred table: clock advanced by the dot, entry installed, deferred untouched. -/
def upState (m : MapS ClockVal) (d : Dot) (k : Nat) : MapS ClockVal :=
  MapS.mk (vapplyDot m.clock d)
    (ainsert natLtB k (upEntry d k m.entries) m.entries) m.deferred

/-! ### Lemmas: sorted key lists -/

theorem mem_insKey {a b : Nat} {l : List Nat} : b ∈ insKey a l ↔ b = a ∨ b ∈ l := by
  induction l with
  | nil => simp [insKey]
  | cons c t ih =>
    by_cases h1 : a < c
    · simp [insKey, h1]
    · by_cases h2 : a = c
      · subst h2; simp [insKey, h1]
      · simp [insKey, h1, h2, ih]; tauto

theorem pairwise_insKey {a : Nat} {l : List Nat} (h : l.Pairwise (· < ·)) :
    (insKey a l).Pairwise (· < ·) := by
  induction l with
  | nil => simp [insKey]
  | cons c t ih =>
    rw [List.pairwise_cons] at h
    obtain ⟨hc, ht⟩ := h
    by_cases h1 : a < c
    · rw [insKey]
      simp only [if_pos h1, List.pairwise_cons, List.mem_cons]
      refine ⟨fun x hx => ?_, hc, ht⟩
      rcases hx with rfl | hx
      · exact h1
      · exact Nat.lt_trans h1 (hc x hx)
    · by_cases h2 : a = c
      · rw [insKey]; simp only [if_neg h1, if_pos h2, List.pairwise_cons]
        exact ⟨hc, ht⟩
      · rw [insKey]; simp only [if_neg h1, if_neg h2, List.pairwise_cons]
        refine ⟨fun x hx => ?_, ih ht⟩
        rcases mem_insKey.1 hx with rfl | hx
        · omega
        · exact hc x hx

theorem mem_sortKeys {b : Nat} {l : List Nat} : b ∈ sortKeys l ↔ b ∈ l := by
  induction l with
  | nil => simp [sortKeys]
  | cons a t ih =>
    show b ∈ insKey a (sortKeys t) ↔ _
    rw [mem_insKey, ih, List.mem_cons]

theorem pairwise_sortKeys (l : List Nat) : (sortKeys l).Pairwise (· < ·) := by
  induction l with
  | nil => simp [sortKeys]
  | cons a t ih => exact pairwise_insKey ih

/-! ### Lemmas: clock reads -/

theorem vget_nil (a : Actor) : vget [] a = 0 := rfl

theorem vget_cons (b n : Nat) (t : VClock) (a : Actor) :
    vget ((b, n) :: t) a = if a = b then n else vget t a := rfl

theorem vget_filterMap (f : Actor → Nat) (x : Actor) : ∀ (l : List Nat),
    vget (l.filterMap (fun a => if f a = 0 then none else some (a, f a))) x =
      if x ∈ l ∧ f x ≠ 0 then f x else 0 := by
  intro l
  induction l with
  | nil => simp [vget]
  | cons a t ih =>
    by_cases ha : f a = 0
    · rw [List.filterMap_cons, if_pos ha, ih]
      by_cases hx : x = a
      · subst hx; simp [ha]
      · simp [hx]
    · rw [List.filterMap_cons, if_neg ha, vget_cons]
      by_cases hx : x = a
      · subst hx; simp [ha]
      · rw [if_neg hx, ih]; simp [hx]

theorem vget_mkVC (s : List Actor) (f : Actor → Nat) (x : Actor) :
    vget (mkVC s f) x = if x ∈ s ∧ f x ≠ 0 then f x else 0 := by
  rw [mkVC, vget_filterMap]
  simp [mem_sortKeys]

theorem pairwise_filterMap_keys (f : Actor → Nat) :
    ∀ {l : List Nat}, l.Pairwise (· < ·) →
      (l.filterMap (fun a => if f a = 0 then none else some (a, f a))).Pairwise
        (fun p q => p.1 < q.1) := by
  intro l
  induction l with
  | nil => simp
  | cons a t ih =>
    intro h
    obtain ⟨hc, ht⟩ := List.pairwise_cons.1 h
    by_cases ha : f a = 0
    · rw [List.filterMap_cons, if_pos ha]; exact ih ht
    · rw [List.filterMap_cons, if_neg ha, List.pairwise_cons]
      refine ⟨fun p hp => ?_, ih ht⟩
      obtain ⟨b, hb, hpb⟩ := List.mem_filterMap.1 hp
      by_cases hfb : f b = 0
      · simp [hfb] at hpb
      · rw [if_neg hfb] at hpb
        cases hpb
        exact hc b hb

theorem vcwf_mkVC (s : List Actor) (f : Actor → Nat) : VCWF (mkVC s f) := by
  constructor
  · exact pairwise_filterMap_keys f (pairwise_sortKeys s)
  · intro p hp
    obtain ⟨b, _, hpb⟩ := List.mem_filterMap.1 hp
    by_cases hfb : f b = 0
    · simp [hfb] at hpb
    · rw [if_neg hfb] at hpb
      cases hpb
      omega

theorem vget_zero_of_not_mem {c : VClock} {a : Actor} (h : a ∉ vsupp c) : vget c a = 0 := by
  induction c with
  | nil => rfl
  | cons p t ih =>
    rw [vsupp, List.map_cons] at h
    cases p with
    | mk b n =>
      rw [vget_cons, if_neg (fun hab => h (by simp [hab]))]
      exact ih (fun hc => h (List.mem_cons_of_mem _ hc))

theorem mem_vsupp_of_vget_ne {c : VClock} {a : Actor} (h : vget c a ≠ 0) : a ∈ vsupp c := by
  by_contra hc
  exact h (vget_zero_of_not_mem hc)

theorem vget_vmerge (c1 c2 : VClock) (a : Actor) :
    vget (vmerge c1 c2) a = max (vget c1 a) (vget c2 a) := by
  rw [vmerge, vget_mkVC]
  by_cases h : a ∈ vsupp c1 ++ vsupp c2
  · by_cases h0 : max (vget c1 a) (vget c2 a) = 0
    · simp [h, h0]
    · simp [h, h0]
  · have h1 : vget c1 a = 0 :=
      vget_zero_of_not_mem (fun hc => h (List.mem_append.2 (Or.inl hc)))
    have h2 : vget c2 a = 0 :=
      vget_zero_of_not_mem (fun hc => h (List.mem_append.2 (Or.inr hc)))
    simp [h, h1, h2]

theorem vget_vsub (c1 c2 : VClock) (a : Actor) :
    vget (vsub c1 c2) a = if vget c1 a ≤ vget c2 a then 0 else vget c1 a := by
  rw [vsub, vget_mkVC]
  by_cases h : a ∈ vsupp c1
  · by_cases hle : vget c1 a ≤ vget c2 a
    · simp [h, hle]
    · have : vget c1 a ≠ 0 := by omega
      simp [h, hle, this]
  · have h1 : vget c1 a = 0 := vget_zero_of_not_mem h
    simp [h, h1]

theorem vget_vinter (c1 c2 : VClock) (a : Actor) :
    vget (vinter c1 c2) a = min (vget c1 a) (vget c2 a) := by
  rw [vinter, vget_mkVC]
  by_cases h : a ∈ vsupp c1 ++ vsupp c2
  · by_cases h0 : min (vget c1 a) (vget c2 a) = 0
    · simp [h, h0]
    · simp [h, h0]
  · have h1 : vget c1 a = 0 :=
      vget_zero_of_not_mem (fun hc => h (List.mem_append.2 (Or.inl hc)))
    simp [h, h1]

theorem vget_vapplyDot (c : VClock) (d : Dot) (a : Actor) :
    vget (vapplyDot c d) a =
      if a = d.actor then max (vget c a) d.counter else vget c a := by
  rw [vapplyDot, vget_mkVC]
  by_cases ha : a = d.actor
  · by_cases h0 : max (vget c a) d.counter = 0
    · simp only [ha] at h0 ⊢
      simp [h0]
    · simp only [ha] at h0 ⊢
      simp [h0]
  · by_cases h : a ∈ vsupp c
    · by_cases h0 : vget c a = 0
      · simp [ha, h, h0]
      · simp [ha, h, h0]
    · have h1 : vget c a = 0 := vget_zero_of_not_mem h
      simp [ha, h, h1]

theorem vcwf_vmerge (c1 c2 : VClock) : VCWF (vmerge c1 c2) := vcwf_mkVC _ _

theorem vcwf_vsub (c1 c2 : VClock) : VCWF (vsub c1 c2) := vcwf_mkVC _ _

theorem vcwf_vinter (c1 c2 : VClock) : VCWF (vinter c1 c2) := vcwf_mkVC _ _

theorem vcwf_vapplyDot (c : VClock) (d : Dot) : VCWF (vapplyDot c d) := vcwf_mkVC _ _

theorem vcwf_nil : VCWF ([] : VClock) := ⟨List.Pairwise.nil, by simp⟩

theorem vsupp_head_le {b n : Nat} {t : VClock} (h : VCWF ((b, n) :: t)) {x : Actor}
    (hx : x ∈ vsupp ((b, n) :: t)) : b ≤ x := by
  rw [vsupp, List.map_cons, List.mem_cons] at hx
  rcases hx with rfl | hx
  · exact Nat.le_refl _
  · obtain ⟨p, hp, rfl⟩ := List.mem_map.1 hx
    have hbp : b < p.1 := (List.pairwise_cons.1 h.1).1 p hp
    omega

theorem vget_head {b n : Nat} {t : VClock} : vget ((b, n) :: t) b = n := by
  rw [vget_cons, if_pos rfl]

theorem vget_tail_head_zero {b n : Nat} {t : VClock} (h : VCWF ((b, n) :: t)) :
    vget t b = 0 := by
  apply vget_zero_of_not_mem
  intro hc
  obtain ⟨p, hp, hpb⟩ := List.mem_map.1 hc
  have hbp : b < p.1 := (List.pairwise_cons.1 h.1).1 p hp
  have hpb2 : p.1 = b := hpb
  rw [hpb2] at hbp
  exact Nat.lt_irrefl b hbp

theorem vcwf_tail {p : Nat × Nat} {t : VClock} (h : VCWF (p :: t)) : VCWF t :=
  ⟨(List.pairwise_cons.1 h.1).2, fun q hq => h.2 q (List.mem_cons_of_mem _ hq)⟩

theorem vext : ∀ {c1 c2 : VClock}, VCWF c1 → VCWF c2 →
    (∀ a, vget c1 a = vget c2 a) → c1 = c2 := by
  intro c1
  induction c1 with
  | nil =>
    intro c2 _ h2 h
    cases c2 with
    | nil => rfl
    | cons p t =>
      cases p with
      | mk b n =>
        have hn : 0 < n := h2.2 (b, n) (by simp)
        have := h b
        rw [vget_nil, vget_head] at this
        omega
  | cons p1 t1 ih =>
    intro c2 h1 h2 h
    cases p1 with
    | mk a1 n1 =>
      cases c2 with
      | nil =>
        have hn : 0 < n1 := h1.2 (a1, n1) (by simp)
        have := h a1
        rw [vget_nil, vget_head] at this
        omega
      | cons p2 t2 =>
        cases p2 with
        | mk a2 n2 =>
          have hn1 : 0 < n1 := h1.2 (a1, n1) (by simp)
          have hn2 : 0 < n2 := h2.2 (a2, n2) (by simp)
          have ha1 : a1 ∈ vsupp ((a2, n2) :: t2) := by
            apply mem_vsupp_of_vget_ne
            rw [← h a1, vget_head]; omega
          have ha2 : a2 ∈ vsupp ((a1, n1) :: t1) := by
            apply mem_vsupp_of_vget_ne
            rw [h a2, vget_head]; omega
          have hle1 := vsupp_head_le h2 ha1
          have hle2 := vsupp_head_le h1 ha2
          have haa : a1 = a2 := by omega
          subst haa
          have hnn : n1 = n2 := by
            have := h a1
            rw [vget_head, vget_head] at this
            exact this
          subst hnn
          have htail : ∀ a, vget t1 a = vget t2 a := by
            intro a
            by_cases hx : a = a1
            · subst hx
              rw [vget_tail_head_zero h1, vget_tail_head_zero h2]
            · have := h a
              rw [vget_cons, vget_cons, if_neg hx, if_neg hx] at this
              exact this
          rw [ih (vcwf_tail h1) (vcwf_tail h2) htail]

theorem visEmpty_iff {c : VClock} (h : VCWF c) :
    visEmpty c = true ↔ ∀ a, vget c a = 0 := by
  cases c with
  | nil => simp [visEmpty, vget_nil]
  | cons p t =>
    cases p with
    | mk b n =>
      have hn : 0 < n := h.2 (b, n) (by simp)
      simp only [visEmpty, List.isEmpty_cons]
      constructor
      · intro hc; cases hc
      · intro hc
        have := hc b
        rw [vget_head] at this
        omega

theorem vleB_iff {c1 c2 : VClock} : vleB c1 c2 = true ↔ vle c1 c2 := by
  rw [vleB, List.all_eq_true]
  constructor
  · intro h a
    by_cases ha : a ∈ vsupp c1
    · exact of_decide_eq_true (h a ha)
    · rw [vget_zero_of_not_mem ha]; omega
  · intro h a _
    exact decide_eq_true (h a)

theorem vleB_false_iff {c1 c2 : VClock} : vleB c1 c2 = false ↔ ¬ vle c1 c2 := by
  rw [← vleB_iff]
  cases vleB c1 c2 <;> simp

/-! ### Lemmas: association lists -/

theorem alookup_cons_self {K V : Type} [DecidableEq K] (k : K) (v : V) (t : List (K × V)) :
    alookup k ((k, v) :: t) = some v := by
  rw [alookup, if_pos rfl]

theorem alookup_ainsert_self {K V : Type} [DecidableEq K] (ltb : K → K → Bool)
    (k : K) (v : V) (l : List (K × V)) : alookup k (ainsert ltb k v l) = some v := by
  induction l with
  | nil => exact alookup_cons_self k v []
  | cons p t ih =>
    cases p with
    | mk k2 v2 =>
      rw [ainsert]
      by_cases h1 : ltb k k2
      · rw [if_pos h1]; exact alookup_cons_self _ _ _
      · rw [if_neg h1]
        by_cases h2 : k = k2
        · rw [if_pos h2]; exact alookup_cons_self _ _ _
        · rw [if_neg h2, alookup, if_neg h2]; exact ih

theorem alookup_ainsert_ne {K V : Type} [DecidableEq K] (ltb : K → K → Bool)
    {j k : K} (h : j ≠ k) (v : V) (l : List (K × V)) :
    alookup j (ainsert ltb k v l) = alookup j l := by
  induction l with
  | nil =>
    show (if j = k then some v else none) = none
    rw [if_neg h]
  | cons p t ih =>
    cases p with
    | mk k2 v2 =>
      rw [ainsert]
      by_cases h1 : ltb k k2
      · rw [if_pos h1, alookup, if_neg h]
      · rw [if_neg h1]
        by_cases h2 : k = k2
        · subst h2
          rw [if_pos rfl, alookup, if_neg h, alookup, if_neg h]
        · rw [if_neg h2, alookup, alookup]
          by_cases h3 : j = k2
          · rw [if_pos h3, if_pos h3]
          · rw [if_neg h3, if_neg h3]; exact ih

theorem alookup_aerase_ne {K V : Type} [DecidableEq K] {j k : K} (h : j ≠ k)
    (l : List (K × V)) : alookup j (aerase k l) = alookup j l := by
  induction l with
  | nil => rfl
  | cons p t ih =>
    cases p with
    | mk k2 v2 =>
      rw [aerase]
      by_cases h1 : k = k2
      · subst h1
        rw [if_pos rfl, alookup, if_neg h]
      · rw [if_neg h1, alookup, alookup]
        by_cases h3 : j = k2
        · rw [if_pos h3, if_pos h3]
        · rw [if_neg h3, if_neg h3]; exact ih

theorem mem_aerase_subset {K V : Type} [DecidableEq K] {p : K × V} {k : K}
    {l : List (K × V)} (h : p ∈ aerase k l) : p ∈ l := by
  induction l with
  | nil => exact absurd h (by simp [aerase])
  | cons q t ih =>
    cases q with
    | mk k2 v2 =>
      rw [aerase] at h
      by_cases h1 : k = k2
      · rw [if_pos h1] at h; exact List.mem_cons_of_mem _ h
      · rw [if_neg h1, List.mem_cons] at h
        rcases h with rfl | h
        · simp
        · exact List.mem_cons_of_mem _ (ih h)

theorem mem_ainsert {K V : Type} [DecidableEq K] {ltb : K → K → Bool} {p : K × V}
    {k : K} {v : V} {l : List (K × V)} (h : p ∈ ainsert ltb k v l) :
    p = (k, v) ∨ p ∈ l := by
  induction l with
  | nil => rw [ainsert] at h; simpa using h
  | cons q t ih =>
    cases q with
    | mk k2 v2 =>
      rw [ainsert] at h
      by_cases h1 : ltb k k2
      · rw [if_pos h1, List.mem_cons] at h
        tauto
      · rw [if_neg h1] at h
        by_cases h2 : k = k2
        · rw [if_pos h2, List.mem_cons] at h
          rcases h with rfl | h
          · tauto
          · exact Or.inr (List.mem_cons_of_mem _ h)
        · rw [if_neg h2, List.mem_cons] at h
          rcases h with rfl | h
          · exact Or.inr (by simp)
          · rcases ih h with h | h
            · exact Or.inl h
            · exact Or.inr (List.mem_cons_of_mem _ h)

theorem pairwise_ainsert {K V : Type} [DecidableEq K] {ltb : K → K → Bool}
    (htr : ∀ a b c, ltb a b = true → ltb b c = true → ltb a c = true)
    (htot : ∀ a b : K, a ≠ b → ltb a b = true ∨ ltb b a = true)
    {l : List (K × V)} (h : l.Pairwise (fun p q => ltb p.1 q.1 = true)) (k : K) (v : V) :
    (ainsert ltb k v l).Pairwise (fun p q => ltb p.1 q.1 = true) := by
  induction l with
  | nil => simp [ainsert]
  | cons q t ih =>
    cases q with
    | mk k2 v2 =>
      obtain ⟨hc, ht⟩ := List.pairwise_cons.1 h
      rw [ainsert]
      by_cases h1 : ltb k k2
      · rw [if_pos h1, List.pairwise_cons]
        refine ⟨fun x hx => ?_, h⟩
        rcases List.mem_cons.1 hx with rfl | hx
        · exact h1
        · exact htr _ _ _ h1 (hc x hx)
      · rw [if_neg h1]
        by_cases h2 : k = k2
        · subst h2
          rw [if_pos rfl, List.pairwise_cons]
          exact ⟨hc, ht⟩
        · rw [if_neg h2, List.pairwise_cons]
          refine ⟨fun x hx => ?_, ih ht⟩
          rcases mem_ainsert hx with rfl | hx
          · rcases htot k k2 h2 with h3 | h3
            · exact absurd h3 h1
            · exact h3
          · exact hc x hx

theorem pairwise_aerase {K V : Type} [DecidableEq K] {ltb : K → K → Bool} (k : K)
    {l : List (K × V)} (h : l.Pairwise (fun p q => ltb p.1 q.1 = true)) :
    (aerase k l).Pairwise (fun p q => ltb p.1 q.1 = true) := by
  induction l with
  | nil => simpa [aerase] using h
  | cons q t ih =>
    cases q with
    | mk k2 v2 =>
      obtain ⟨hc, ht⟩ := List.pairwise_cons.1 h
      rw [aerase]
      by_cases h1 : k = k2
      · rw [if_pos h1]; exact ht
      · rw [if_neg h1, List.pairwise_cons]
        exact ⟨fun x hx => hc x (mem_aerase_subset hx), ih ht⟩

theorem alookup_none_iff {K V : Type} [DecidableEq K] {k : K} {l : List (K × V)} :
    alookup k l = none ↔ k ∉ l.map Prod.fst := by
  induction l with
  | nil => simp [alookup]
  | cons q t ih =>
    cases q with
    | mk k2 v2 =>
      rw [alookup]
      by_cases h1 : k = k2
      · simp [h1]
      · simp only [if_neg h1, List.map_cons, List.mem_cons, ih]
        constructor
        · intro h2 h3
          rcases h3 with h3 | h3
          · exact h1 h3
          · exact h2 h3
        · intro h2 h3
          exact h2 (Or.inr h3)

theorem head_key_not_mem_tail {K V : Type} [DecidableEq K] {ltb : K → K → Bool}
    (hirr : ∀ a, ltb a a = false) {k : K} {v : V} {t : List (K × V)}
    (h : ((k, v) :: t).Pairwise (fun p q => ltb p.1 q.1 = true)) :
    k ∉ t.map Prod.fst := by
  intro hc
  obtain ⟨p, hp, hpk⟩ := List.mem_map.1 hc
  have h2 : ltb k p.1 = true := (List.pairwise_cons.1 h).1 p hp
  have hpk2 : p.1 = k := hpk
  rw [hpk2, hirr] at h2
  cases h2

theorem alookup_aerase_self {K V : Type} [DecidableEq K] {ltb : K → K → Bool}
    (hirr : ∀ a, ltb a a = false) {k : K} {l : List (K × V)}
    (h : l.Pairwise (fun p q => ltb p.1 q.1 = true)) :
    alookup k (aerase k l) = none := by
  induction l with
  | nil => rfl
  | cons q t ih =>
    cases q with
    | mk k2 v2 =>
      obtain ⟨hc, ht⟩ := List.pairwise_cons.1 h
      rw [aerase]
      by_cases h1 : k = k2
      · rw [if_pos h1]
        subst h1
        exact alookup_none_iff.2 (head_key_not_mem_tail hirr h)
      · rw [if_neg h1, alookup, if_neg h1]
        exact ih ht

theorem mem_keys_head_cases {K V : Type} [DecidableEq K] {ltb : K → K → Bool}
    {k k2 : K} {v2 : V} {t : List (K × V)}
    (h : ((k2, v2) :: t).Pairwise (fun p q => ltb p.1 q.1 = true))
    (hk : k ∈ ((k2, v2) :: t).map Prod.fst) : k = k2 ∨ ltb k2 k = true := by
  rw [List.map_cons, List.mem_cons] at hk
  rcases hk with hk | hk
  · exact Or.inl hk
  · obtain ⟨p, hp, hpk⟩ := List.mem_map.1 hk
    have h2 : ltb k2 p.1 = true := (List.pairwise_cons.1 h).1 p hp
    have hpk2 : p.1 = k := hpk
    rw [hpk2] at h2
    exact Or.inr h2

theorem alookup_mem_keys {K V : Type} [DecidableEq K] {k : K} {l : List (K × V)}
    {v : V} (h : alookup k l = some v) : k ∈ l.map Prod.fst := by
  by_contra hc
  rw [alookup_none_iff.2 hc] at h
  cases h

theorem aext {K V : Type} [DecidableEq K] {ltb : K → K → Bool}
    (hirr : ∀ a, ltb a a = false)
    (hasym : ∀ a b, ltb a b = true → ltb b a = true → False) :
    ∀ {l1 l2 : List (K × V)}, l1.Pairwise (fun p q => ltb p.1 q.1 = true) →
      l2.Pairwise (fun p q => ltb p.1 q.1 = true) →
      (∀ k, alookup k l1 = alookup k l2) → l1 = l2 := by
  intro l1
  induction l1 with
  | nil =>
    intro l2 _ h2 h
    cases l2 with
    | nil => rfl
    | cons q t =>
      cases q with
      | mk k2 v2 =>
        have := h k2
        rw [alookup_cons_self] at this
        cases this
  | cons p t1 ih =>
    intro l2 h1 h2 h
    cases p with
    | mk k1 v1 =>
      cases l2 with
      | nil =>
        have := h k1
        rw [alookup_cons_self] at this
        cases this
      | cons q t2 =>
        cases q with
        | mk k2 v2 =>
          have hm1 : k1 ∈ ((k2, v2) :: t2).map Prod.fst :=
            alookup_mem_keys (show alookup k1 ((k2, v2) :: t2) = some v1 from by
              rw [← h k1, alookup_cons_self])
          have hm2 : k2 ∈ ((k1, v1) :: t1).map Prod.fst :=
            alookup_mem_keys (show alookup k2 ((k1, v1) :: t1) = some v2 from by
              rw [h k2, alookup_cons_self])
          have hk : k1 = k2 := by
            rcases mem_keys_head_cases h2 hm1 with hk | hk
            · exact hk
            · rcases mem_keys_head_cases h1 hm2 with hk2 | hk2
              · exact hk2.symm
              · exact absurd hk2 (fun hc => hasym _ _ hk hc)
          subst hk
          have hv : v1 = v2 := by
            have := h k1
            rw [alookup_cons_self, alookup_cons_self] at this
            exact Option.some.inj this
          subst hv
          have htail : ∀ j, alookup j t1 = alookup j t2 := by
            intro j
            by_cases hj : j = k1
            · subst hj
              rw [alookup_none_iff.2 (head_key_not_mem_tail hirr h1),
                alookup_none_iff.2 (head_key_not_mem_tail hirr h2)]
            · have := h j
              rw [alookup, alookup, if_neg hj, if_neg hj] at this
              exact this
          rw [ih (List.pairwise_cons.1 h1).2 (List.pairwise_cons.1 h2).2 htail]

/-! ### Lemmas: the key orders -/

theorem natLtB_irrefl (a : Nat) : natLtB a a = false := by simp [natLtB]

theorem natLtB_trans (a b c : Nat) (h1 : natLtB a b = true) (h2 : natLtB b c = true) :
    natLtB a c = true := by
  simp only [natLtB, decide_eq_true_eq] at h1 h2 ⊢
  omega

theorem natLtB_total (a b : Nat) (h : a ≠ b) : natLtB a b = true ∨ natLtB b a = true := by
  simp only [natLtB, decide_eq_true_eq]
  omega

theorem natLtB_asym (a b : Nat) (h1 : natLtB a b = true) (h2 : natLtB b a = true) : False := by
  simp only [natLtB, decide_eq_true_eq] at h1 h2
  omega

theorem pairLtB_irrefl (p : Nat × Nat) : pairLtB p p = false := by
  simp [pairLtB]

theorem pairLtB_trans (p q r : Nat × Nat) (h1 : pairLtB p q = true)
    (h2 : pairLtB q r = true) : pairLtB p r = true := by
  simp only [pairLtB, decide_eq_true_eq] at h1 h2 ⊢
  omega

theorem pairLtB_total (p q : Nat × Nat) (h : p ≠ q) :
    pairLtB p q = true ∨ pairLtB q p = true := by
  simp only [pairLtB, decide_eq_true_eq]
  rcases p with ⟨a, b⟩
  rcases q with ⟨c, d⟩
  have : ¬ (a = c ∧ b = d) := by
    intro hc
    exact h (by simp [hc.1, hc.2])
  simp only [Prod.fst, Prod.snd] at *
  omega

theorem pairLtB_asym (p q : Nat × Nat) (h1 : pairLtB p q = true)
    (h2 : pairLtB q p = true) : False := by
  simp only [pairLtB, decide_eq_true_eq] at h1 h2
  omega

theorem listLtB_irrefl : ∀ l : List (Nat × Nat), listLtB l l = false := by
  intro l
  induction l with
  | nil => rfl
  | cons p t ih =>
    rw [listLtB, if_neg (by rw [pairLtB_irrefl]; exact Bool.false_ne_true), if_pos rfl]
    exact ih

theorem listLtB_asym : ∀ l1 l2 : List (Nat × Nat),
    listLtB l1 l2 = true → listLtB l2 l1 = true → False := by
  intro l1
  induction l1 with
  | nil =>
    intro l2 h1 h2
    cases l2 with
    | nil => cases h1
    | cons q s => cases h2
  | cons p t ih =>
    intro l2 h1 h2
    cases l2 with
    | nil => cases h1
    | cons q s =>
      rw [listLtB] at h1 h2
      by_cases hpq : pairLtB p q = true
      · rw [if_pos hpq] at h1
        by_cases hqp : pairLtB q p = true
        · exact pairLtB_asym p q hpq hqp
        · rw [if_neg hqp] at h2
          by_cases hqp2 : q = p
          · subst hqp2
            rw [pairLtB_irrefl] at hpq
            cases hpq
          · rw [if_neg hqp2] at h2
            cases h2
      · rw [if_neg hpq] at h1
        by_cases hpq2 : p = q
        · subst hpq2
          rw [if_pos rfl] at h1
          rw [if_neg hpq, if_pos rfl] at h2
          exact ih s h1 h2
        · rw [if_neg hpq2] at h1
          cases h1

theorem listLtB_trans : ∀ l1 l2 l3 : List (Nat × Nat),
    listLtB l1 l2 = true → listLtB l2 l3 = true → listLtB l1 l3 = true := by
  intro l1
  induction l1 with
  | nil =>
    intro l2 l3 h1 h2
    cases l2 with
    | nil => cases h1
    | cons q s =>
      cases l3 with
      | nil => cases h2
      | cons r u => rfl
  | cons p t ih =>
    intro l2 l3 h1 h2
    cases l2 with
    | nil => cases h1
    | cons q s =>
      cases l3 with
      | nil => cases h2
      | cons r u =>
        rw [listLtB] at h1 h2 ⊢
        by_cases hpq : pairLtB p q = true
        · by_cases hqr : pairLtB q r = true
          · rw [if_pos (pairLtB_trans p q r hpq hqr)]
          · rw [if_pos hpq] at h1
            rw [if_neg hqr] at h2
            by_cases hqr2 : q = r
            · subst hqr2
              rw [if_pos hpq]
            · rw [if_neg hqr2] at h2
              cases h2
        · rw [if_neg hpq] at h1
          by_cases hpq2 : p = q
          · subst hpq2
            rw [if_pos rfl] at h1
            by_cases hqr : pairLtB p r = true
            · rw [if_pos hqr]
            · rw [if_neg hqr] at h2 ⊢
              by_cases hqr2 : p = r
              · rw [if_pos hqr2] at h2 ⊢
                exact ih s u h1 h2
              · rw [if_neg hqr2] at h2
                cases h2
          · rw [if_neg hpq2] at h1
            cases h1

theorem listLtB_total : ∀ l1 l2 : List (Nat × Nat), l1 ≠ l2 →
    listLtB l1 l2 = true ∨ listLtB l2 l1 = true := by
  intro l1
  induction l1 with
  | nil =>
    intro l2 h
    cases l2 with
    | nil => exact absurd rfl h
    | cons q s => exact Or.inl rfl
  | cons p t ih =>
    intro l2 h
    cases l2 with
    | nil => exact Or.inr rfl
    | cons q s =>
      rw [listLtB, listLtB]
      by_cases hpq : pairLtB p q = true
      · rw [if_pos hpq]; exact Or.inl rfl
      · by_cases hpq2 : p = q
        · subst hpq2
          rw [if_neg hpq, if_neg hpq, if_pos rfl, if_pos rfl]
          apply ih
          intro hc
          exact h (by rw [hc])
        · rcases pairLtB_total p q hpq2 with h3 | h3
          · exact absurd h3 hpq
          · rw [if_pos h3]
            exact Or.inr rfl

/-! ### Lemmas: clock algebra (pointwise) -/

theorem vmerge_comm (c1 c2 : VClock) : vmerge c1 c2 = vmerge c2 c1 := by
  apply vext (vcwf_vmerge _ _) (vcwf_vmerge _ _)
  intro a
  rw [vget_vmerge, vget_vmerge]
  omega

theorem vsub_vsub (x c1 c2 : VClock) :
    vsub (vsub x c1) c2 = vsub x (vmerge c1 c2) := by
  apply vext (vcwf_vsub _ _) (vcwf_vsub _ _)
  intro a
  rw [vget_vsub, vget_vsub, vget_vsub, vget_vmerge]
  by_cases h1 : vget x a ≤ vget c1 a <;> by_cases h2 : vget x a ≤ vget c2 a <;>
    simp [h1, h2] <;> omega

theorem vsub_idem (x c : VClock) : vsub (vsub x c) c = vsub x c := by
  apply vext (vcwf_vsub _ _) (vcwf_vsub _ _)
  intro a
  rw [vget_vsub, vget_vsub]
  by_cases h1 : vget x a ≤ vget c a <;> simp [h1] <;> omega

theorem visEmpty_vsub_iff (x c : VClock) :
    visEmpty (vsub x c) = true ↔ vle x c := by
  rw [visEmpty_iff (vcwf_vsub _ _)]
  constructor
  · intro h a
    have := h a
    rw [vget_vsub] at this
    by_cases h1 : vget x a ≤ vget c a
    · exact h1
    · rw [if_neg h1] at this; omega
  · intro h a
    rw [vget_vsub, if_pos (h a)]

theorem vle_refl (c : VClock) : vle c c := fun _ => Nat.le_refl _

theorem vle_trans {c1 c2 c3 : VClock} (h1 : vle c1 c2) (h2 : vle c2 c3) : vle c1 c3 :=
  fun a => Nat.le_trans (h1 a) (h2 a)

theorem vle_vmerge_left (c1 c2 : VClock) : vle c1 (vmerge c1 c2) := by
  intro a
  rw [vget_vmerge]
  omega

theorem vle_vmerge_right (c1 c2 : VClock) : vle c2 (vmerge c1 c2) := by
  intro a
  rw [vget_vmerge]
  omega

theorem vle_vsub_self (x c : VClock) : vle (vsub x c) x := by
  intro a
  rw [vget_vsub]
  by_cases h : vget x a ≤ vget c a <;> simp [h]

theorem vget_new_zero (a : Actor) : vget [] a = 0 := rfl

/-! ### Lemmas: the deferred table -/

theorem alookup_dinsert (c2 c : VClock) (k : Nat) (d : List (VClock × List Nat)) :
    alookup c2 (dinsert c k d) =
      if c2 = c then some (insKey k ((alookup c d).getD [])) else alookup c2 d := by
  rw [dinsert]
  by_cases h2 : c2 = c
  · subst h2
    cases h : alookup c2 d with
    | none => rw [if_pos rfl, alookup_ainsert_self]; rfl
    | some ks => rw [if_pos rfl, alookup_ainsert_self]; rfl
  · rw [if_neg h2]
    cases h : alookup c d with
    | none => rw [alookup_ainsert_ne _ h2]
    | some ks => rw [alookup_ainsert_ne _ h2]

theorem pairwise_dinsert {d : List (VClock × List Nat)}
    (h : d.Pairwise (fun p q => listLtB p.1 q.1 = true)) (c : VClock) (k : Nat) :
    (dinsert c k d).Pairwise (fun p q => listLtB p.1 q.1 = true) := by
  rw [dinsert]
  cases alookup c d <;> exact pairwise_ainsert listLtB_trans listLtB_total h _ _

theorem mem_dinsert {p : VClock × List Nat} {c : VClock} {k : Nat}
    {d : List (VClock × List Nat)} (h : p ∈ dinsert c k d) :
    p.1 = c ∨ p ∈ d := by
  rw [dinsert] at h
  cases hl : alookup c d with
  | none =>
    rw [hl] at h
    rcases mem_ainsert h with rfl | h
    · exact Or.inl rfl
    · exact Or.inr h
  | some ks =>
    rw [hl] at h
    rcases mem_ainsert h with rfl | h
    · exact Or.inl rfl
    · exact Or.inr h

/-! ### Lemmas: `apply_rm` -/

theorem applyRm_clock {W : ValOps} (m : MapS W) (k : Nat) (c : VClock) :
    (m.applyRm k c).clock = m.clock := by
  rw [MapS.applyRm]
  cases alookup k m.entries with
  | none => rfl
  | some e =>
    dsimp only
    by_cases h : visEmpty (vsub e.clock c) = true
    · rw [if_pos h]
    · rw [if_neg h]

theorem applyRm_deferred {W : ValOps} (m : MapS W) (k : Nat) (c : VClock) :
    (m.applyRm k c).deferred =
      if vleB c m.clock then m.deferred else dinsert c k m.deferred := by
  have hmain : (match vcomp c m.clock with
      | none => dinsert c k m.deferred
      | some .gt => dinsert c k m.deferred
      | _ => m.deferred) =
      if vleB c m.clock then m.deferred else dinsert c k m.deferred := by
    rw [vcomp]
    by_cases h1 : vleB c m.clock
    · rw [if_pos h1, if_pos h1]
      by_cases h2 : vleB m.clock c
      · rw [if_pos h2]
      · rw [if_neg h2]
    · rw [if_neg h1, if_neg h1]
      by_cases h2 : vleB m.clock c
      · rw [if_pos h2]
      · rw [if_neg h2]
  rw [MapS.applyRm]
  cases alookup k m.entries with
  | none => exact hmain
  | some e =>
    dsimp only
    by_cases h : visEmpty (vsub e.clock c) = true
    · rw [if_pos h]; exact hmain
    · rw [if_neg h]; exact hmain

theorem alookup_applyRm {W : ValOps} (m : MapS W) (k : Nat) (c : VClock)
    (hw : m.entries.Pairwise (fun p q => natLtB p.1 q.1 = true)) (j : Nat) :
    alookup j (m.applyRm k c).entries =
      if j = k then pruneOpt W c (alookup k m.entries) else alookup j m.entries := by
  rw [MapS.applyRm]
  cases he : alookup k m.entries with
  | none =>
    dsimp only
    rw [pruneOpt]
    by_cases hj : j = k
    · rw [if_pos hj, hj, he]
    · rw [if_neg hj]
  | some e =>
    dsimp only
    rw [pruneOpt]
    by_cases h : visEmpty (vsub e.clock c) = true
    · rw [if_pos h]
      by_cases hj : j = k
      · subst hj
        rw [if_pos rfl, if_pos h, alookup_aerase_self natLtB_irrefl hw]
      · rw [if_neg hj]
        exact alookup_aerase_ne hj m.entries
    · rw [if_neg h]
      by_cases hj : j = k
      · subst hj
        rw [if_pos rfl, if_neg h, alookup_ainsert_self]
      · rw [if_neg hj]
        exact alookup_ainsert_ne _ hj _ _

theorem pairwise_applyRm_entries {W : ValOps} (m : MapS W) (k : Nat) (c : VClock)
    (hw : m.entries.Pairwise (fun p q => natLtB p.1 q.1 = true)) :
    (m.applyRm k c).entries.Pairwise (fun p q => natLtB p.1 q.1 = true) := by
  rw [MapS.applyRm]
  cases alookup k m.entries with
  | none => exact hw
  | some e =>
    dsimp only
    by_cases h : visEmpty (vsub e.clock c) = true
    · rw [if_pos h]; exact pairwise_aerase k hw
    · rw [if_neg h]; exact pairwise_ainsert natLtB_trans natLtB_total hw _ _

theorem alookup_mem {K V : Type} [DecidableEq K] {k : K} {l : List (K × V)} {v : V}
    (h : alookup k l = some v) : (k, v) ∈ l := by
  induction l with
  | nil => cases h
  | cons q t ih =>
    cases q with
    | mk k2 v2 =>
      rw [alookup] at h
      by_cases h1 : k = k2
      · rw [if_pos h1] at h
        cases h
        rw [h1]
        simp
      · rw [if_neg h1] at h
        exact List.mem_cons_of_mem _ (ih h)

theorem dinsert_sets_sorted {D : List (VClock × List Nat)}
    (hsets : ∀ p ∈ D, p.2.Pairwise (· < ·)) (c : VClock) (k : Nat) :
    ∀ p ∈ dinsert c k D, p.2.Pairwise (· < ·) := by
  intro p hp
  rw [dinsert] at hp
  cases hl : alookup c D with
  | none =>
    rw [hl] at hp
    rcases mem_ainsert hp with rfl | hp2
    · exact List.pairwise_singleton _ _
    · exact hsets p hp2
  | some s =>
    rw [hl] at hp
    rcases mem_ainsert hp with rfl | hp2
    · exact pairwise_insKey (hsets (c, s) (alookup_mem hl))
    · exact hsets p hp2

theorem MapS.ext3 {W : ValOps} {m1 m2 : MapS W} (hc : m1.clock = m2.clock)
    (he : m1.entries = m2.entries) (hd : m1.deferred = m2.deferred) : m1 = m2 := by
  cases m1
  cases m2
  cases hc
  cases he
  cases hd
  rfl

theorem insKey_idem (k : Nat) : ∀ s : List Nat, insKey k (insKey k s) = insKey k s := by
  intro s
  induction s with
  | nil =>
    show insKey k [k] = [k]
    rw [insKey, if_neg (Nat.lt_irrefl k), if_pos rfl]
  | cons b t ih =>
    rw [insKey]
    by_cases h1 : k < b
    · rw [if_pos h1, insKey, if_neg (Nat.lt_irrefl k), if_pos rfl]
    · rw [if_neg h1]
      by_cases h2 : k = b
      · rw [if_pos h2, insKey, if_neg (by omega : ¬ k < b), if_pos h2]
      · rw [if_neg h2, insKey, if_neg h1, if_neg h2, ih]

theorem ainsert_ainsert_self {K V : Type} [DecidableEq K] {ltb : K → K → Bool}
    (hirr : ∀ a, ltb a a = false) (k : K) (v1 v2 : V) : ∀ l : List (K × V),
    ainsert ltb k v2 (ainsert ltb k v1 l) = ainsert ltb k v2 l := by
  have hkk : ¬ ltb k k = true := by rw [hirr]; exact Bool.false_ne_true
  intro l
  induction l with
  | nil =>
    show ainsert ltb k v2 [(k, v1)] = [(k, v2)]
    rw [ainsert, if_neg hkk, if_pos rfl]
  | cons q t ih =>
    cases q with
    | mk k2 u =>
      rw [ainsert]
      by_cases h1 : ltb k k2
      · rw [if_pos h1]
        show ainsert ltb k v2 ((k, v1) :: (k2, u) :: t) = _
        rw [ainsert, if_neg hkk, if_pos rfl, ainsert, if_pos h1]
      · rw [if_neg h1]
        by_cases h2 : k = k2
        · rw [if_pos h2]
          show ainsert ltb k v2 ((k, v1) :: t) = _
          rw [ainsert, if_neg hkk, if_pos rfl, ainsert, if_neg h1, if_pos h2]
        · rw [if_neg h2]
          show ainsert ltb k v2 ((k2, u) :: ainsert ltb k v1 t) = _
          rw [ainsert, if_neg h1, if_neg h2, ih, ainsert, if_neg h1, if_neg h2]

theorem mem_applyRm_entries {W : ValOps} {m : MapS W} {k : Nat} {c : VClock}
    {p : Nat × Entry W} (h : p ∈ (m.applyRm k c).entries) :
    (∃ q ∈ m.entries, p.1 = q.1 ∧ vle p.2.clock q.2.clock) := by
  rw [MapS.applyRm] at h
  cases he : alookup k m.entries with
  | none =>
    rw [he] at h
    exact ⟨p, h, rfl, vle_refl _⟩
  | some e =>
    rw [he] at h
    dsimp only at h
    by_cases hv : visEmpty (vsub e.clock c) = true
    · rw [if_pos hv] at h
      exact ⟨p, mem_aerase_subset h, rfl, vle_refl _⟩
    · rw [if_neg hv] at h
      rcases mem_ainsert h with rfl | h
      · exact ⟨(k, e), alookup_mem he, rfl, vle_vsub_self _ _⟩
      · exact ⟨p, h, rfl, vle_refl _⟩

theorem dinsert_idem (c : VClock) (k : Nat) (d : List (VClock × List Nat)) :
    dinsert c k (dinsert c k d) = dinsert c k d := by
  have hl1 : alookup c (dinsert c k d) = some (insKey k ((alookup c d).getD [])) := by
    rw [alookup_dinsert, if_pos rfl]
  cases hl : alookup c d with
  | none =>
    rw [hl] at hl1
    have hd : dinsert c k d = ainsert listLtB c [k] d := by rw [dinsert, hl]
    have hik : insKey k ([] : List Nat) = [k] := rfl
    rw [dinsert, hl1]
    show ainsert listLtB c (insKey k (insKey k ([] : List Nat))) (dinsert c k d) =
      dinsert c k d
    rw [insKey_idem, hik, hd, ainsert_ainsert_self listLtB_irrefl]
  | some ks =>
    rw [hl] at hl1
    have hd : dinsert c k d = ainsert listLtB c (insKey k ks) d := by rw [dinsert, hl]
    rw [dinsert, hl1]
    show ainsert listLtB c (insKey k (insKey k ks)) (dinsert c k d) = dinsert c k d
    rw [insKey_idem, hd, ainsert_ainsert_self listLtB_irrefl]

/-! ### Lemmas: `apply_deferred` and `apply` -/

theorem foldRmKeys_clock {W : ValOps} (c : VClock) :
    ∀ (ks : List Nat) (m : MapS W),
      (ks.foldl (fun a k => a.applyRm k c) m).clock = m.clock := by
  intro ks
  induction ks with
  | nil => intro m; rfl
  | cons k t ih => intro m; rw [List.foldl_cons, ih, applyRm_clock]

theorem foldRmTable_clock {W : ValOps} :
    ∀ (d : List (VClock × List Nat)) (m : MapS W),
      (d.foldl (fun acc p => p.2.foldl (fun a k => a.applyRm k p.1) acc) m).clock =
        m.clock := by
  intro d
  induction d with
  | nil => intro m; rfl
  | cons p t ih => intro m; rw [List.foldl_cons, ih, foldRmKeys_clock]

theorem applyDeferred_clock {W : ValOps} (m : MapS W) :
    m.applyDeferred.clock = m.clock := by
  rw [MapS.applyDeferred, foldRmTable_clock]

theorem apply_up_skip {W : ValOps} (m : MapS W) (d : Dot) (k : Nat) (vop : W.Op)
    (h : d.counter ≤ vget m.clock d.actor) : m.apply (.up d k vop) = m := by
  rw [MapS.apply, if_pos h]

theorem apply_up_clock {W : ValOps} (m : MapS W) (d : Dot) (k : Nat) (vop : W.Op)
    (h : ¬ d.counter ≤ vget m.clock d.actor) :
    (m.apply (.up d k vop)).clock = vapplyDot m.clock d := by
  rw [MapS.apply, if_neg h, applyDeferred_clock]

theorem applyRm_entries_def {W : ValOps} (m : MapS W) (k : Nat) (c : VClock) :
    (m.applyRm k c).entries =
      match alookup k m.entries with
      | none => m.entries
      | some e =>
        if visEmpty (vsub e.clock c) then aerase k m.entries
        else ainsert natLtB k ⟨vsub e.clock c, W.truncate e.val c⟩ m.entries := by
  rw [MapS.applyRm]
  cases alookup k m.entries with
  | none => rfl
  | some e =>
    dsimp only
    by_cases h : visEmpty (vsub e.clock c) = true
    · rw [if_pos h, if_pos h]
    · rw [if_neg h, if_neg h]

theorem applyRm_idem {W : ValOps}
    (htr : ∀ v c, W.truncate (W.truncate v c) c = W.truncate v c)
    (m : MapS W) (hw : m.entries.Pairwise (fun p q => natLtB p.1 q.1 = true))
    (k : Nat) (c : VClock) :
    (m.applyRm k c).applyRm k c = m.applyRm k c := by
  apply MapS.ext3
  · rw [applyRm_clock, applyRm_clock]
  · rw [applyRm_entries_def (m.applyRm k c) k c]
    cases hl : alookup k m.entries with
    | none =>
      have he2 : (m.applyRm k c).entries = m.entries := by
        rw [applyRm_entries_def, hl]
      rw [he2, hl]
    | some e =>
      by_cases hv : visEmpty (vsub e.clock c) = true
      · have he2 : (m.applyRm k c).entries = aerase k m.entries := by
          rw [applyRm_entries_def, hl]
          show (if visEmpty (vsub e.clock c) = true then aerase k m.entries
            else ainsert natLtB k ⟨vsub e.clock c, W.truncate e.val c⟩ m.entries) =
            aerase k m.entries
          rw [if_pos hv]
        rw [he2, alookup_aerase_self natLtB_irrefl hw]
      · have he2 : (m.applyRm k c).entries =
            ainsert natLtB k ⟨vsub e.clock c, W.truncate e.val c⟩ m.entries := by
          rw [applyRm_entries_def, hl]
          show (if visEmpty (vsub e.clock c) = true then aerase k m.entries
            else ainsert natLtB k ⟨vsub e.clock c, W.truncate e.val c⟩ m.entries) =
            ainsert natLtB k ⟨vsub e.clock c, W.truncate e.val c⟩ m.entries
          rw [if_neg hv]
        rw [he2, alookup_ainsert_self]
        show (if visEmpty (vsub (vsub e.clock c) c) = true
            then aerase k (ainsert natLtB k ⟨vsub e.clock c, W.truncate e.val c⟩ m.entries)
            else ainsert natLtB k
              ⟨vsub (vsub e.clock c) c, W.truncate (W.truncate e.val c) c⟩
              (ainsert natLtB k ⟨vsub e.clock c, W.truncate e.val c⟩ m.entries)) =
          ainsert natLtB k ⟨vsub e.clock c, W.truncate e.val c⟩ m.entries
        rw [vsub_idem, if_neg hv, htr, ainsert_ainsert_self natLtB_irrefl]
  · have hd1 : (m.applyRm k c).deferred =
        if vleB c m.clock then m.deferred else dinsert c k m.deferred :=
      applyRm_deferred m k c
    rw [applyRm_deferred (m.applyRm k c) k c, applyRm_clock, hd1]
    by_cases hb : vleB c m.clock
    · simp [hb]
    · simp [hb, dinsert_idem]

/-! ### Lemmas: invariant I1 -/

theorem vle_nil (c : VClock) : vle [] c := by
  intro a
  rw [vget_nil]
  omega

theorem vle_vapplyDot_self (c : VClock) (d : Dot) : vle c (vapplyDot c d) := by
  intro a
  rw [vget_vapplyDot]
  by_cases h : a = d.actor <;> simp [h] <;> omega

theorem vapplyDot_mono {c1 c2 : VClock} (h : vle c1 c2) (d : Dot) :
    vle (vapplyDot c1 d) (vapplyDot c2 d) := by
  intro a
  rw [vget_vapplyDot, vget_vapplyDot]
  have h1 := h a
  have h2 := h d.actor
  by_cases ha : a = d.actor <;> simp [ha] <;> omega

theorem vle_vmerge_of {x y z : VClock} (h1 : vle x z) (h2 : vle y z) :
    vle (vmerge x y) z := by
  intro a
  rw [vget_vmerge]
  have := h1 a
  have := h2 a
  omega

theorem vle_vinter_left (x y : VClock) : vle (vinter x y) x := by
  intro a
  rw [vget_vinter]
  omega

theorem applyRm_I1 {W : ValOps} {m : MapS W} (h : m.I1) (k : Nat) (c : VClock) :
    (m.applyRm k c).I1 := by
  intro p hp
  obtain ⟨q, hq, _, hle⟩ := mem_applyRm_entries hp
  rw [applyRm_clock]
  exact vle_trans hle (h q hq)

theorem foldRmKeys_I1 {W : ValOps} (c : VClock) :
    ∀ (ks : List Nat) (m : MapS W), m.I1 →
      (ks.foldl (fun a k => a.applyRm k c) m).I1 := by
  intro ks
  induction ks with
  | nil => intro m h; exact h
  | cons k t ih =>
    intro m h
    rw [List.foldl_cons]
    exact ih _ (applyRm_I1 h k c)

theorem foldRmTable_I1 {W : ValOps} :
    ∀ (d : List (VClock × List Nat)) (m : MapS W), m.I1 →
      (d.foldl (fun acc p => p.2.foldl (fun a k => a.applyRm k p.1) acc) m).I1 := by
  intro d
  induction d with
  | nil => intro m h; exact h
  | cons p t ih =>
    intro m h
    rw [List.foldl_cons]
    exact ih _ (foldRmKeys_I1 p.1 p.2 m h)

theorem applyDeferred_I1 {W : ValOps} {m : MapS W} (h : m.I1) : m.applyDeferred.I1 := by
  rw [MapS.applyDeferred]
  exact foldRmTable_I1 _ _ h

theorem apply_I1 {W : ValOps} {m : MapS W} (h : m.I1) (op : MOp W) :
    (m.apply op).I1 := by
  cases op with
  | nop => exact h
  | rm c k => exact applyRm_I1 h k c
  | up d k vop =>
    by_cases hs : d.counter ≤ vget m.clock d.actor
    · rw [apply_up_skip _ _ _ _ hs]; exact h
    · rw [MapS.apply, if_neg hs]
      apply applyDeferred_I1
      intro p hp
      rcases mem_ainsert hp with rfl | hp2
      · show vle (vapplyDot ((alookup k m.entries).getD ⟨[], W.default⟩).clock d)
          (vapplyDot m.clock d)
        apply vapplyDot_mono
        cases hl : alookup k m.entries with
        | none => exact vle_nil _
        | some e => exact h (k, e) (alookup_mem hl)
      · exact vle_trans (h p hp2) (vle_vapplyDot_self _ _)

theorem mergeLoop_bound {W : ValOps} (sc oc : VClock) (oE : List (Nat × Entry W))
    (hO : ∀ p ∈ oE, vle p.2.clock oc) :
    ∀ (lL keep rem : List (Nat × Entry W)) (res : _),
      mergeLoop W sc oc oE lL keep rem = some res →
      (∀ p ∈ lL, vle p.2.clock sc) →
      (∀ p ∈ keep, vle p.2.clock (vmerge sc oc)) →
      (∀ p ∈ rem, p ∈ oE) →
      (∀ p ∈ res.1, vle p.2.clock (vmerge sc oc)) ∧ (∀ p ∈ res.2, p ∈ oE) := by
  intro lL
  induction lL with
  | nil =>
    intro keep rem res hres _ hkeep hrem
    rw [mergeLoop] at hres
    cases hres
    exact ⟨hkeep, hrem⟩
  | cons q rest ih =>
    intro keep rem res hres hL hkeep hrem
    cases q with
    | mk k e =>
      rw [mergeLoop] at hres
      have hLe : vle e.clock sc := hL (k, e) (by simp)
      have hLrest : ∀ p ∈ rest, vle p.2.clock sc :=
        fun p hp => hL p (List.mem_cons_of_mem _ hp)
      cases hoe : alookup k oE with
      | none =>
        rw [hoe] at hres
        dsimp only at hres
        by_cases hv : visEmpty (vsub e.clock oc) = true
        · rw [if_pos hv] at hres
          exact ih keep rem res hres hLrest hkeep hrem
        · rw [if_neg hv] at hres
          refine ih _ rem res hres hLrest ?_ hrem
          intro p hp
          rcases mem_ainsert hp with rfl | hp2
          · exact vle_trans (vle_vsub_self _ _) (vle_trans hLe (vle_vmerge_left _ _))
          · exact hkeep p hp2
      | some oe =>
        rw [hoe] at hres
        dsimp only at hres
        have hOe : vle oe.clock oc := hO (k, oe) (alookup_mem hoe)
        cases hrm : alookup k rem with
        | none => rw [hrm] at hres; cases hres
        | some w =>
          rw [hrm] at hres
          refine ih _ _ res hres hLrest ?_
            (fun p hp => hrem p (mem_aerase_subset hp))
          by_cases hc : visEmpty (vmerge (vmerge (vinter e.clock oe.clock)
              (vsub (vsub e.clock (vinter e.clock oe.clock)) oc))
              (vsub (vsub oe.clock (vinter e.clock oe.clock)) sc)) = true
          · rw [if_pos hc] at hres ⊢
            exact hkeep
          · rw [if_neg hc] at hres ⊢
            intro p hp
            rcases mem_ainsert hp with rfl | hp2
            · have hec : vle (vsub (vsub e.clock (vinter e.clock oe.clock)) oc) e.clock :=
                vle_trans (vle_vsub_self _ _) (vle_vsub_self _ _)
              have hoec : vle (vsub (vsub oe.clock (vinter e.clock oe.clock)) sc) oe.clock :=
                vle_trans (vle_vsub_self _ _) (vle_vsub_self _ _)
              refine vle_vmerge_of (vle_vmerge_of ?_ ?_) ?_
              · exact vle_trans (vle_vinter_left _ _)
                  (vle_trans hLe (vle_vmerge_left _ _))
              · exact vle_trans hec (vle_trans hLe (vle_vmerge_left _ _))
              · exact vle_trans hoec (vle_trans hOe (vle_vmerge_right _ _))
            · exact hkeep p hp2

theorem foldRem_bound {W : ValOps} (mc oc : VClock) :
    ∀ (rem keep : List (Nat × Entry W)),
      (∀ p ∈ rem, vle p.2.clock oc) →
      (∀ p ∈ keep, vle p.2.clock (vmerge mc oc)) →
      ∀ p ∈ rem.foldl (fun kp q =>
          if visEmpty (vsub q.2.clock mc) = true then kp
          else ainsert natLtB q.1
            ⟨vsub q.2.clock mc, W.truncate q.2.val (vsub mc (vsub q.2.clock mc))⟩ kp)
        keep,
        vle p.2.clock (vmerge mc oc) := by
  intro rem
  induction rem with
  | nil => intro keep _ hkeep p hp; exact hkeep p hp
  | cons q rest ih =>
    intro keep hrem hkeep p hp
    rw [List.foldl_cons] at hp
    have hq : vle q.2.clock oc := hrem q (by simp)
    have hrest : ∀ x ∈ rest, vle x.2.clock oc :=
      fun x hx => hrem x (List.mem_cons_of_mem _ hx)
    by_cases hv : visEmpty (vsub q.2.clock mc) = true
    · rw [if_pos hv] at hp
      exact ih keep hrest hkeep p hp
    · rw [if_neg hv] at hp
      refine ih _ hrest ?_ p hp
      intro x hx
      rcases mem_ainsert hx with rfl | hx2
      · exact vle_trans (vle_vsub_self _ _) (vle_trans hq (vle_vmerge_right _ _))
      · exact hkeep x hx2

theorem merge_I1 {W : ValOps} {m1 m2 r : MapS W} (h1 : m1.I1) (h2 : m2.I1)
    (hr : m1.merge m2 = some r) : r.I1 := by
  rw [MapS.merge] at hr
  cases hml : mergeLoop W m1.clock m2.clock m2.entries m1.entries [] m2.entries with
  | none => rw [hml] at hr; cases hr
  | some res =>
    obtain ⟨keep, remaining⟩ := res
    rw [hml] at hr
    dsimp only at hr
    have hbound := mergeLoop_bound m1.clock m2.clock m2.entries h2 m1.entries []
      m2.entries (keep, remaining) hml h1 (by intro p hp; cases hp) (fun p hp => hp)
    cases hr
    apply applyDeferred_I1
    intro p hp
    exact foldRem_bound m1.clock m2.clock remaining keep
      (fun q hq => h2 q (hbound.2 q hq)) hbound.1 p hp

/-! ### Lemmas: invariant I3 and deferred discharge -/

theorem applyRm_I3 {W : ValOps} {m : MapS W} (h : m.I3) (k : Nat) (c : VClock) :
    (m.applyRm k c).I3 := by
  intro p hp
  rw [applyRm_clock]
  rw [applyRm_deferred] at hp
  by_cases hb : vleB c m.clock
  · rw [if_pos hb] at hp
    exact h p hp
  · rw [if_neg hb] at hp
    rcases mem_dinsert hp with hc | hp2
    · rw [hc]
      have hfalse : vleB c m.clock = false := by
        revert hb
        cases vleB c m.clock <;> simp
      exact vleB_false_iff.1 hfalse
    · exact h p hp2

theorem foldRmKeys_I3 {W : ValOps} (c : VClock) :
    ∀ (ks : List Nat) (m : MapS W), m.I3 →
      (ks.foldl (fun a k => a.applyRm k c) m).I3 := by
  intro ks
  induction ks with
  | nil => intro m h; exact h
  | cons k t ih =>
    intro m h
    rw [List.foldl_cons]
    exact ih _ (applyRm_I3 h k c)

theorem foldRmTable_I3 {W : ValOps} :
    ∀ (d : List (VClock × List Nat)) (m : MapS W), m.I3 →
      (d.foldl (fun acc p => p.2.foldl (fun a k => a.applyRm k p.1) acc) m).I3 := by
  intro d
  induction d with
  | nil => intro m h; exact h
  | cons p t ih =>
    intro m h
    rw [List.foldl_cons]
    exact ih _ (foldRmKeys_I3 p.1 p.2 m h)

theorem applyDeferred_I3 {W : ValOps} (m : MapS W) : m.applyDeferred.I3 := by
  rw [MapS.applyDeferred]
  apply foldRmTable_I3
  intro p hp
  cases hp

theorem apply_I3 {W : ValOps} {m : MapS W} (h : m.I3) (op : MOp W) :
    (m.apply op).I3 := by
  cases op with
  | nop => exact h
  | rm c k => exact applyRm_I3 h k c
  | up d k vop =>
    by_cases hs : d.counter ≤ vget m.clock d.actor
    · rw [apply_up_skip _ _ _ _ hs]; exact h
    · rw [MapS.apply, if_neg hs]
      exact applyDeferred_I3 _

theorem applyRm_deferred_keys {W : ValOps} {m : MapS W} {k : Nat} {c : VClock}
    {p : VClock × List Nat} (hp : p ∈ (m.applyRm k c).deferred) :
    p.1 = c ∨ p.1 ∈ m.deferred.map Prod.fst := by
  rw [applyRm_deferred] at hp
  by_cases hb : vleB c m.clock
  · rw [if_pos hb] at hp
    exact Or.inr (List.mem_map.2 ⟨p, hp, rfl⟩)
  · rw [if_neg hb] at hp
    rcases mem_dinsert hp with hc | hp2
    · exact Or.inl hc
    · exact Or.inr (List.mem_map.2 ⟨p, hp2, rfl⟩)

theorem foldRmKeys_deferred_keys {W : ValOps} (c : VClock) :
    ∀ (ks : List Nat) (m : MapS W) (p : VClock × List Nat),
      p ∈ (ks.foldl (fun a k => a.applyRm k c) m).deferred →
      p.1 = c ∨ p.1 ∈ m.deferred.map Prod.fst := by
  intro ks
  induction ks with
  | nil => intro m p hp; exact Or.inr (List.mem_map.2 ⟨p, hp, rfl⟩)
  | cons k t ih =>
    intro m p hp
    rw [List.foldl_cons] at hp
    rcases ih _ p hp with hc | hk
    · exact Or.inl hc
    · obtain ⟨q, hq, hqk⟩ := List.mem_map.1 hk
      rcases applyRm_deferred_keys hq with hc | hk2
      · rw [← hqk]; exact Or.inl hc
      · rw [← hqk]; exact Or.inr hk2

theorem foldRmTable_deferred_keys {W : ValOps} :
    ∀ (d : List (VClock × List Nat)) (m : MapS W) (p : VClock × List Nat),
      p ∈ (d.foldl (fun acc q => q.2.foldl (fun a k => a.applyRm k q.1) acc) m).deferred →
      p.1 ∈ d.map Prod.fst ∨ p.1 ∈ m.deferred.map Prod.fst := by
  intro d
  induction d with
  | nil => intro m p hp; exact Or.inr (List.mem_map.2 ⟨p, hp, rfl⟩)
  | cons q t ih =>
    intro m p hp
    rw [List.foldl_cons] at hp
    rcases ih _ p hp with hc | hk
    · exact Or.inl (List.mem_cons_of_mem _ hc)
    · obtain ⟨x, hx, hxk⟩ := List.mem_map.1 hk
      rcases foldRmKeys_deferred_keys q.1 q.2 m x hx with hc | hk2
      · rw [← hxk, hc]
        exact Or.inl (by simp)
      · rw [← hxk]
        exact Or.inr hk2

theorem apply_deferred_keys {W : ValOps} {m : MapS W} {op : MOp W}
    {p : VClock × List Nat} (hp : p ∈ (m.apply op).deferred) :
    p.1 ∈ m.deferred.map Prod.fst ∨ p.1 ∈ rmClocksOf [op] := by
  cases op with
  | nop => exact Or.inl (List.mem_map.2 ⟨p, hp, rfl⟩)
  | rm c k =>
    rcases applyRm_deferred_keys hp with hc | hk
    · exact Or.inr (by rw [hc]; simp [rmClocksOf])
    · exact Or.inl hk
  | up d k vop =>
    by_cases hs : d.counter ≤ vget m.clock d.actor
    · rw [apply_up_skip _ _ _ _ hs] at hp
      exact Or.inl (List.mem_map.2 ⟨p, hp, rfl⟩)
    · rw [MapS.apply, if_neg hs, MapS.applyDeferred] at hp
      rcases foldRmTable_deferred_keys _ _ p hp with hk | hk
      · exact Or.inl hk
      · cases hk

theorem applyList_deferred_keys {W : ValOps} :
    ∀ (ops : List (MOp W)) (m : MapS W) (p : VClock × List Nat),
      p ∈ (m.applyList ops).deferred →
      p.1 ∈ m.deferred.map Prod.fst ∨ p.1 ∈ rmClocksOf ops := by
  intro ops
  induction ops with
  | nil => intro m p hp; exact Or.inl (List.mem_map.2 ⟨p, hp, rfl⟩)
  | cons op t ih =>
    intro m p hp
    rw [MapS.applyList, List.foldl_cons] at hp
    rcases ih (m.apply op) p hp with hk | hk
    · obtain ⟨q, hq, hqk⟩ := List.mem_map.1 hk
      rcases apply_deferred_keys hq with hk2 | hk2
      · rw [← hqk]; exact Or.inl hk2
      · rw [← hqk]
        rcases op with _ | ⟨c, k⟩ | ⟨d, k, vop⟩
        · cases hk2
        · refine Or.inr ?_
          simp only [rmClocksOf, List.filterMap_cons] at hk2 ⊢
          simp at hk2
          simp [hk2]
        · cases hk2
    · refine Or.inr ?_
      rcases op with _ | ⟨c, k⟩ | ⟨d, k, vop⟩ <;>
        simp [rmClocksOf, List.filterMap_cons] at hk ⊢ <;> simp [hk]

theorem applyList_I3 {W : ValOps} {m : MapS W} (h : m.I3) (ops : List (MOp W)) :
    (m.applyList ops).I3 := by
  induction ops generalizing m with
  | nil => exact h
  | cons op t ih =>
    rw [MapS.applyList, List.foldl_cons]
    exact ih (apply_I3 h op)

/-! ### Lemmas: merge never hits the unreachable unwrap -/

theorem mergeLoop_isSome {W : ValOps} (sc oc : VClock) (oE : List (Nat × Entry W)) :
    ∀ (lL keep rem : List (Nat × Entry W)),
      (∀ p ∈ lL, ∀ v, alookup p.1 oE = some v → alookup p.1 rem = some v) →
      lL.Pairwise (fun p q => natLtB p.1 q.1 = true) →
      (mergeLoop W sc oc oE lL keep rem).isSome = true := by
  intro lL
  induction lL with
  | nil => intro keep rem _ _; rfl
  | cons q rest ih =>
    intro keep rem hinv hpw
    cases q with
    | mk k e =>
      obtain ⟨hhead, htail⟩ := List.pairwise_cons.1 hpw
      rw [mergeLoop]
      cases hoe : alookup k oE with
      | none =>
        dsimp only
        by_cases hv : visEmpty (vsub e.clock oc) = true
        · rw [if_pos hv]
          exact ih keep rem
            (fun p hp v hv2 => hinv p (List.mem_cons_of_mem _ hp) v hv2) htail
        · rw [if_neg hv]
          exact ih _ rem
            (fun p hp v hv2 => hinv p (List.mem_cons_of_mem _ hp) v hv2) htail
      | some oe =>
        dsimp only
        have hrm : alookup k rem = some oe := hinv (k, e) (by simp) oe hoe
        rw [hrm]
        apply ih
        · intro p hp v hv2
          have hne : p.1 ≠ k := by
            have := hhead p hp
            simp only [natLtB, decide_eq_true_eq] at this
            omega
          rw [alookup_aerase_ne hne]
          exact hinv p (List.mem_cons_of_mem _ hp) v hv2
        · exact htail

theorem merge_isSome {W : ValOps} (m1 m2 : MapS W)
    (h1 : m1.entries.Pairwise (fun p q => natLtB p.1 q.1 = true)) :
    (m1.merge m2).isSome = true := by
  rw [MapS.merge]
  cases hml : mergeLoop W m1.clock m2.clock m2.entries m1.entries [] m2.entries with
  | none =>
    have := mergeLoop_isSome m1.clock m2.clock m2.entries m1.entries [] m2.entries
      (fun p _ v hv => hv) h1
    rw [hml] at this
    cases this
  | some res =>
    obtain ⟨keep, remaining⟩ := res
    rfl

/-! ### Lemmas: the merge characterization (deferred-free states) -/

theorem vinter_comm (c1 c2 : VClock) : vinter c1 c2 = vinter c2 c1 := by
  apply vext (vcwf_vinter _ _) (vcwf_vinter _ _)
  intro a
  rw [vget_vinter, vget_vinter]
  omega

theorem foldPrune_lookup {W : ValOps} (mc : VClock) :
    ∀ (rem keep : List (Nat × Entry W)),
      rem.Pairwise (fun p q => natLtB p.1 q.1 = true) →
      ∀ j, alookup j (rem.foldl (fun kp q =>
          if visEmpty (vsub q.2.clock mc) = true then kp
          else ainsert natLtB q.1 ⟨vsub q.2.clock mc,
            W.truncate q.2.val (vsub mc (vsub q.2.clock mc))⟩ kp) keep) =
        match alookup j rem with
        | some e =>
          if visEmpty (vsub e.clock mc) = true then alookup j keep
          else some ⟨vsub e.clock mc, W.truncate e.val (vsub mc (vsub e.clock mc))⟩
        | none => alookup j keep := by
  intro rem
  induction rem with
  | nil => intro keep _ j; rfl
  | cons q rest ih =>
    intro keep hpw j
    obtain ⟨hhead, htail⟩ := List.pairwise_cons.1 hpw
    cases q with
    | mk k e =>
      have hfold : (((k, e) :: rest).foldl (fun kp q =>
          if visEmpty (vsub q.2.clock mc) = true then kp
          else ainsert natLtB q.1 ⟨vsub q.2.clock mc,
            W.truncate q.2.val (vsub mc (vsub q.2.clock mc))⟩ kp) keep) =
          (rest.foldl (fun kp q =>
            if visEmpty (vsub q.2.clock mc) = true then kp
            else ainsert natLtB q.1 ⟨vsub q.2.clock mc,
              W.truncate q.2.val (vsub mc (vsub q.2.clock mc))⟩ kp)
            (if visEmpty (vsub e.clock mc) = true then keep
             else ainsert natLtB k ⟨vsub e.clock mc,
               W.truncate e.val (vsub mc (vsub e.clock mc))⟩ keep)) := rfl
      rw [hfold, ih _ htail j]
      by_cases hj : j = k
      · subst hj
        have hrest : alookup j rest = none := by
          rw [alookup_none_iff]
          intro hc
          obtain ⟨p, hp, hpj⟩ := List.mem_map.1 hc
          have h2 : natLtB j p.1 = true := hhead p hp
          have hpj2 : p.1 = j := hpj
          rw [hpj2, natLtB_irrefl] at h2
          cases h2
        by_cases hv : visEmpty (vsub e.clock mc) = true
        · simp only [hrest, alookup_cons_self, if_pos hv]
        · simp only [hrest, alookup_cons_self, if_neg hv]
          rw [alookup_ainsert_self]
      · have hcons : alookup j ((k, e) :: rest) = alookup j rest := by
          rw [alookup, if_neg hj]
        rw [hcons]
        by_cases hv : visEmpty (vsub e.clock mc) = true
        · simp only [if_pos hv]
        · simp only [if_neg hv]
          cases hlj : alookup j rest with
          | none =>
            simp only
            exact alookup_ainsert_ne _ hj _ _
          | some e2 =>
            simp only
            by_cases hv2 : visEmpty (vsub e2.clock mc) = true
            · simp only [if_pos hv2]
              exact alookup_ainsert_ne _ hj _ _
            · simp only [if_neg hv2]

theorem foldPrune_pairwise {W : ValOps} (mc : VClock) :
    ∀ (rem keep : List (Nat × Entry W)),
      keep.Pairwise (fun p q => natLtB p.1 q.1 = true) →
      (rem.foldl (fun kp q =>
          if visEmpty (vsub q.2.clock mc) = true then kp
          else ainsert natLtB q.1 ⟨vsub q.2.clock mc,
            W.truncate q.2.val (vsub mc (vsub q.2.clock mc))⟩ kp) keep).Pairwise
        (fun p q => natLtB p.1 q.1 = true) := by
  intro rem
  induction rem with
  | nil => intro keep h; exact h
  | cons q rest ih =>
    intro keep h
    rw [List.foldl_cons]
    by_cases hv : visEmpty (vsub q.2.clock mc) = true
    · rw [if_pos hv]; exact ih keep h
    · rw [if_neg hv]
      exact ih _ (pairwise_ainsert natLtB_trans natLtB_total h _ _)

theorem mergeLoop_spec {W : ValOps} (sc oc : VClock) (oE : List (Nat × Entry W)) :
    ∀ (lL keep rem : List (Nat × Entry W)),
      lL.Pairwise (fun p q => natLtB p.1 q.1 = true) →
      rem.Pairwise (fun p q => natLtB p.1 q.1 = true) →
      keep.Pairwise (fun p q => natLtB p.1 q.1 = true) →
      (∀ p ∈ lL, alookup p.1 rem = alookup p.1 oE) →
      ∃ keepF remF,
        mergeLoop W sc oc oE lL keep rem = some (keepF, remF) ∧
        keepF.Pairwise (fun p q => natLtB p.1 q.1 = true) ∧
        remF.Pairwise (fun p q => natLtB p.1 q.1 = true) ∧
        (∀ j, alookup j keepF =
          match alookup j lL with
          | some e =>
            (match mergeKeepF W sc oc (some e) (alookup j oE) with
             | some v => some v
             | none => alookup j keep)
          | none => alookup j keep) ∧
        (∀ j, alookup j remF =
          match alookup j lL with
          | some _ =>
            (match alookup j oE with
             | some _ => none
             | none => alookup j rem)
          | none => alookup j rem) := by
  intro lL
  induction lL with
  | nil =>
    intro keep rem _ hrem hkeep _
    exact ⟨keep, rem, rfl, hkeep, hrem, fun j => rfl, fun j => rfl⟩
  | cons q rest ih =>
    intro keep rem hpw hrem hkeep hinv
    cases q with
    | mk k e =>
      obtain ⟨hhead, htail⟩ := List.pairwise_cons.1 hpw
      have hkrest : alookup k rest = none := by
        rw [alookup_none_iff]
        intro hc
        obtain ⟨p, hp, hpj⟩ := List.mem_map.1 hc
        have h2 : natLtB k p.1 = true := hhead p hp
        have hpj2 : p.1 = k := hpj
        rw [hpj2, natLtB_irrefl] at h2
        cases h2
      rw [mergeLoop]
      cases hoe : alookup k oE with
      | none =>
        dsimp only
        by_cases hv : visEmpty (vsub e.clock oc) = true
        · rw [if_pos hv]
          obtain ⟨keepF, remF, hres, hkF, hrF, hlook, hrlook⟩ :=
            ih keep rem htail hrem hkeep
              (fun p hp => hinv p (List.mem_cons_of_mem _ hp))
          refine ⟨keepF, remF, hres, hkF, hrF, ?_, ?_⟩
          · intro j
            by_cases hj : j = k
            · subst hj
              rw [hlook j]
              simp only [hkrest, alookup_cons_self, hoe, mergeKeepF, if_pos hv]
            · rw [hlook j, alookup, if_neg hj]
          · intro j
            by_cases hj : j = k
            · subst hj
              rw [hrlook j, hkrest, alookup_cons_self, hoe]
            · rw [hrlook j, alookup, if_neg hj]
        · rw [if_neg hv]
          obtain ⟨keepF, remF, hres, hkF, hrF, hlook, hrlook⟩ :=
            ih (ainsert natLtB k
                ⟨vsub e.clock oc, W.truncate e.val (vsub oc (vsub e.clock oc))⟩ keep)
              rem htail hrem
              (pairwise_ainsert natLtB_trans natLtB_total hkeep _ _)
              (fun p hp => hinv p (List.mem_cons_of_mem _ hp))
          refine ⟨keepF, remF, hres, hkF, hrF, ?_, ?_⟩
          · intro j
            by_cases hj : j = k
            · subst hj
              rw [hlook j]
              simp only [hkrest, alookup_cons_self, hoe, mergeKeepF, if_neg hv]
              rw [alookup_ainsert_self]
            · rw [hlook j, alookup, if_neg hj]
              cases hlj : alookup j rest with
              | none => exact alookup_ainsert_ne _ hj _ _
              | some e2 =>
                cases alookup j oE with
                | none =>
                  simp only [mergeKeepF]
                  by_cases hv2 : visEmpty (vsub e2.clock oc) = true
                  · simp only [if_pos hv2]
                    exact alookup_ainsert_ne _ hj _ _
                  · simp only [if_neg hv2]
                | some oe2 =>
                  simp only [mergeKeepF]
                  by_cases hv2 : visEmpty (vmerge (vmerge (vinter e2.clock oe2.clock)
                      (vsub (vsub e2.clock (vinter e2.clock oe2.clock)) oc))
                      (vsub (vsub oe2.clock (vinter e2.clock oe2.clock)) sc)) = true
                  · simp only [if_pos hv2]
                    exact alookup_ainsert_ne _ hj _ _
                  · simp only [if_neg hv2]
          · intro j
            by_cases hj : j = k
            · subst hj
              rw [hrlook j, hkrest, alookup_cons_self, hoe]
            · rw [hrlook j, alookup, if_neg hj]
      | some oe =>
        dsimp only
        have hremk : alookup k rem = some oe := (hinv (k, e) (by simp)).trans hoe
        rw [hremk]
        obtain ⟨keepF, remF, hres, hkF, hrF, hlook, hrlook⟩ :=
          ih (if visEmpty (vmerge (vmerge (vinter e.clock oe.clock)
              (vsub (vsub e.clock (vinter e.clock oe.clock)) oc))
              (vsub (vsub oe.clock (vinter e.clock oe.clock)) sc)) = true
            then keep
            else ainsert natLtB k
              ⟨vmerge (vmerge (vinter e.clock oe.clock)
                (vsub (vsub e.clock (vinter e.clock oe.clock)) oc))
                (vsub (vsub oe.clock (vinter e.clock oe.clock)) sc),
              W.truncate (W.merge e.val oe.val)
                (vsub (vmerge e.clock oe.clock)
                  (vmerge (vmerge (vinter e.clock oe.clock)
                    (vsub (vsub e.clock (vinter e.clock oe.clock)) oc))
                    (vsub (vsub oe.clock (vinter e.clock oe.clock)) sc)))⟩ keep)
            (aerase k rem) htail (pairwise_aerase k hrem)
            (by
              by_cases hv : visEmpty (vmerge (vmerge (vinter e.clock oe.clock)
                  (vsub (vsub e.clock (vinter e.clock oe.clock)) oc))
                  (vsub (vsub oe.clock (vinter e.clock oe.clock)) sc)) = true
              · rw [if_pos hv]; exact hkeep
              · rw [if_neg hv]
                exact pairwise_ainsert natLtB_trans natLtB_total hkeep _ _)
            (by
              intro p hp
              have hne : p.1 ≠ k := by
                intro hc
                have h2 : natLtB k p.1 = true := hhead p hp
                rw [hc, natLtB_irrefl] at h2
                cases h2
              rw [alookup_aerase_ne hne]
              exact hinv p (List.mem_cons_of_mem _ hp))
        refine ⟨keepF, remF, hres, hkF, hrF, ?_, ?_⟩
        · intro j
          by_cases hj : j = k
          · subst hj
            rw [hlook j]
            by_cases hv : visEmpty (vmerge (vmerge (vinter e.clock oe.clock)
                (vsub (vsub e.clock (vinter e.clock oe.clock)) oc))
                (vsub (vsub oe.clock (vinter e.clock oe.clock)) sc)) = true
            · simp only [hkrest, alookup_cons_self, hoe, mergeKeepF, if_pos hv]
            · simp only [hkrest, alookup_cons_self, hoe, mergeKeepF, if_neg hv]
              rw [alookup_ainsert_self]
          · rw [hlook j, alookup, if_neg hj]
            cases hlj : alookup j rest with
            | none =>
              by_cases hv : visEmpty (vmerge (vmerge (vinter e.clock oe.clock)
                  (vsub (vsub e.clock (vinter e.clock oe.clock)) oc))
                  (vsub (vsub oe.clock (vinter e.clock oe.clock)) sc)) = true
              · rw [if_pos hv]
              · rw [if_neg hv]
                exact alookup_ainsert_ne _ hj _ _
            | some e2 =>
              have hstep : alookup j (if visEmpty (vmerge (vmerge (vinter e.clock oe.clock)
                  (vsub (vsub e.clock (vinter e.clock oe.clock)) oc))
                  (vsub (vsub oe.clock (vinter e.clock oe.clock)) sc)) = true
                then keep else ainsert natLtB k
                  (⟨vmerge (vmerge (vinter e.clock oe.clock)
                      (vsub (vsub e.clock (vinter e.clock oe.clock)) oc))
                      (vsub (vsub oe.clock (vinter e.clock oe.clock)) sc),
                    W.truncate (W.merge e.val oe.val)
                      (vsub (vmerge e.clock oe.clock)
                        (vmerge (vmerge (vinter e.clock oe.clock)
                          (vsub (vsub e.clock (vinter e.clock oe.clock)) oc))
                          (vsub (vsub oe.clock (vinter e.clock oe.clock)) sc)))⟩ : Entry W)
                  keep) = alookup j keep := by
                by_cases hv : visEmpty (vmerge (vmerge (vinter e.clock oe.clock)
                    (vsub (vsub e.clock (vinter e.clock oe.clock)) oc))
                    (vsub (vsub oe.clock (vinter e.clock oe.clock)) sc)) = true
                · rw [if_pos hv]
                · rw [if_neg hv]
                  exact alookup_ainsert_ne _ hj _ _
              cases alookup j oE with
              | none =>
                simp only [mergeKeepF]
                by_cases hv2 : visEmpty (vsub e2.clock oc) = true
                · simp only [if_pos hv2]
                  exact hstep
                · simp only [if_neg hv2]
              | some oe2 =>
                simp only [mergeKeepF]
                by_cases hv2 : visEmpty (vmerge (vmerge (vinter e2.clock oe2.clock)
                    (vsub (vsub e2.clock (vinter e2.clock oe2.clock)) oc))
                    (vsub (vsub oe2.clock (vinter e2.clock oe2.clock)) sc)) = true
                · simp only [if_pos hv2]
                  exact hstep
                · simp only [if_neg hv2]
        · intro j
          by_cases hj : j = k
          · subst hj
            rw [hrlook j, hkrest, alookup_cons_self, hoe]
            exact alookup_aerase_self natLtB_irrefl hrem
          · rw [hrlook j, alookup, if_neg hj]
            cases alookup j rest with
            | none => exact alookup_aerase_ne hj rem
            | some e2 =>
              cases alookup j oE with
              | none => exact alookup_aerase_ne hj rem
              | some oe2 => rfl

theorem vmerge_rotate (x y z : VClock) :
    vmerge (vmerge x y) z = vmerge (vmerge x z) y := by
  refine vext (vcwf_vmerge _ _) (vcwf_vmerge _ _) (fun a => ?_)
  rw [vget_vmerge, vget_vmerge, vget_vmerge, vget_vmerge]
  omega

theorem mergeKeepF_comm {W : ValOps} (hcomm : ∀ a b, W.merge a b = W.merge b a)
    (c1 c2 : VClock) (o1 o2 : Option (Entry W)) :
    mergeKeepF W c1 c2 o1 o2 = mergeKeepF W c2 c1 o2 o1 := by
  cases o1 with
  | none =>
    cases o2 with
    | none => rfl
    | some e => rfl
  | some e =>
    cases o2 with
    | none => rfl
    | some oe =>
      simp only [mergeKeepF]
      rw [vinter_comm oe.clock e.clock,
        vmerge_rotate (vinter e.clock oe.clock)
          (vsub (vsub e.clock (vinter e.clock oe.clock)) c2)
          (vsub (vsub oe.clock (vinter e.clock oe.clock)) c1),
        vmerge_comm oe.clock e.clock, hcomm oe.val e.val]

theorem merge_spec_nil {W : ValOps} (m1 m2 : MapS W)
    (h1 : m1.entries.Pairwise (fun p q => natLtB p.1 q.1 = true))
    (h2 : m2.entries.Pairwise (fun p q => natLtB p.1 q.1 = true))
    (hd1 : m1.deferred = []) (hd2 : m2.deferred = []) :
    ∃ K, m1.merge m2 = some ⟨vmerge m1.clock m2.clock, K, []⟩ ∧
      K.Pairwise (fun p q => natLtB p.1 q.1 = true) ∧
      (∀ j, alookup j K = mergeKeepF W m1.clock m2.clock
        (alookup j m1.entries) (alookup j m2.entries)) := by
  obtain ⟨keepF, remF, hres, hkF, hrF, hlook, hrlook⟩ :=
    mergeLoop_spec m1.clock m2.clock m2.entries m1.entries [] m2.entries h1 h2
      List.Pairwise.nil (fun p _ => rfl)
  refine ⟨remF.foldl (fun kp p =>
      if visEmpty (vsub p.2.clock m1.clock) = true then kp
      else ainsert natLtB p.1 ⟨vsub p.2.clock m1.clock,
        W.truncate p.2.val (vsub m1.clock (vsub p.2.clock m1.clock))⟩ kp) keepF,
    ?_, ?_, ?_⟩
  · simp only [MapS.merge, hres, hd2, List.foldl_nil, MapS.applyDeferred, hd1]
  · exact foldPrune_pairwise m1.clock remF keepF hkF
  · intro j
    rw [foldPrune_lookup m1.clock remF keepF hrF j, hrlook j, hlook j]
    cases h1j : alookup j m1.entries with
    | none =>
      cases h2j : alookup j m2.entries with
      | none => rfl
      | some oe =>
        simp only [mergeKeepF]
        by_cases hv : visEmpty (vsub oe.clock m1.clock) = true
        · simp only [if_pos hv]
          rfl
        · simp only [if_neg hv]
    | some e =>
      cases h2j : alookup j m2.entries with
      | none =>
        show (match mergeKeepF W m1.clock m2.clock (some e) none with
          | some v => some v
          | none => (none : Option (Entry W))) =
            mergeKeepF W m1.clock m2.clock (some e) none
        cases mergeKeepF W m1.clock m2.clock (some e) none with
        | none => rfl
        | some v => rfl
      | some oe =>
        show (match mergeKeepF W m1.clock m2.clock (some e) (some oe) with
          | some v => some v
          | none => (none : Option (Entry W))) =
            mergeKeepF W m1.clock m2.clock (some e) (some oe)
        cases mergeKeepF W m1.clock m2.clock (some e) (some oe) with
        | none => rfl
        | some v => rfl

/-! ### Lemmas: towards commutation of `apply` -/

theorem ClockVal_apply : ClockVal.apply = vapplyDot := rfl

theorem ClockVal_truncate : ClockVal.truncate = vsub := rfl

theorem ClockVal_default : ClockVal.default = ([] : VClock) := rfl

theorem vapplyDot_comm {d1 d2 : Dot} (hne : d1.actor ≠ d2.actor) (c : VClock) :
    vapplyDot (vapplyDot c d1) d2 = vapplyDot (vapplyDot c d2) d1 := by
  refine vext (vcwf_vapplyDot _ _) (vcwf_vapplyDot _ _) (fun a => ?_)
  rw [vget_vapplyDot, vget_vapplyDot, vget_vapplyDot, vget_vapplyDot]
  by_cases h1 : a = d1.actor
  · have h2 : a ≠ d2.actor := fun hc => hne (h1.symm.trans hc)
    simp only [if_pos h1, if_neg h2]
  · simp only [if_neg h1]

theorem visEmpty_vapplyDot {d : Dot} (hpos : 0 < d.counter) (c : VClock) :
    visEmpty (vapplyDot c d) = false := by
  cases hb : visEmpty (vapplyDot c d) with
  | false => rfl
  | true =>
    have h2 := (visEmpty_iff (vcwf_vapplyDot c d)).1 hb d.actor
    rw [vget_vapplyDot, if_pos rfl] at h2
    omega

theorem vsub_vapplyDot_swap {d : Dot} {c : VClock} (h : vget c d.actor < d.counter)
    (x : VClock) : vsub (vapplyDot x d) c = vapplyDot (vsub x c) d := by
  refine vext (vcwf_vsub _ _) (vcwf_vapplyDot _ _) (fun a => ?_)
  rw [vget_vsub, vget_vapplyDot, vget_vapplyDot, vget_vsub]
  by_cases ha : a = d.actor
  · subst ha
    have he : (d.actor = d.actor) = True := by simp
    simp only [he, if_true]
    by_cases h1 : vget x d.actor ≤ vget c d.actor
    · rw [if_pos h1,
        if_neg (show ¬ max (vget x d.actor) d.counter ≤ vget c d.actor by omega)]
      omega
    · rw [if_neg h1,
        if_neg (show ¬ max (vget x d.actor) d.counter ≤ vget c d.actor by omega)]
  · simp only [if_neg ha]

theorem alookup_ainsert {K V : Type} [DecidableEq K] (ltb : K → K → Bool)
    (hirr : ∀ a, ltb a a = false) (j k : K) (v : V) (l : List (K × V)) :
    alookup j (ainsert ltb k v l) = if j = k then some v else alookup j l := by
  by_cases hj : j = k
  · subst hj
    rw [if_pos rfl, alookup_ainsert_self]
  · rw [if_neg hj]
    exact alookup_ainsert_ne _ hj _ _

theorem ainsert_comm {K V : Type} [DecidableEq K] {ltb : K → K → Bool}
    (hirr : ∀ a, ltb a a = false)
    (htrans : ∀ a b c, ltb a b = true → ltb b c = true → ltb a c = true)
    (htotal : ∀ a b, a ≠ b → ltb a b = true ∨ ltb b a = true)
    (hasym : ∀ a b, ltb a b = true → ltb b a = true → False)
    {k1 k2 : K} (hk : k1 ≠ k2) (v1 v2 : V) {l : List (K × V)}
    (hl : l.Pairwise (fun p q => ltb p.1 q.1 = true)) :
    ainsert ltb k1 v1 (ainsert ltb k2 v2 l) = ainsert ltb k2 v2 (ainsert ltb k1 v1 l) := by
  refine aext hirr hasym
    (pairwise_ainsert htrans htotal (pairwise_ainsert htrans htotal hl _ _) _ _)
    (pairwise_ainsert htrans htotal (pairwise_ainsert htrans htotal hl _ _) _ _)
    (fun j => ?_)
  rw [alookup_ainsert ltb hirr, alookup_ainsert ltb hirr, alookup_ainsert ltb hirr,
    alookup_ainsert ltb hirr]
  by_cases h1 : j = k1
  · rw [if_pos h1, if_neg (h1 ▸ hk), if_pos h1]
  · rw [if_neg h1]
    by_cases h2 : j = k2
    · rw [if_pos h2, if_pos h2]
    · rw [if_neg h2, if_neg h2, if_neg h1]

theorem vsub_vmerge_self (x c : VClock) : vsub x (vmerge c c) = vsub x c := by
  refine vext (vcwf_vsub _ _) (vcwf_vsub _ _) (fun a => ?_)
  rw [vget_vsub, vget_vsub, vget_vmerge]
  by_cases h1 : vget x a ≤ vget c a
  · rw [if_pos (show vget x a ≤ max (vget c a) (vget c a) by omega), if_pos h1]
  · rw [if_neg (show ¬ vget x a ≤ max (vget c a) (vget c a) by omega), if_neg h1]

theorem pruneOpt_comp (c1 c2 : VClock) (o : Option (Entry ClockVal)) :
    pruneOpt ClockVal c2 (pruneOpt ClockVal c1 o) =
      pruneOpt ClockVal (vmerge c1 c2) o := by
  cases o with
  | none => rfl
  | some e =>
    show pruneOpt ClockVal c2 (if visEmpty (vsub e.clock c1) = true then none
        else some ⟨vsub e.clock c1, ClockVal.truncate e.val c1⟩) =
      (if visEmpty (vsub e.clock (vmerge c1 c2)) = true then none
        else some ⟨vsub e.clock (vmerge c1 c2), ClockVal.truncate e.val (vmerge c1 c2)⟩)
    by_cases h1 : visEmpty (vsub e.clock c1) = true
    · rw [if_pos h1, if_pos ((visEmpty_vsub_iff _ _).2
        (vle_trans ((visEmpty_vsub_iff _ _).1 h1) (vle_vmerge_left c1 c2)))]
      rfl
    · rw [if_neg h1]
      show (if visEmpty (vsub (vsub e.clock c1) c2) = true then none
          else some (⟨vsub (vsub e.clock c1) c2,
            ClockVal.truncate (ClockVal.truncate e.val c1) c2⟩ : Entry ClockVal)) = _
      rw [ClockVal_truncate, vsub_vsub, vsub_vsub]

theorem pruneOpt_comm (c1 c2 : VClock) (o : Option (Entry ClockVal)) :
    pruneOpt ClockVal c2 (pruneOpt ClockVal c1 o) =
      pruneOpt ClockVal c1 (pruneOpt ClockVal c2 o) := by
  rw [pruneOpt_comp, pruneOpt_comp, vmerge_comm]

theorem pruneOpt_idem (c : VClock) (o : Option (Entry ClockVal)) :
    pruneOpt ClockVal c (pruneOpt ClockVal c o) = pruneOpt ClockVal c o := by
  rw [pruneOpt_comp]
  cases o with
  | none => rfl
  | some e =>
    show (if visEmpty (vsub e.clock (vmerge c c)) = true then none
        else some (⟨vsub e.clock (vmerge c c),
          ClockVal.truncate e.val (vmerge c c)⟩ : Entry ClockVal)) =
      (if visEmpty (vsub e.clock c) = true then none
        else some (⟨vsub e.clock c, ClockVal.truncate e.val c⟩ : Entry ClockVal))
    rw [ClockVal_truncate, vsub_vmerge_self, vsub_vmerge_self]

theorem applyDeferred_nil {W : ValOps} (m : MapS W) (h : m.deferred = []) :
    m.applyDeferred = m := by
  cases m with
  | mk c e d =>
    have h2 : d = [] := h
    subst h2
    rfl

theorem applyDeferred_singleton {W : ValOps} (ck : VClock) (E : List (Nat × Entry W))
    (c : VClock) (k : Nat) :
    (MapS.mk ck E [(c, [k])]).applyDeferred = (MapS.mk ck E []).applyRm k c := rfl

theorem apply_up_def {W : ValOps} (m : MapS W) (d : Dot) (k : Nat) (vop : W.Op)
    (h : ¬ d.counter ≤ vget m.clock d.actor) (hd : m.deferred = []) :
    m.apply (.up d k vop) = ⟨vapplyDot m.clock d,
      ainsert natLtB k
        ⟨vapplyDot ((alookup k m.entries).getD ⟨[], W.default⟩).clock d,
          W.apply ((alookup k m.entries).getD ⟨[], W.default⟩).val vop⟩ m.entries, []⟩ := by
  rw [MapS.apply, if_neg h, hd]
  exact applyDeferred_nil _ rfl

theorem insKey_pair_comm (k1 k2 : Nat) : insKey k2 [k1] = insKey k1 [k2] := by
  by_cases h1 : k2 < k1
  · simp [insKey, h1, show ¬ k1 < k2 by omega, show k1 ≠ k2 by omega]
  · by_cases h2 : k2 = k1
    · subst h2; rfl
    · simp [insKey, h1, h2, show k1 < k2 by omega, show k1 ≠ k2 by omega]

theorem ainsert_self_pair (c : VClock) (v w : List Nat) :
    ainsert listLtB c v [(c, w)] = [(c, v)] := by
  show (if listLtB c c = true then (c, v) :: (c, w) :: []
    else if c = c then (c, v) :: [] else (c, w) :: ainsert listLtB c v []) = [(c, v)]
  rw [listLtB_irrefl, if_neg (by simp), if_pos rfl]

theorem listLtB_false_of_asym {c1 c2 : List (Nat × Nat)}
    (h : listLtB c1 c2 = true) : listLtB c2 c1 = false := by
  cases hb : listLtB c2 c1 with
  | false => rfl
  | true => exact (listLtB_asym c1 c2 h hb).elim

theorem dinsert_comm_nil (c1 c2 : VClock) (k1 k2 : Nat) :
    dinsert c2 k2 (dinsert c1 k1 []) = dinsert c1 k1 (dinsert c2 k2 []) := by
  have h1 : ∀ (c : VClock) (k : Nat),
      dinsert c k ([] : List (VClock × List Nat)) = [(c, [k])] := fun c k => rfl
  rw [h1, h1]
  by_cases hc : c2 = c1
  · subst hc
    rw [dinsert, dinsert, alookup_cons_self, alookup_cons_self]
    show ainsert listLtB c2 (insKey k2 ((some [k1]).getD [])) [(c2, [k1])] =
      ainsert listLtB c2 (insKey k1 ((some [k2]).getD [])) [(c2, [k2])]
    rw [ainsert_self_pair, ainsert_self_pair]
    show [(c2, insKey k2 [k1])] = [(c2, insKey k1 [k2])]
    rw [insKey_pair_comm]
  · have hc1 : c1 ≠ c2 := fun h => hc h.symm
    have hl2 : alookup c2 [(c1, [k1])] = none := by
      rw [alookup, if_neg hc]
      rfl
    have hl1 : alookup c1 [(c2, [k2])] = none := by
      rw [alookup, if_neg hc1]
      rfl
    rw [dinsert, dinsert, hl2, hl1]
    show ainsert listLtB c2 [k2] [(c1, [k1])] = ainsert listLtB c1 [k1] [(c2, [k2])]
    rcases listLtB_total c1 c2 hc1 with h | h
    · have h2 := listLtB_false_of_asym h
      show (if listLtB c2 c1 = true then (c2, [k2]) :: (c1, [k1]) :: []
          else if c2 = c1 then (c2, [k2]) :: []
          else (c1, [k1]) :: ainsert listLtB c2 [k2] []) =
        (if listLtB c1 c2 = true then (c1, [k1]) :: (c2, [k2]) :: []
          else if c1 = c2 then (c1, [k1]) :: []
          else (c2, [k2]) :: ainsert listLtB c1 [k1] [])
      rw [h2, if_neg (by simp), if_neg hc, if_pos h]
      rfl
    · have h2 := listLtB_false_of_asym h
      show (if listLtB c2 c1 = true then (c2, [k2]) :: (c1, [k1]) :: []
          else if c2 = c1 then (c2, [k2]) :: []
          else (c1, [k1]) :: ainsert listLtB c2 [k2] []) =
        (if listLtB c1 c2 = true then (c1, [k1]) :: (c2, [k2]) :: []
          else if c1 = c2 then (c1, [k1]) :: []
          else (c2, [k2]) :: ainsert listLtB c1 [k1] [])
      rw [if_pos h, h2, if_neg (by simp), if_neg hc1]
      rfl

theorem entries_pairwise_natLtB {W : ValOps} {l : List (Nat × Entry W)}
    (h : l.Pairwise (fun p q => p.1 < q.1)) :
    l.Pairwise (fun p q => natLtB p.1 q.1 = true) :=
  h.imp (fun hpq => decide_eq_true hpq)


theorem apply_up_def_cv (m : MapS ClockVal) (d : Dot) (k : Nat)
    (h : ¬ d.counter ≤ vget m.clock d.actor) (hd : m.deferred = []) :
    m.apply (.up d k (d : ClockVal.Op)) =
      ⟨vapplyDot m.clock d, ainsert natLtB k (upEntry d k m.entries) m.entries, []⟩ :=
  apply_up_def m d k _ h hd

theorem mk_clock {W : ValOps} (a : VClock) (b : List (Nat × Entry W))
    (c : List (VClock × List Nat)) : (MapS.mk a b c).clock = a := rfl

theorem mk_entries {W : ValOps} (a : VClock) (b : List (Nat × Entry W))
    (c : List (VClock × List Nat)) : (MapS.mk a b c).entries = b := rfl

theorem mk_deferred {W : ValOps} (a : VClock) (b : List (Nat × Entry W))
    (c : List (VClock × List Nat)) : (MapS.mk a b c).deferred = c := rfl

theorem apply_rm_def {W : ValOps} (m : MapS W) (c : VClock) (k : Nat) :
    m.apply (.rm c k) = m.applyRm k c := rfl

theorem apply_up_def2 (m : MapS ClockVal) (d : Dot) (k : Nat)
    (h : ¬ d.counter ≤ vget m.clock d.actor) :
    m.apply (.up d k (d : ClockVal.Op)) =
      (MapS.mk (vapplyDot m.clock d)
        (ainsert natLtB k (upEntry d k m.entries) m.entries)
        m.deferred).applyDeferred := by
  rw [MapS.apply, if_neg h]
  rfl

theorem upState_clock (m : MapS ClockVal) (d : Dot) (k : Nat) :
    (upState m d k).clock = vapplyDot m.clock d := rfl

theorem upState_entries (m : MapS ClockVal) (d : Dot) (k : Nat) :
    (upState m d k).entries =
      ainsert natLtB k (upEntry d k m.entries) m.entries := rfl

theorem upState_deferred (m : MapS ClockVal) (d : Dot) (k : Nat) :
    (upState m d k).deferred = m.deferred := rfl

theorem apply_up_def3 (m : MapS ClockVal) (d : Dot) (k : Nat)
    (h : ¬ d.counter ≤ vget m.clock d.actor) :
    m.apply (.up d k (d : ClockVal.Op)) = (upState m d k).applyDeferred :=
  apply_up_def2 m d k h

theorem visEmpty_eq_nil {c : VClock} (h : visEmpty c = true) : c = [] := by
  cases c with
  | nil => rfl
  | cons p t => cases h

theorem vsub_nil (c : VClock) : vsub [] c = [] := rfl

theorem vsub_vapplyDot_vsub (x c : VClock) (d : Dot) :
    vsub (vapplyDot (vsub x c) d) c = vsub (vapplyDot x d) c := by
  refine vext (vcwf_vsub _ _) (vcwf_vsub _ _) (fun a => ?_)
  rw [vget_vsub, vget_vsub, vget_vapplyDot, vget_vapplyDot, vget_vsub]
  by_cases ha : a = d.actor
  · rw [if_pos ha, if_pos ha]
    split_ifs <;> omega
  · rw [if_neg ha, if_neg ha]
    split_ifs <;> omega

theorem pruneOpt_dot_pull {d : Dot} {c : VClock} (hlt : vget c d.actor < d.counter)
    (o : Option (Entry ClockVal)) (hdisc : ∀ e, o = some e → vle e.val e.clock) :
    pruneOpt ClockVal c (some ⟨vapplyDot ((o.getD ⟨[], ClockVal.default⟩).clock) d,
        vapplyDot ((o.getD ⟨[], ClockVal.default⟩).val) d⟩) =
      some ⟨vapplyDot (((pruneOpt ClockVal c o).getD ⟨[], ClockVal.default⟩).clock) d,
        vapplyDot (((pruneOpt ClockVal c o).getD ⟨[], ClockVal.default⟩).val) d⟩ := by
  have hpos : 0 < d.counter := Nat.lt_of_le_of_lt (Nat.zero_le _) hlt
  cases o with
  | none =>
    show (if visEmpty (vsub (vapplyDot [] d) c) = true then none
        else some (⟨vsub (vapplyDot [] d) c,
          ClockVal.truncate (vapplyDot [] d) c⟩ : Entry ClockVal)) =
      some ⟨vapplyDot [] d, vapplyDot [] d⟩
    rw [ClockVal_truncate, vsub_vapplyDot_swap hlt, vsub_nil,
      if_neg (by rw [visEmpty_vapplyDot hpos]; exact Bool.false_ne_true)]
  | some e0 =>
    have hd0 : ∀ (x : Entry ClockVal), (some x).getD ⟨[], ClockVal.default⟩ = x :=
      fun x => rfl
    rw [hd0]
    by_cases hv : visEmpty (vsub e0.clock c) = true
    · have hnil : vsub e0.clock c = [] := visEmpty_eq_nil hv
      have hvnil : vsub e0.val c = [] := visEmpty_eq_nil ((visEmpty_vsub_iff _ _).2
        (vle_trans (hdisc e0 rfl) ((visEmpty_vsub_iff _ _).1 hv)))
      have hr : pruneOpt ClockVal c (some e0) = none := by
        show (if visEmpty (vsub e0.clock c) = true then none
          else some (⟨vsub e0.clock c,
            ClockVal.truncate e0.val c⟩ : Entry ClockVal)) = none
        rw [if_pos hv]
      rw [hr]
      show (if visEmpty (vsub (vapplyDot e0.clock d) c) = true then none
          else some (⟨vsub (vapplyDot e0.clock d) c,
            ClockVal.truncate (vapplyDot e0.val d) c⟩ : Entry ClockVal)) =
        some ⟨vapplyDot [] d, vapplyDot [] d⟩
      rw [ClockVal_truncate, vsub_vapplyDot_swap hlt, vsub_vapplyDot_swap hlt,
        hnil, hvnil, if_neg (by rw [visEmpty_vapplyDot hpos]; exact Bool.false_ne_true)]
    · have hr : pruneOpt ClockVal c (some e0) =
          some ⟨vsub e0.clock c, ClockVal.truncate e0.val c⟩ := by
        show (if visEmpty (vsub e0.clock c) = true then none
          else some (⟨vsub e0.clock c,
            ClockVal.truncate e0.val c⟩ : Entry ClockVal)) = _
        rw [if_neg hv]
      rw [hr, hd0]
      show (if visEmpty (vsub (vapplyDot e0.clock d) c) = true then none
          else some (⟨vsub (vapplyDot e0.clock d) c,
            ClockVal.truncate (vapplyDot e0.val d) c⟩ : Entry ClockVal)) =
        some ⟨vapplyDot (vsub e0.clock c) d,
          vapplyDot (ClockVal.truncate e0.val c) d⟩
      rw [ClockVal_truncate, vsub_vapplyDot_swap hlt, vsub_vapplyDot_swap hlt,
        if_neg (by rw [visEmpty_vapplyDot hpos]; exact Bool.false_ne_true)]

theorem pruneOpt_dot_prune {d : Dot} (c : VClock) (o : Option (Entry ClockVal))
    (hdisc : ∀ e, o = some e → vle e.val e.clock) :
    pruneOpt ClockVal c
        (some ⟨vapplyDot (((pruneOpt ClockVal c o).getD ⟨[], ClockVal.default⟩).clock) d,
          vapplyDot (((pruneOpt ClockVal c o).getD ⟨[], ClockVal.default⟩).val) d⟩) =
      pruneOpt ClockVal c (some ⟨vapplyDot ((o.getD ⟨[], ClockVal.default⟩).clock) d,
        vapplyDot ((o.getD ⟨[], ClockVal.default⟩).val) d⟩) := by
  cases o with
  | none => rfl
  | some e0 =>
    have hd0 : ∀ (x : Entry ClockVal), (some x).getD ⟨[], ClockVal.default⟩ = x :=
      fun x => rfl
    rw [hd0]
    by_cases hv : visEmpty (vsub e0.clock c) = true
    · have hnil : vsub e0.clock c = [] := visEmpty_eq_nil hv
      have hvnil : vsub e0.val c = [] := visEmpty_eq_nil ((visEmpty_vsub_iff _ _).2
        (vle_trans (hdisc e0 rfl) ((visEmpty_vsub_iff _ _).1 hv)))
      have hr : pruneOpt ClockVal c (some e0) = none := by
        show (if visEmpty (vsub e0.clock c) = true then none
          else some (⟨vsub e0.clock c,
            ClockVal.truncate e0.val c⟩ : Entry ClockVal)) = none
        rw [if_pos hv]
      rw [hr]
      show (if visEmpty (vsub (vapplyDot [] d) c) = true then none
          else some (⟨vsub (vapplyDot [] d) c,
            ClockVal.truncate (vapplyDot [] d) c⟩ : Entry ClockVal)) =
        (if visEmpty (vsub (vapplyDot e0.clock d) c) = true then none
          else some (⟨vsub (vapplyDot e0.clock d) c,
            ClockVal.truncate (vapplyDot e0.val d) c⟩ : Entry ClockVal))
      rw [ClockVal_truncate,
        show vsub (vapplyDot e0.clock d) c = vsub (vapplyDot [] d) c from by
          rw [← vsub_vapplyDot_vsub e0.clock, hnil],
        show vsub (vapplyDot e0.val d) c = vsub (vapplyDot [] d) c from by
          rw [← vsub_vapplyDot_vsub e0.val, hvnil]]
    · have hr : pruneOpt ClockVal c (some e0) =
          some ⟨vsub e0.clock c, ClockVal.truncate e0.val c⟩ := by
        show (if visEmpty (vsub e0.clock c) = true then none
          else some (⟨vsub e0.clock c,
            ClockVal.truncate e0.val c⟩ : Entry ClockVal)) = _
        rw [if_neg hv]
      rw [hr, hd0]
      show (if visEmpty (vsub (vapplyDot (vsub e0.clock c) d) c) = true then none
          else some (⟨vsub (vapplyDot (vsub e0.clock c) d) c,
            ClockVal.truncate (vapplyDot (ClockVal.truncate e0.val c) d) c⟩ :
              Entry ClockVal)) =
        (if visEmpty (vsub (vapplyDot e0.clock d) c) = true then none
          else some (⟨vsub (vapplyDot e0.clock d) c,
            ClockVal.truncate (vapplyDot e0.val d) c⟩ : Entry ClockVal))
      rw [ClockVal_truncate, vsub_vapplyDot_vsub, vsub_vapplyDot_vsub]


theorem vle_vsub_vsub {x y : VClock} (h : vle x y) (c : VClock) :
    vle (vsub x c) (vsub y c) := by
  intro a
  rw [vget_vsub, vget_vsub]
  have h2 := h a
  split_ifs <;> omega

theorem pruneOpt_optdisc {c : VClock} {o : Option (Entry ClockVal)}
    (h : ∀ e, o = some e → vle e.val e.clock) :
    ∀ e, pruneOpt ClockVal c o = some e → vle e.val e.clock := by
  intro e he
  cases o with
  | none => exact absurd he (by simp [pruneOpt])
  | some e0 =>
    have hd := h e0 rfl
    by_cases hv : visEmpty (vsub e0.clock c) = true
    · refine absurd he ?_
      show ¬ (if visEmpty (vsub e0.clock c) = true then none
        else some (⟨vsub e0.clock c, ClockVal.truncate e0.val c⟩ : Entry ClockVal)) =
          some e
      rw [if_pos hv]
      simp
    · have he2 : some (⟨vsub e0.clock c,
          ClockVal.truncate e0.val c⟩ : Entry ClockVal) = some e := by
        rw [← he]
        show some _ = if visEmpty (vsub e0.clock c) = true then none
          else some (⟨vsub e0.clock c, ClockVal.truncate e0.val c⟩ : Entry ClockVal)
        rw [if_neg hv]
      have h3 := Option.some.inj he2
      rw [← h3]
      show vle (vsub e0.val c) (vsub e0.clock c)
      exact vle_vsub_vsub hd c

theorem dprune_pruneOpt_comm (D : List (VClock × List Nat)) (j : Nat) (c : VClock) :
    ∀ o : Option (Entry ClockVal),
      dprune D j (pruneOpt ClockVal c o) = pruneOpt ClockVal c (dprune D j o) := by
  induction D with
  | nil => intro o; rfl
  | cons p rest ih =>
    intro o
    show dprune rest j (if j ∈ p.2 then pruneOpt ClockVal p.1 (pruneOpt ClockVal c o)
        else pruneOpt ClockVal c o) =
      pruneOpt ClockVal c (dprune rest j (if j ∈ p.2 then pruneOpt ClockVal p.1 o else o))
    by_cases hm : j ∈ p.2
    · rw [if_pos hm, if_pos hm, pruneOpt_comm, ih]
    · rw [if_neg hm, if_neg hm, ih]

theorem dprune_mem_absorb {D : List (VClock × List Nat)} {c : VClock} {ks : List Nat}
    {j : Nat} (hmem : (c, ks) ∈ D) (hj : j ∈ ks) :
    ∀ o : Option (Entry ClockVal),
      pruneOpt ClockVal c (dprune D j o) = dprune D j o := by
  induction D with
  | nil => cases hmem
  | cons p rest ih =>
    intro o
    show pruneOpt ClockVal c
        (dprune rest j (if j ∈ p.2 then pruneOpt ClockVal p.1 o else o)) =
      dprune rest j (if j ∈ p.2 then pruneOpt ClockVal p.1 o else o)
    rcases List.mem_cons.1 hmem with heq | hmem2
    · rw [← heq, if_pos hj, dprune_pruneOpt_comm, pruneOpt_idem]
    · by_cases hm : j ∈ p.2
      · rw [if_pos hm]
        exact ih hmem2 _
      · rw [if_neg hm]
        exact ih hmem2 _

theorem dprune_sub_absorb {D2 D : List (VClock × List Nat)} {j : Nat}
    (hsub : ∀ p ∈ D2, p ∈ D) (o : Option (Entry ClockVal)) :
    dprune D2 j (dprune D j o) = dprune D j o := by
  induction D2 with
  | nil => rfl
  | cons p rest ih =>
    show dprune rest j (if j ∈ p.2 then pruneOpt ClockVal p.1 (dprune D j o)
        else dprune D j o) = dprune D j o
    by_cases hm : j ∈ p.2
    · rw [if_pos hm, dprune_mem_absorb (hsub p (List.mem_cons_self p rest)) hm]
      exact ih (fun q hq => hsub q (List.mem_cons_of_mem _ hq))
    · rw [if_neg hm]
      exact ih (fun q hq => hsub q (List.mem_cons_of_mem _ hq))

theorem dprune_optdisc (D : List (VClock × List Nat)) (j : Nat) :
    ∀ (o : Option (Entry ClockVal)), (∀ e, o = some e → vle e.val e.clock) →
      ∀ e, dprune D j o = some e → vle e.val e.clock := by
  induction D with
  | nil => intro o h; exact h
  | cons p rest ih =>
    intro o h e he
    have he2 : dprune rest j (if j ∈ p.2 then pruneOpt ClockVal p.1 o else o) =
        some e := he
    by_cases hm : j ∈ p.2
    · rw [if_pos hm] at he2
      exact ih _ (pruneOpt_optdisc h) e he2
    · rw [if_neg hm] at he2
      exact ih _ h e he2

theorem alookup_none_of_lt_all {l : List (VClock × List Nat)} {c : VClock}
    (h : ∀ q ∈ l, listLtB c q.1 = true) : alookup c l = none := by
  rw [alookup_none_iff]
  intro hc
  obtain ⟨p, hp, hpc⟩ := List.mem_map.1 hc
  have h2 := h p hp
  rw [hpc, listLtB_irrefl] at h2
  cases h2

theorem alookup_none_of_all_lt {l : List (VClock × List Nat)} {c : VClock}
    (h : ∀ q ∈ l, listLtB q.1 c = true) : alookup c l = none := by
  rw [alookup_none_iff]
  intro hc
  obtain ⟨p, hp, hpc⟩ := List.mem_map.1 hc
  have h2 := h p hp
  rw [hpc, listLtB_irrefl] at h2
  cases h2

theorem dprune_ainsert_same (c : VClock) (v : List Nat) (j : Nat) :
    ∀ (D : List (VClock × List Nat)),
      D.Pairwise (fun p q => listLtB p.1 q.1 = true) →
      ((j ∈ v) ↔ (∃ s, alookup c D = some s ∧ j ∈ s)) →
      ∀ o, dprune (ainsert listLtB c v D) j o = dprune D j o := by
  intro D
  induction D with
  | nil =>
    intro _ hiff o
    have hnv : j ∉ v := fun hj => by
      obtain ⟨s, hs, _⟩ := hiff.1 hj
      cases hs
    show dprune [] j (if j ∈ (c, v).2 then pruneOpt ClockVal c o else o) = o
    rw [if_neg hnv]
    rfl
  | cons p rest ih =>
    intro hDp hiff o
    obtain ⟨hhead, htail⟩ := List.pairwise_cons.1 hDp
    cases p with
    | mk c2 s =>
      show dprune (if listLtB c c2 = true then (c, v) :: (c2, s) :: rest
          else if c = c2 then (c, v) :: rest
          else (c2, s) :: ainsert listLtB c v rest) j o =
        dprune ((c2, s) :: rest) j o
      by_cases hlt : listLtB c c2 = true
      · rw [if_pos hlt]
        have hnone : alookup c ((c2, s) :: rest) = none := by
          apply alookup_none_of_lt_all
          intro q hq
          rcases List.mem_cons.1 hq with rfl | hq2
          · exact hlt
          · exact listLtB_trans _ _ _ hlt (hhead q hq2)
        have hnv : j ∉ v := fun hj => by
          obtain ⟨s2, hs2, _⟩ := hiff.1 hj
          rw [hnone] at hs2
          cases hs2
        show dprune ((c2, s) :: rest) j
            (if j ∈ (c, v).2 then pruneOpt ClockVal c o else o) =
          dprune ((c2, s) :: rest) j o
        rw [if_neg hnv]
      · rw [if_neg hlt]
        by_cases heq : c = c2
        · rw [if_pos heq]
          subst heq
          have hiff2 : (j ∈ v) ↔ (j ∈ s) := by
            constructor
            · intro hj
              obtain ⟨s2, hs2, hj2⟩ := hiff.1 hj
              rw [alookup_cons_self] at hs2
              cases Option.some.inj hs2
              exact hj2
            · intro hj
              exact hiff.2 ⟨s, alookup_cons_self _ _ _, hj⟩
          show dprune rest j (if j ∈ (c, v).2 then pruneOpt ClockVal c o else o) =
            dprune rest j (if j ∈ (c, s).2 then pruneOpt ClockVal c o else o)
          by_cases hj : j ∈ v
          · rw [if_pos hj, if_pos (hiff2.1 hj)]
          · rw [if_neg hj, if_neg (fun hc => hj (hiff2.2 hc))]
        · rw [if_neg heq]
          show dprune (ainsert listLtB c v rest) j
              (if j ∈ (c2, s).2 then pruneOpt ClockVal c2 o else o) =
            dprune rest j (if j ∈ (c2, s).2 then pruneOpt ClockVal c2 o else o)
          refine ih htail ?_ _
          rw [show alookup c ((c2, s) :: rest) = alookup c rest from by
            rw [alookup, if_neg heq]] at hiff
          exact hiff

theorem dprune_ainsert_add (c : VClock) (v : List Nat) (j : Nat) (hj : j ∈ v) :
    ∀ (D : List (VClock × List Nat)),
      D.Pairwise (fun p q => listLtB p.1 q.1 = true) →
      (∀ s, alookup c D = some s → j ∉ s) →
      ∀ o, dprune (ainsert listLtB c v D) j o = pruneOpt ClockVal c (dprune D j o) := by
  intro D
  induction D with
  | nil =>
    intro _ _ o
    show dprune [] j (if j ∈ (c, v).2 then pruneOpt ClockVal c o else o) =
      pruneOpt ClockVal c o
    rw [if_pos hj]
    rfl
  | cons p rest ih =>
    intro hDp hno o
    obtain ⟨hhead, htail⟩ := List.pairwise_cons.1 hDp
    cases p with
    | mk c2 s =>
      show dprune (if listLtB c c2 = true then (c, v) :: (c2, s) :: rest
          else if c = c2 then (c, v) :: rest
          else (c2, s) :: ainsert listLtB c v rest) j o =
        pruneOpt ClockVal c (dprune ((c2, s) :: rest) j o)
      by_cases hlt : listLtB c c2 = true
      · rw [if_pos hlt]
        show dprune ((c2, s) :: rest) j
            (if j ∈ (c, v).2 then pruneOpt ClockVal c o else o) = _
        rw [if_pos hj, dprune_pruneOpt_comm]
      · rw [if_neg hlt]
        by_cases heq : c = c2
        · rw [if_pos heq]
          subst heq
          have hns : j ∉ s := hno s (alookup_cons_self _ _ _)
          show dprune rest j (if j ∈ (c, v).2 then pruneOpt ClockVal c o else o) =
            pruneOpt ClockVal c
              (dprune rest j (if j ∈ (c, s).2 then pruneOpt ClockVal c o else o))
          rw [if_pos hj, if_neg hns, dprune_pruneOpt_comm]
        · rw [if_neg heq]
          show dprune (ainsert listLtB c v rest) j
              (if j ∈ (c2, s).2 then pruneOpt ClockVal c2 o else o) =
            pruneOpt ClockVal c
              (dprune rest j (if j ∈ (c2, s).2 then pruneOpt ClockVal c2 o else o))
          refine ih htail ?_ _
          intro s2 hs2
          refine hno s2 ?_
          rw [alookup, if_neg heq]
          exact hs2

theorem dprune_dinsert_ne {c : VClock} {k2 j : Nat} (hj : j ≠ k2)
    (D : List (VClock × List Nat))
    (hDp : D.Pairwise (fun p q => listLtB p.1 q.1 = true))
    (o : Option (Entry ClockVal)) :
    dprune (dinsert c k2 D) j o = dprune D j o := by
  rw [dinsert]
  cases hl : alookup c D with
  | none =>
    refine dprune_ainsert_same c [k2] j D hDp ⟨fun hjm => ?_, fun hex => ?_⟩ o
    · rcases List.mem_singleton.1 hjm with rfl
      exact absurd rfl hj
    · obtain ⟨s, hs, _⟩ := hex
      rw [hl] at hs
      cases hs
  | some s =>
    refine dprune_ainsert_same c (insKey k2 s) j D hDp ⟨fun hjm => ?_, fun hex => ?_⟩ o
    · rcases mem_insKey.1 hjm with rfl | hjs
      · exact absurd rfl hj
      · exact ⟨s, hl, hjs⟩
    · obtain ⟨s2, hs2, hj2⟩ := hex
      rw [hl] at hs2
      cases Option.some.inj hs2
      exact mem_insKey.2 (Or.inr hj2)

theorem dprune_dinsert_self (c : VClock) (k : Nat)
    (D : List (VClock × List Nat))
    (hDp : D.Pairwise (fun p q => listLtB p.1 q.1 = true))
    (o : Option (Entry ClockVal)) :
    dprune (dinsert c k D) k o = pruneOpt ClockVal c (dprune D k o) := by
  rw [dinsert]
  cases hl : alookup c D with
  | none =>
    exact dprune_ainsert_add c [k] k (List.mem_singleton.2 rfl) D hDp
      (fun s hs => by rw [hl] at hs; cases hs) o
  | some s =>
    by_cases hks : k ∈ s
    · rw [dprune_ainsert_same c (insKey k s) k D hDp
        ⟨fun _ => ⟨s, hl, hks⟩, fun _ => mem_insKey.2 (Or.inr hks)⟩ o]
      exact (dprune_mem_absorb (alookup_mem hl) hks o).symm
    · exact dprune_ainsert_add c (insKey k s) k (mem_insKey.2 (Or.inl rfl)) D hDp
        (fun s2 hs2 => by
          rw [hl] at hs2
          cases Option.some.inj hs2
          exact hks) o

theorem ainsert_append {K V : Type} [DecidableEq K] {ltb : K → K → Bool}
    (hirr : ∀ a, ltb a a = false)
    (hasym : ∀ a b, ltb a b = true → ltb b a = true → False)
    (c : K) (v : V) :
    ∀ l : List (K × V), (∀ q ∈ l, ltb q.1 c = true) →
      ainsert ltb c v l = l ++ [(c, v)] := by
  intro l
  induction l with
  | nil => intro _; rfl
  | cons q t ih =>
    intro h
    cases q with
    | mk k2 v2 =>
      have h2 := h (k2, v2) (List.mem_cons_self _ _)
      have hne : ¬ c = k2 := by
        intro hc
        rw [hc, hirr] at h2
        cases h2
      show (if ltb c k2 = true then (c, v) :: (k2, v2) :: t
          else if c = k2 then (c, v) :: t
          else (k2, v2) :: ainsert ltb c v t) = (k2, v2) :: (t ++ [(c, v)])
      rw [if_neg (fun hc => hasym _ _ h2 hc), if_neg hne,
        ih (fun q hq => h q (List.mem_cons_of_mem _ hq))]

theorem alookup_append_self {K V : Type} [DecidableEq K] (c : K) (s : V) :
    ∀ l : List (K × V), (∀ q ∈ l, q.1 ≠ c) →
      alookup c (l ++ [(c, s)]) = some s := by
  intro l
  induction l with
  | nil => intro _; exact alookup_cons_self _ _ _
  | cons q t ih =>
    intro h
    cases q with
    | mk k2 v2 =>
      show (if c = k2 then some v2 else alookup c (t ++ [(c, s)])) = some s
      rw [if_neg (fun hc => h (k2, v2) (List.mem_cons_self _ _) hc.symm),
        ih (fun q hq => h q (List.mem_cons_of_mem _ hq))]

theorem ainsert_append_self {K V : Type} [DecidableEq K] {ltb : K → K → Bool}
    (hirr : ∀ a, ltb a a = false)
    (hasym : ∀ a b, ltb a b = true → ltb b a = true → False)
    (c : K) (v s : V) :
    ∀ l : List (K × V), (∀ q ∈ l, ltb q.1 c = true) →
      ainsert ltb c v (l ++ [(c, s)]) = l ++ [(c, v)] := by
  intro l
  induction l with
  | nil =>
    intro _
    show (if ltb c c = true then (c, v) :: (c, s) :: []
        else if c = c then (c, v) :: [] else (c, s) :: ainsert ltb c v []) = [(c, v)]
    rw [hirr, if_neg (by simp), if_pos rfl]
  | cons q t ih =>
    intro h
    cases q with
    | mk k2 v2 =>
      have h2 := h (k2, v2) (List.mem_cons_self _ _)
      have hne : ¬ c = k2 := by
        intro hc
        rw [hc, hirr] at h2
        cases h2
      show (if ltb c k2 = true then (c, v) :: (k2, v2) :: (t ++ [(c, s)])
          else if c = k2 then (c, v) :: (t ++ [(c, s)])
          else (k2, v2) :: ainsert ltb c v (t ++ [(c, s)])) = (k2, v2) :: (t ++ [(c, v)])
      rw [if_neg (fun hc => hasym _ _ h2 hc), if_neg hne,
        ih (fun q hq => h q (List.mem_cons_of_mem _ hq))]

theorem insKey_append (k : Nat) : ∀ s : List Nat, (∀ x ∈ s, x < k) →
    insKey k s = s ++ [k] := by
  intro s
  induction s with
  | nil => intro _; rfl
  | cons b t ih =>
    intro h
    have hb := h b (List.mem_cons_self _ _)
    show (if k < b then k :: b :: t else if k = b then b :: t else b :: insKey k t) =
      b :: (t ++ [k])
    rw [if_neg (by omega), if_neg (by omega),
      ih (fun x hx => h x (List.mem_cons_of_mem _ hx))]

theorem foldRmKeys_deferred_fold (c : VClock) :
    ∀ (ks : List Nat) (m : MapS ClockVal),
      (ks.foldl (fun a k => a.applyRm k c) m).deferred =
        if vleB c m.clock = true then m.deferred
        else ks.foldl (fun dd k => dinsert c k dd) m.deferred := by
  intro ks
  induction ks with
  | nil =>
    intro m
    exact (ite_self m.deferred).symm
  | cons k t ih =>
    intro m
    rw [List.foldl_cons, ih (m.applyRm k c), applyRm_clock, applyRm_deferred]
    by_cases hb : vleB c m.clock = true
    · simp only [if_pos hb]
    · simp only [if_neg hb]
      rw [List.foldl_cons]

theorem dinsert_foldl (c : VClock) :
    ∀ (ks : List Nat) (dd : List (VClock × List Nat)) (s : List Nat),
      (∀ q ∈ dd, listLtB q.1 c = true) →
      (∀ x ∈ s, ∀ y ∈ ks, x < y) →
      ks.Pairwise (· < ·) →
      ks.foldl (fun dd k => dinsert c k dd) (dd ++ [(c, s)]) = dd ++ [(c, s ++ ks)] := by
  intro ks
  induction ks with
  | nil => intro dd s _ _ _; simp
  | cons k t ih =>
    intro dd s hdd hs hks
    obtain ⟨hhead, htail⟩ := List.pairwise_cons.1 hks
    rw [List.foldl_cons]
    have h1 : dinsert c k (dd ++ [(c, s)]) = dd ++ [(c, s ++ [k])] := by
      rw [dinsert, alookup_append_self c s dd (fun q hq hc => by
        have h2 := hdd q hq
        rw [hc, listLtB_irrefl] at h2
        cases h2)]
      show ainsert listLtB c (insKey k s) (dd ++ [(c, s)]) = dd ++ [(c, s ++ [k])]
      rw [insKey_append k s (fun x hx => hs x hx k (List.mem_cons_self _ _)),
        ainsert_append_self listLtB_irrefl listLtB_asym c (s ++ [k]) s dd hdd]
    rw [h1, ih dd (s ++ [k]) hdd (fun x hx y hy => by
        rcases List.mem_append.1 hx with hx2 | hx2
        · exact hs x hx2 y (List.mem_cons_of_mem _ hy)
        · rcases List.mem_singleton.1 hx2 with rfl
          exact hhead y hy) htail]
    simp

theorem foldRmKeys_deferred (c : VClock) (ks : List Nat) (m : MapS ClockVal)
    (hgt : ∀ q ∈ m.deferred, listLtB q.1 c = true)
    (hks : ks.Pairwise (· < ·)) :
    (ks.foldl (fun a k => a.applyRm k c) m).deferred =
      if vleB c m.clock = true then m.deferred
      else if ks.isEmpty = true then m.deferred
      else m.deferred ++ [(c, ks)] := by
  rw [foldRmKeys_deferred_fold]
  by_cases hb : vleB c m.clock = true
  · rw [if_pos hb, if_pos hb]
  · rw [if_neg hb, if_neg hb]
    cases ks with
    | nil => rfl
    | cons k t =>
      rw [if_neg (by simp)]
      rw [List.foldl_cons]
      have h1 : dinsert c k m.deferred = m.deferred ++ [(c, [k])] := by
        rw [dinsert, alookup_none_of_all_lt hgt]
        exact ainsert_append listLtB_irrefl listLtB_asym c [k] m.deferred hgt
      rw [h1, dinsert_foldl c t m.deferred [k] hgt (fun x hx y hy => by
          rcases List.mem_singleton.1 hx with rfl
          exact (List.pairwise_cons.1 hks).1 y hy)
        (List.pairwise_cons.1 hks).2]
      simp

theorem foldRmKeys_pairwise (c : VClock) :
    ∀ (ks : List Nat) (m : MapS ClockVal),
      m.entries.Pairwise (fun p q => natLtB p.1 q.1 = true) →
      (ks.foldl (fun a k => a.applyRm k c) m).entries.Pairwise
        (fun p q => natLtB p.1 q.1 = true) := by
  intro ks
  induction ks with
  | nil => intro m hw; exact hw
  | cons k t ih =>
    intro m hw
    rw [List.foldl_cons]
    exact ih _ (pairwise_applyRm_entries m k c hw)

theorem foldRmKeys_lookup (c : VClock) :
    ∀ (ks : List Nat) (m : MapS ClockVal),
      m.entries.Pairwise (fun p q => natLtB p.1 q.1 = true) →
      ks.Pairwise (· < ·) →
      ∀ j, alookup j (ks.foldl (fun a k => a.applyRm k c) m).entries =
        if j ∈ ks then pruneOpt ClockVal c (alookup j m.entries)
        else alookup j m.entries := by
  intro ks
  induction ks with
  | nil =>
    intro m _ _ j
    rw [if_neg (List.not_mem_nil j)]
    rfl
  | cons k t ih =>
    intro m hw hks j
    obtain ⟨hhead, htail⟩ := List.pairwise_cons.1 hks
    rw [List.foldl_cons, ih (m.applyRm k c) (pairwise_applyRm_entries m k c hw) htail j,
      alookup_applyRm m k c hw j]
    by_cases hjk : j = k
    · subst hjk
      have hjt : j ∉ t := fun hc => absurd (hhead j hc) (by omega)
      rw [if_neg hjt, if_pos rfl, if_pos (List.mem_cons_self j t)]
    · rw [if_neg hjk]
      by_cases hjt : j ∈ t
      · rw [if_pos hjt, if_pos (List.mem_cons_of_mem _ hjt)]
      · rw [if_neg hjt, if_neg (fun hc => by
          rcases List.mem_cons.1 hc with rfl | h2
          · exact hjk rfl
          · exact hjt h2)]

theorem foldRmTable_lookup :
    ∀ (ds : List (VClock × List Nat)) (m : MapS ClockVal),
      m.entries.Pairwise (fun p q => natLtB p.1 q.1 = true) →
      (∀ p ∈ ds, p.2.Pairwise (· < ·)) →
      ∀ j, alookup j (ds.foldl
          (fun acc p => p.2.foldl (fun a k => a.applyRm k p.1) acc) m).entries =
        dprune ds j (alookup j m.entries) := by
  intro ds
  induction ds with
  | nil => intro m _ _ j; rfl
  | cons p rest ih =>
    intro m hw hsets j
    rw [List.foldl_cons,
      ih _ (foldRmKeys_pairwise p.1 p.2 m hw)
        (fun q hq => hsets q (List.mem_cons_of_mem _ hq)) j,
      foldRmKeys_lookup p.1 p.2 m hw (hsets p (List.mem_cons_self _ _)) j]
    rfl

theorem foldRmTable_pairwise :
    ∀ (ds : List (VClock × List Nat)) (m : MapS ClockVal),
      m.entries.Pairwise (fun p q => natLtB p.1 q.1 = true) →
      (ds.foldl (fun acc p => p.2.foldl (fun a k => a.applyRm k p.1) acc)
        m).entries.Pairwise (fun p q => natLtB p.1 q.1 = true) := by
  intro ds
  induction ds with
  | nil => intro m hw; exact hw
  | cons p rest ih =>
    intro m hw
    rw [List.foldl_cons]
    exact ih _ (foldRmKeys_pairwise p.1 p.2 m hw)

theorem foldRmTable_deferred :
    ∀ (ds : List (VClock × List Nat)) (m : MapS ClockVal),
      ds.Pairwise (fun p q => listLtB p.1 q.1 = true) →
      (∀ p ∈ ds, p.2.Pairwise (· < ·)) →
      (∀ q ∈ m.deferred, ∀ p ∈ ds, listLtB q.1 p.1 = true) →
      (ds.foldl (fun acc p => p.2.foldl (fun a k => a.applyRm k p.1) acc)
        m).deferred = m.deferred ++ dferKeep m.clock ds := by
  intro ds
  induction ds with
  | nil => intro m _ _ _; simp [dferKeep]
  | cons p rest ih =>
    intro m hdp hsets hgt
    obtain ⟨hhead, htail⟩ := List.pairwise_cons.1 hdp
    cases p with
    | mk c ks =>
      rw [List.foldl_cons]
      have hclock := foldRmKeys_clock (W := ClockVal)
      have hacc := foldRmKeys_deferred c ks m
        (fun q hq => hgt q hq (c, ks) (List.mem_cons_self _ _))
        (hsets (c, ks) (List.mem_cons_self _ _))
      have hc2 : (ks.foldl (fun a k => a.applyRm k c) m).clock = m.clock :=
        foldRmKeys_clock c ks m
      rw [ih (ks.foldl (fun a k => a.applyRm k c) m) htail
        (fun q hq => hsets q (List.mem_cons_of_mem _ hq))
        (by
          rw [hacc]
          by_cases hb : vleB c m.clock = true
          · rw [if_pos hb]
            exact fun q hq p2 hp2 => hgt q hq p2 (List.mem_cons_of_mem _ hp2)
          · rw [if_neg hb]
            by_cases hke : ks.isEmpty = true
            · rw [if_pos hke]
              exact fun q hq p2 hp2 => hgt q hq p2 (List.mem_cons_of_mem _ hp2)
            · rw [if_neg hke]
              intro q hq p2 hp2
              rcases List.mem_append.1 hq with hq2 | hq2
              · exact hgt q hq2 p2 (List.mem_cons_of_mem _ hp2)
              · rcases List.mem_singleton.1 hq2 with rfl
                exact hhead p2 hp2), hc2, hacc]
      simp only [dferKeep]
      rw [List.filter_cons]
      by_cases hb : vleB c m.clock = true
      · have hpf : ((!((c, ks).2.isEmpty) && !(vleB (c, ks).1 m.clock)) = false) := by
          show (!(ks.isEmpty) && !(vleB c m.clock)) = false
          rw [hb]
          simp
        rw [if_pos hb, hpf, if_neg (by simp)]
      · by_cases hke : ks.isEmpty = true
        · have hpf : ((!((c, ks).2.isEmpty) && !(vleB (c, ks).1 m.clock)) = false) := by
            show (!(ks.isEmpty) && !(vleB c m.clock)) = false
            rw [hke]
            simp
          rw [if_neg hb, if_pos hke, hpf, if_neg (by simp)]
        · have hp : ((!((c, ks).2.isEmpty) && !(vleB (c, ks).1 m.clock)) = true) := by
            show (!(ks.isEmpty) && !(vleB c m.clock)) = true
            rw [show ks.isEmpty = false from by
                cases hkb : ks.isEmpty with
                | false => rfl
                | true => exact absurd hkb hke,
              show vleB c m.clock = false from by
                cases hbb : vleB c m.clock with
                | false => rfl
                | true => exact absurd hbb hb]
            rfl
          rw [if_neg hb, if_neg hke, hp, if_pos rfl]
          simp

theorem applyDeferred_lookup (m : MapS ClockVal)
    (hw : m.entries.Pairwise (fun p q => natLtB p.1 q.1 = true))
    (hsets : ∀ p ∈ m.deferred, p.2.Pairwise (· < ·)) :
    ∀ j, alookup j m.applyDeferred.entries =
      dprune m.deferred j (alookup j m.entries) := by
  intro j
  rw [MapS.applyDeferred]
  exact foldRmTable_lookup m.deferred ⟨m.clock, m.entries, []⟩ hw hsets j

theorem applyDeferred_pairwise (m : MapS ClockVal)
    (hw : m.entries.Pairwise (fun p q => natLtB p.1 q.1 = true)) :
    m.applyDeferred.entries.Pairwise (fun p q => natLtB p.1 q.1 = true) := by
  rw [MapS.applyDeferred]
  exact foldRmTable_pairwise m.deferred ⟨m.clock, m.entries, []⟩ hw

theorem applyDeferred_deferred (m : MapS ClockVal)
    (hdp : m.deferred.Pairwise (fun p q => listLtB p.1 q.1 = true))
    (hsets : ∀ p ∈ m.deferred, p.2.Pairwise (· < ·)) :
    m.applyDeferred.deferred = dferKeep m.clock m.deferred := by
  rw [MapS.applyDeferred]
  exact foldRmTable_deferred m.deferred ⟨m.clock, m.entries, []⟩ hdp hsets
    (fun q hq => (List.not_mem_nil q hq).elim)

theorem dferKeep_cons (ck : VClock) (p : VClock × List Nat)
    (rest : List (VClock × List Nat)) :
    dferKeep ck (p :: rest) =
      if (!(p.2.isEmpty) && !(vleB p.1 ck)) = true then p :: dferKeep ck rest
      else dferKeep ck rest := by
  rw [dferKeep, List.filter_cons]
  rfl

theorem vleB_false_of_not {c ck : VClock} (h : ¬ vleB c ck = true) :
    vleB c ck = false := by
  cases hb : vleB c ck with
  | false => rfl
  | true => exact absurd hb h

theorem dferKeep_dferKeep {c1 c2 : VClock} (hle : vle c1 c2) :
    ∀ D, dferKeep c2 (dferKeep c1 D) = dferKeep c2 D := by
  intro D
  induction D with
  | nil => rfl
  | cons p rest ih =>
    rw [dferKeep_cons c1]
    by_cases hp1 : (!(p.2.isEmpty) && !(vleB p.1 c1)) = true
    · rw [if_pos hp1, dferKeep_cons c2, dferKeep_cons c2, ih]
    · rw [if_neg hp1, ih, dferKeep_cons c2]
      have hp2 : (!(p.2.isEmpty) && !(vleB p.1 c2)) = false := by
        cases he : p.2.isEmpty with
        | true => rfl
        | false =>
          cases hb1 : vleB p.1 c1 with
          | false => exact absurd (by rw [he, hb1]; rfl) hp1
          | true =>
            have hb2 : vleB p.1 c2 = true :=
              vleB_iff.2 (vle_trans (vleB_iff.1 hb1) hle)
            rw [hb2]
            rfl
      rw [hp2, if_neg (by simp)]

theorem alookup_filter {K V : Type} [DecidableEq K] {ltb : K → K → Bool}
    (hirr : ∀ a, ltb a a = false) (p : K × V → Bool) :
    ∀ (l : List (K × V)), l.Pairwise (fun a b => ltb a.1 b.1 = true) →
      ∀ x, alookup x (l.filter p) =
        match alookup x l with
        | some v => if p (x, v) = true then some v else none
        | none => none := by
  intro l
  induction l with
  | nil => intro _ x; rfl
  | cons q t ih =>
    intro hp x
    obtain ⟨hhead, htail⟩ := List.pairwise_cons.1 hp
    cases q with
    | mk k2 v2 =>
      rw [List.filter_cons]
      by_cases hq : p (k2, v2) = true
      · rw [if_pos hq]
        by_cases hx : x = k2
        · subst hx
          rw [alookup_cons_self, alookup_cons_self]
          show some v2 = if p (x, v2) = true then some v2 else none
          rw [if_pos hq]
        · rw [alookup, if_neg hx, alookup, if_neg hx, ih htail x]
      · rw [if_neg hq]
        by_cases hx : x = k2
        · subst hx
          rw [alookup_cons_self]
          have hnone : alookup x (t.filter p) = none := by
            rw [alookup_none_iff]
            intro hc
            obtain ⟨q2, hq2, hq2x⟩ := List.mem_map.1 hc
            have hmem : q2 ∈ t := List.mem_of_mem_filter hq2
            have h2 := hhead q2 hmem
            rw [hq2x, hirr] at h2
            cases h2
          rw [hnone]
          show none = if p (x, v2) = true then some v2 else none
          rw [if_neg hq]
        · rw [alookup, if_neg hx, ih htail x]

theorem dferKeep_pairwise {ck : VClock} {D : List (VClock × List Nat)}
    (hDp : D.Pairwise (fun p q => listLtB p.1 q.1 = true)) :
    (dferKeep ck D).Pairwise (fun p q => listLtB p.1 q.1 = true) :=
  List.Pairwise.sublist (List.filter_sublist _) hDp

theorem insKey_isEmpty (k : Nat) (s : List Nat) : (insKey k s).isEmpty = false := by
  cases s with
  | nil => rfl
  | cons b t =>
    show (if k < b then k :: b :: t else if k = b then b :: t
      else b :: insKey k t).isEmpty = false
    split_ifs <;> rfl

theorem alookup_dferKeep {ck : VClock} :
    ∀ {D : List (VClock × List Nat)},
      D.Pairwise (fun p q => listLtB p.1 q.1 = true) →
      ∀ x, alookup x (dferKeep ck D) =
        match alookup x D with
        | some v => if (!(v.isEmpty) && !(vleB x ck)) = true then some v else none
        | none => none := by
  intro D
  induction D with
  | nil => intro _ x; rfl
  | cons q t ih =>
    intro hp x
    obtain ⟨hhead, htail⟩ := List.pairwise_cons.1 hp
    cases q with
    | mk k2 v2 =>
      rw [dferKeep_cons]
      by_cases hq : (!(v2.isEmpty) && !(vleB k2 ck)) = true
      · rw [if_pos hq]
        by_cases hx : x = k2
        · subst hx
          rw [alookup_cons_self, alookup_cons_self]
          show some v2 = if (!(v2.isEmpty) && !(vleB x ck)) = true then some v2 else none
          rw [if_pos hq]
        · rw [alookup, if_neg hx, alookup, if_neg hx, ih htail x]
      · rw [if_neg hq]
        by_cases hx : x = k2
        · subst hx
          rw [alookup_cons_self, ih htail x]
          have hnone : alookup x t = none := by
            rw [alookup_none_iff]
            intro hc
            obtain ⟨q2, hq2, hq2x⟩ := List.mem_map.1 hc
            have h2 := hhead q2 hq2
            rw [hq2x, listLtB_irrefl] at h2
            cases h2
          rw [hnone]
          show none = if (!(v2.isEmpty) && !(vleB x ck)) = true then some v2 else none
          rw [if_neg hq]
        · rw [alookup, if_neg hx, ih htail x]

theorem dferKeep_dinsert_dominated {ck c : VClock} {k : Nat} (hb : vleB c ck = true)
    {D : List (VClock × List Nat)}
    (hDp : D.Pairwise (fun p q => listLtB p.1 q.1 = true)) :
    dferKeep ck (dinsert c k D) = dferKeep ck D := by
  refine aext listLtB_irrefl listLtB_asym
    (dferKeep_pairwise (pairwise_dinsert hDp c k)) (dferKeep_pairwise hDp)
    (fun x => ?_)
  rw [alookup_dferKeep (pairwise_dinsert hDp c k) x, alookup_dinsert,
    alookup_dferKeep hDp x]
  by_cases hx : x = c
  · subst hx
    rw [if_pos rfl]
    show (if (!((insKey k ((alookup x D).getD [])).isEmpty) && !(vleB x ck)) = true
        then some (insKey k ((alookup x D).getD [])) else none) =
      (match alookup x D with
       | some v => if (!(v.isEmpty) && !(vleB x ck)) = true then some v else none
       | none => none)
    rw [show ((!((insKey k ((alookup x D).getD [])).isEmpty) && !(vleB x ck))) = false
      from by rw [hb]; simp, if_neg (by simp)]
    cases halook : alookup x D with
    | none => rfl
    | some s =>
      show none = if (!(s.isEmpty) && !(vleB x ck)) = true then some s else none
      rw [show ((!(s.isEmpty) && !(vleB x ck))) = false from by rw [hb]; simp,
        if_neg (by simp)]
  · rw [if_neg hx]

theorem dferKeep_dinsert {ck c : VClock} {k : Nat} (hb : vleB c ck = false)
    {D : List (VClock × List Nat)}
    (hDp : D.Pairwise (fun p q => listLtB p.1 q.1 = true)) :
    dferKeep ck (dinsert c k D) = dinsert c k (dferKeep ck D) := by
  refine aext listLtB_irrefl listLtB_asym
    (dferKeep_pairwise (pairwise_dinsert hDp c k))
    (pairwise_dinsert (dferKeep_pairwise hDp) c k) (fun x => ?_)
  rw [alookup_dferKeep (pairwise_dinsert hDp c k) x, alookup_dinsert, alookup_dinsert]
  by_cases hx : x = c
  · subst hx
    rw [if_pos rfl, if_pos rfl, alookup_dferKeep hDp x]
    show (if (!((insKey k ((alookup x D).getD [])).isEmpty) && !(vleB x ck)) = true
        then some (insKey k ((alookup x D).getD [])) else none) =
      some (insKey k ((match alookup x D with
        | some v => if (!(v.isEmpty) && !(vleB x ck)) = true then some v else none
        | none => none).getD []))
    rw [show ((!((insKey k ((alookup x D).getD [])).isEmpty) && !(vleB x ck))) = true
      from by rw [insKey_isEmpty, hb]; rfl, if_pos rfl]
    cases halook : alookup x D with
    | none => rfl
    | some s =>
      show some (insKey k s) =
        some (insKey k ((if (!(s.isEmpty) && !(vleB x ck)) = true
          then some s else none).getD []))
      cases s with
      | nil =>
        rw [show ((!(([] : List Nat).isEmpty) && !(vleB x ck))) = false from rfl,
          if_neg (by simp)]
        rfl
      | cons b t =>
        rw [show ((!((b :: t).isEmpty) && !(vleB x ck))) = true from by rw [hb]; rfl,
          if_pos rfl]
        rfl
  · rw [if_neg hx, if_neg hx, alookup_dferKeep hDp x]

theorem dprune_dot_pull {d : Dot} {ck : VClock} :
    ∀ (D : List (VClock × List Nat)) (j : Nat) (o : Option (Entry ClockVal)),
      (∀ e, o = some e → vle e.val e.clock) →
      (∀ p ∈ D, j ∈ p.2 → vleB p.1 ck = true → vget p.1 d.actor < d.counter) →
      dprune (dferKeep ck D) j
          (some ⟨vapplyDot (((dprune D j o).getD ⟨[], ClockVal.default⟩).clock) d,
            vapplyDot (((dprune D j o).getD ⟨[], ClockVal.default⟩).val) d⟩) =
        dprune D j (some ⟨vapplyDot ((o.getD ⟨[], ClockVal.default⟩).clock) d,
          vapplyDot ((o.getD ⟨[], ClockVal.default⟩).val) d⟩) := by
  intro D
  induction D with
  | nil => intro j o _ _; rfl
  | cons p rest ih =>
    intro j o hdisc hdrop
    cases p with
    | mk c ks =>
      have hstep3 : ∀ (L : List (VClock × List Nat)) (y : Option (Entry ClockVal)),
          dprune ((c, ks) :: L) j y =
            dprune L j (if j ∈ ks then pruneOpt ClockVal c y else y) :=
        fun L y => rfl
      rw [dferKeep_cons]
      by_cases hm : j ∈ ks
      · have hne : ks.isEmpty = false := by
          cases ks with
          | nil => cases hm
          | cons a t => rfl
        rw [hstep3 rest o, if_pos hm,
          hstep3 rest (some ⟨vapplyDot ((o.getD ⟨[], ClockVal.default⟩).clock) d,
            vapplyDot ((o.getD ⟨[], ClockVal.default⟩).val) d⟩), if_pos hm]
        by_cases hb : vleB c ck = true
        · have hpredf : ((!(((c, ks) : VClock × List Nat).2.isEmpty) &&
              !(vleB ((c, ks) : VClock × List Nat).1 ck)) = false) := by
            show (!(ks.isEmpty) && !(vleB c ck)) = false
            rw [hb]
            simp
          rw [hpredf, if_neg (by simp)]
          rw [ih j (pruneOpt ClockVal c o) (pruneOpt_optdisc hdisc)
            (fun p hp hj2 hb2 => hdrop p (List.mem_cons_of_mem _ hp) hj2 hb2)]
          rw [pruneOpt_dot_pull (hdrop (c, ks) (List.mem_cons_self _ _) hm hb) o hdisc]
        · have hpredt : ((!(((c, ks) : VClock × List Nat).2.isEmpty) &&
              !(vleB ((c, ks) : VClock × List Nat).1 ck)) = true) := by
            show (!(ks.isEmpty) && !(vleB c ck)) = true
            rw [hne, vleB_false_of_not hb]
            rfl
          rw [hpredt, if_pos rfl]
          rw [hstep3 (dferKeep ck rest)
            (some ⟨vapplyDot (((dprune rest j
                (pruneOpt ClockVal c o)).getD ⟨[], ClockVal.default⟩).clock) d,
              vapplyDot (((dprune rest j
                (pruneOpt ClockVal c o)).getD ⟨[], ClockVal.default⟩).val) d⟩),
            if_pos hm, dprune_pruneOpt_comm]
          rw [ih j (pruneOpt ClockVal c o) (pruneOpt_optdisc hdisc)
            (fun p hp hj2 hb2 => hdrop p (List.mem_cons_of_mem _ hp) hj2 hb2)]
          rw [← dprune_pruneOpt_comm, pruneOpt_dot_prune c o hdisc]
      · rw [hstep3 rest o, if_neg hm,
          hstep3 rest (some ⟨vapplyDot ((o.getD ⟨[], ClockVal.default⟩).clock) d,
            vapplyDot ((o.getD ⟨[], ClockVal.default⟩).val) d⟩), if_neg hm]
        have hrest := ih j o hdisc
          (fun p hp hj2 hb2 => hdrop p (List.mem_cons_of_mem _ hp) hj2 hb2)
        by_cases hkeep : ((!(((c, ks) : VClock × List Nat).2.isEmpty) &&
            !(vleB ((c, ks) : VClock × List Nat).1 ck)) = true)
        · rw [if_pos hkeep]
          rw [hstep3 (dferKeep ck rest)
            (some ⟨vapplyDot (((dprune rest j o).getD ⟨[], ClockVal.default⟩).clock) d,
              vapplyDot (((dprune rest j o).getD ⟨[], ClockVal.default⟩).val) d⟩),
            if_neg hm]
          exact hrest
        · rw [if_neg hkeep]
          exact hrest

theorem sortedNat_ext : ∀ {l1 l2 : List Nat}, l1.Pairwise (· < ·) →
    l2.Pairwise (· < ·) → (∀ x, x ∈ l1 ↔ x ∈ l2) → l1 = l2 := by
  intro l1
  induction l1 with
  | nil =>
    intro l2 _ _ h
    cases l2 with
    | nil => rfl
    | cons b t => exact absurd ((h b).2 (List.mem_cons_self _ _)) (List.not_mem_nil b)
  | cons a t1 ih =>
    intro l2 h1 h2 h
    cases l2 with
    | nil => exact absurd ((h a).1 (List.mem_cons_self _ _)) (List.not_mem_nil a)
    | cons b t2 =>
      obtain ⟨hh1, ht1⟩ := List.pairwise_cons.1 h1
      obtain ⟨hh2, ht2⟩ := List.pairwise_cons.1 h2
      have hab : a = b := by
        have ha2 := (h a).1 (List.mem_cons_self _ _)
        have hb1 := (h b).2 (List.mem_cons_self _ _)
        rcases List.mem_cons.1 ha2 with hab | ha3
        · exact hab
        · rcases List.mem_cons.1 hb1 with hba | hb3
          · exact hba.symm
          · have hc1 := hh1 b hb3
            have hc2 := hh2 a ha3
            omega
      subst hab
      have ht : ∀ x, x ∈ t1 ↔ x ∈ t2 := by
        intro x
        constructor
        · intro hx
          rcases List.mem_cons.1 ((h x).1 (List.mem_cons_of_mem _ hx)) with rfl | h2x
          · exact absurd (hh1 x hx) (by omega)
          · exact h2x
        · intro hx
          rcases List.mem_cons.1 ((h x).2 (List.mem_cons_of_mem _ hx)) with rfl | h2x
          · exact absurd (hh2 x hx) (by omega)
          · exact h2x
      rw [ih ht1 ht2 ht]

theorem insKey_comm (k1 k2 : Nat) {s : List Nat} (hs : s.Pairwise (· < ·)) :
    insKey k1 (insKey k2 s) = insKey k2 (insKey k1 s) := by
  refine sortedNat_ext (pairwise_insKey (pairwise_insKey hs))
    (pairwise_insKey (pairwise_insKey hs)) (fun x => ?_)
  simp only [mem_insKey]
  tauto

theorem dinsert_comm (c1 c2 : VClock) (k1 k2 : Nat)
    {D : List (VClock × List Nat)}
    (hDp : D.Pairwise (fun p q => listLtB p.1 q.1 = true))
    (hsets : ∀ p ∈ D, p.2.Pairwise (· < ·)) :
    dinsert c2 k2 (dinsert c1 k1 D) = dinsert c1 k1 (dinsert c2 k2 D) := by
  refine aext listLtB_irrefl listLtB_asym
    (pairwise_dinsert (pairwise_dinsert hDp c1 k1) c2 k2)
    (pairwise_dinsert (pairwise_dinsert hDp c2 k2) c1 k1) (fun x => ?_)
  by_cases h2 : x = c2
  · subst h2
    by_cases h1 : x = c1
    · subst h1
      rw [alookup_dinsert x x k2 (dinsert x k1 D), if_pos rfl,
        alookup_dinsert x x k1 D, if_pos rfl,
        alookup_dinsert x x k1 (dinsert x k2 D), if_pos rfl,
        alookup_dinsert x x k2 D, if_pos rfl]
      show some (insKey k2 (insKey k1 ((alookup x D).getD []))) =
        some (insKey k1 (insKey k2 ((alookup x D).getD [])))
      have hsort : ((alookup x D).getD []).Pairwise (· < ·) := by
        cases hl : alookup x D with
        | none => exact List.Pairwise.nil
        | some s => exact hsets (x, s) (alookup_mem hl)
      rw [insKey_comm k2 k1 hsort]
    · rw [alookup_dinsert x x k2 (dinsert c1 k1 D), if_pos rfl,
        alookup_dinsert x c1 k1 D, if_neg h1,
        alookup_dinsert x c1 k1 (dinsert x k2 D), if_neg h1,
        alookup_dinsert x x k2 D, if_pos rfl]
  · by_cases h1 : x = c1
    · subst h1
      rw [alookup_dinsert x c2 k2 (dinsert x k1 D), if_neg h2,
        alookup_dinsert x x k1 D, if_pos rfl,
        alookup_dinsert x x k1 (dinsert c2 k2 D), if_pos rfl,
        alookup_dinsert x c2 k2 D, if_neg h2]
    · rw [alookup_dinsert x c2 k2 (dinsert c1 k1 D), if_neg h2,
        alookup_dinsert x c1 k1 D, if_neg h1,
        alookup_dinsert x c1 k1 (dinsert c2 k2 D), if_neg h1,
        alookup_dinsert x c2 k2 D, if_neg h2]

theorem applyRm_comm (m : MapS ClockVal)
    (hw : m.entries.Pairwise (fun p q => natLtB p.1 q.1 = true))
    (hdp : m.deferred.Pairwise (fun p q => listLtB p.1 q.1 = true))
    (hsets : ∀ p ∈ m.deferred, p.2.Pairwise (· < ·))
    (k1 k2 : Nat) (c1 c2 : VClock) :
    (m.applyRm k1 c1).applyRm k2 c2 = (m.applyRm k2 c2).applyRm k1 c1 := by
  have hw1 := pairwise_applyRm_entries m k1 c1 hw
  have hw2 := pairwise_applyRm_entries m k2 c2 hw
  apply MapS.ext3
  · rw [applyRm_clock, applyRm_clock, applyRm_clock, applyRm_clock]
  · refine aext natLtB_irrefl natLtB_asym
      (pairwise_applyRm_entries _ k2 c2 hw1) (pairwise_applyRm_entries _ k1 c1 hw2)
      (fun j => ?_)
    rw [alookup_applyRm _ k2 c2 hw1 j, alookup_applyRm _ k1 c1 hw2 j]
    by_cases h2 : j = k2
    · subst h2
      rw [if_pos rfl]
      by_cases h1 : j = k1
      · subst h1
        rw [if_pos rfl, alookup_applyRm m j c1 hw j, if_pos rfl,
          alookup_applyRm m j c2 hw j, if_pos rfl, pruneOpt_comm]
      · rw [if_neg h1, alookup_applyRm m k1 c1 hw j, if_neg h1,
          alookup_applyRm m j c2 hw j, if_pos rfl]
    · rw [if_neg h2]
      by_cases h1 : j = k1
      · subst h1
        rw [if_pos rfl, alookup_applyRm m j c1 hw j, if_pos rfl,
          alookup_applyRm m k2 c2 hw j, if_neg h2]
      · rw [if_neg h1, alookup_applyRm m k1 c1 hw j, if_neg h1,
          alookup_applyRm m k2 c2 hw j, if_neg h2]
  · rw [applyRm_deferred (m.applyRm k1 c1) k2 c2, applyRm_clock m k1 c1,
      applyRm_deferred m k1 c1, applyRm_deferred (m.applyRm k2 c2) k1 c1,
      applyRm_clock m k2 c2, applyRm_deferred m k2 c2]
    by_cases b1 : vleB c1 m.clock = true
    · by_cases b2 : vleB c2 m.clock = true
      · rw [if_pos b2, if_pos b1, if_pos b1, if_pos b2]
      · rw [if_neg b2, if_pos b1, if_pos b1, if_neg b2]
    · by_cases b2 : vleB c2 m.clock = true
      · rw [if_pos b2, if_neg b1, if_neg b1, if_pos b2]
      · rw [if_neg b2, if_neg b1, if_neg b1, if_neg b2]
        exact dinsert_comm c1 c2 k1 k2 hdp hsets

theorem up_rm_comm (m : MapS ClockVal)
    (hw : m.entries.Pairwise (fun p q => natLtB p.1 q.1 = true))
    (hdisc : MapS.Disc m)
    (hdp : m.deferred.Pairwise (fun p q => listLtB p.1 q.1 = true))
    (hsets : ∀ p ∈ m.deferred, p.2.Pairwise (· < ·))
    (d : Dot) (k : Nat) (c : VClock) (k2 : Nat) :
    (m.apply (.up d k (d : ClockVal.Op))).apply (.rm c k2) =
      (m.apply (.rm c k2)).apply (.up d k (d : ClockVal.Op)) := by
  rw [apply_rm_def, apply_rm_def]
  by_cases s : d.counter ≤ vget m.clock d.actor
  · rw [apply_up_skip m d k _ s,
      apply_up_skip _ d k _ (by rw [applyRm_clock]; exact s)]
  · have hns2 : ¬ d.counter ≤ vget (m.applyRm k2 c).clock d.actor := by
      rw [applyRm_clock]
      exact s
    have hdget : ∀ (x : Nat) (e : Entry ClockVal),
        alookup x m.entries = some e → vle e.val e.clock :=
      fun x e he => (hdisc (x, e) (alookup_mem he)).2
    have hEA := pairwise_ainsert natLtB_trans natLtB_total hw k (upEntry d k m.entries)
    have hA1p := applyDeferred_pairwise (upState m d k) hEA
    have hA1l := applyDeferred_lookup (upState m d k) hEA hsets
    have hA1d := applyDeferred_deferred (upState m d k) hdp hsets
    simp only [upState_entries, upState_deferred, upState_clock] at hA1l hA1d
    have hA1c : (upState m d k).applyDeferred.clock = vapplyDot m.clock d := by
      rw [applyDeferred_clock, upState_clock]
    have hB1p := pairwise_applyRm_entries m k2 c hw
    have hB1l := alookup_applyRm m k2 c hw
    have hB1d := applyRm_deferred m k2 c
    have hB1dp : (m.applyRm k2 c).deferred.Pairwise
        (fun p q => listLtB p.1 q.1 = true) := by
      rw [hB1d]
      by_cases hb : vleB c m.clock = true
      · rw [if_pos hb]; exact hdp
      · rw [if_neg hb]; exact pairwise_dinsert hdp c k2
    have hB1sets : ∀ p ∈ (m.applyRm k2 c).deferred, p.2.Pairwise (· < ·) := by
      rw [hB1d]
      by_cases hb : vleB c m.clock = true
      · rw [if_pos hb]; exact hsets
      · rw [if_neg hb]; exact dinsert_sets_sorted hsets c k2
    have hEB := pairwise_ainsert natLtB_trans natLtB_total hB1p k
      (upEntry d k (m.applyRm k2 c).entries)
    have hB2p := applyDeferred_pairwise (upState (m.applyRm k2 c) d k) hEB
    have hB2l := applyDeferred_lookup (upState (m.applyRm k2 c) d k) hEB hB1sets
    have hB2d := applyDeferred_deferred (upState (m.applyRm k2 c) d k) hB1dp hB1sets
    simp only [upState_entries, upState_deferred, upState_clock, applyRm_clock]
      at hB2l hB2d
    rw [apply_up_def3 m d k s, apply_up_def3 _ d k hns2]
    apply MapS.ext3
    · simp only [applyRm_clock, applyDeferred_clock, upState_clock]
    · refine aext natLtB_irrefl natLtB_asym
        (pairwise_applyRm_entries _ k2 c hA1p) hB2p (fun j => ?_)
      rw [alookup_applyRm _ k2 c hA1p j, hB2l j]
      by_cases hj2 : j = k2
      · subst hj2
        rw [if_pos rfl]
        by_cases hjk : j = k
        · subst hjk
          rw [hA1l j, alookup_ainsert_self, alookup_ainsert_self, hB1d]
          simp only [upEntry, ClockVal_apply]
          rw [hB1l j, if_pos rfl]
          by_cases hb : vleB c m.clock = true
          · have hlt : vget c d.actor < d.counter := by
              have h1 := (vleB_iff.1 hb) d.actor
              omega
            rw [if_pos hb, ← pruneOpt_dot_pull hlt (alookup j m.entries) (hdget j),
              dprune_pruneOpt_comm]
          · rw [if_neg hb, dprune_dinsert_self c j m.deferred hdp,
              ← dprune_pruneOpt_comm, ← dprune_pruneOpt_comm,
              pruneOpt_dot_prune c (alookup j m.entries) (hdget j)]
        · rw [hA1l j, alookup_ainsert_ne _ hjk, alookup_ainsert_ne _ hjk, hB1l j,
            if_pos rfl, hB1d]
          by_cases hb : vleB c m.clock = true
          · rw [if_pos hb, dprune_pruneOpt_comm]
          · rw [if_neg hb, dprune_dinsert_self c j m.deferred hdp,
              dprune_pruneOpt_comm, pruneOpt_idem]
      · rw [if_neg hj2]
        by_cases hjk : j = k
        · subst hjk
          rw [hA1l j, alookup_ainsert_self, alookup_ainsert_self, hB1d]
          simp only [upEntry, ClockVal_apply]
          rw [hB1l j, if_neg hj2]
          by_cases hb : vleB c m.clock = true
          · rw [if_pos hb]
          · rw [if_neg hb, dprune_dinsert_ne hj2 m.deferred hdp]
        · rw [hA1l j, alookup_ainsert_ne _ hjk, alookup_ainsert_ne _ hjk, hB1l j,
            if_neg hj2, hB1d]
          by_cases hb : vleB c m.clock = true
          · rw [if_pos hb]
          · rw [if_neg hb, dprune_dinsert_ne hj2 m.deferred hdp]
    · rw [applyRm_deferred _ k2 c, hA1c, hA1d, hB2d, hB1d]
      by_cases hb : vleB c m.clock = true
      · rw [if_pos hb,
          if_pos (vleB_iff.2 (vle_trans (vleB_iff.1 hb) (vle_vapplyDot_self _ _)))]
      · rw [if_neg hb]
        by_cases hb2 : vleB c (vapplyDot m.clock d) = true
        · rw [if_pos hb2, dferKeep_dinsert_dominated hb2 hdp]
        · rw [if_neg hb2, dferKeep_dinsert (vleB_false_of_not hb2) hdp]

theorem up_up_comm (m : MapS ClockVal)
    (hw : m.entries.Pairwise (fun p q => natLtB p.1 q.1 = true))
    (hdisc : MapS.Disc m)
    (hdp : m.deferred.Pairwise (fun p q => listLtB p.1 q.1 = true))
    (hsets : ∀ p ∈ m.deferred, p.2.Pairwise (· < ·))
    {d1 d2 : Dot} (hne : d1.actor ≠ d2.actor) (k1 k2 : Nat) :
    (m.apply (.up d1 k1 (d1 : ClockVal.Op))).apply (.up d2 k2 (d2 : ClockVal.Op)) =
      (m.apply (.up d2 k2 (d2 : ClockVal.Op))).apply (.up d1 k1 (d1 : ClockVal.Op)) := by
  by_cases s1 : d1.counter ≤ vget m.clock d1.actor
  · rw [apply_up_skip m d1 k1 _ s1]
    by_cases s2 : d2.counter ≤ vget m.clock d2.actor
    · rw [apply_up_skip m d2 k2 _ s2, apply_up_skip m d1 k1 _ s1]
    · have hskip : d1.counter ≤
          vget (m.apply (.up d2 k2 (d2 : ClockVal.Op))).clock d1.actor := by
        rw [apply_up_clock m d2 k2 _ s2, vget_vapplyDot, if_neg hne]
        exact s1
      rw [apply_up_skip _ d1 k1 _ hskip]
  · by_cases s2 : d2.counter ≤ vget m.clock d2.actor
    · have hskip : d2.counter ≤
          vget (m.apply (.up d1 k1 (d1 : ClockVal.Op))).clock d2.actor := by
        rw [apply_up_clock m d1 k1 _ s1, vget_vapplyDot,
          if_neg (fun hc => hne hc.symm)]
        exact s2
      rw [apply_up_skip m d2 k2 _ s2, apply_up_skip _ d2 k2 _ hskip]
    · have hdget : ∀ (x : Nat) (e : Entry ClockVal),
          alookup x m.entries = some e → vle e.val e.clock :=
        fun x e he => (hdisc (x, e) (alookup_mem he)).2
      have hLdisc : ∀ x : Nat,
          vle ((alookup x m.entries).getD ⟨[], ClockVal.default⟩).val
            ((alookup x m.entries).getD ⟨[], ClockVal.default⟩).clock := by
        intro x
        cases hl : alookup x m.entries with
        | none => exact vle_refl []
        | some e => exact hdget x e hl
      have hXdisc1 : ∀ (x : Nat) (e : Entry ClockVal),
          some (⟨vapplyDot ((alookup x m.entries).getD ⟨[], ClockVal.default⟩).clock d1,
            vapplyDot ((alookup x m.entries).getD ⟨[], ClockVal.default⟩).val d1⟩ :
              Entry ClockVal) = some e → vle e.val e.clock := by
        intro x e he
        cases Option.some.inj he
        exact vapplyDot_mono (hLdisc x) d1
      have hXdisc2 : ∀ (x : Nat) (e : Entry ClockVal),
          some (⟨vapplyDot ((alookup x m.entries).getD ⟨[], ClockVal.default⟩).clock d2,
            vapplyDot ((alookup x m.entries).getD ⟨[], ClockVal.default⟩).val d2⟩ :
              Entry ClockVal) = some e → vle e.val e.clock := by
        intro x e he
        cases Option.some.inj he
        exact vapplyDot_mono (hLdisc x) d2
      have hdropD2 : ∀ (jx : Nat), ∀ p ∈ m.deferred, jx ∈ p.2 →
          vleB p.1 (vapplyDot m.clock d1) = true →
          vget p.1 d2.actor < d2.counter := by
        intro jx p hp hj hb
        have h1 := vleB_iff.1 hb d2.actor
        rw [vget_vapplyDot, if_neg (fun hc => hne hc.symm)] at h1
        omega
      have hdropD1 : ∀ (jx : Nat), ∀ p ∈ m.deferred, jx ∈ p.2 →
          vleB p.1 (vapplyDot m.clock d2) = true →
          vget p.1 d1.actor < d1.counter := by
        intro jx p hp hj hb
        have h1 := vleB_iff.1 hb d1.actor
        rw [vget_vapplyDot, if_neg hne] at h1
        omega
      have hKsub1 : ∀ p ∈ dferKeep (vapplyDot m.clock d1) m.deferred,
          p ∈ m.deferred := fun p hp => List.mem_of_mem_filter hp
      have hKsub2 : ∀ p ∈ dferKeep (vapplyDot m.clock d2) m.deferred,
          p ∈ m.deferred := fun p hp => List.mem_of_mem_filter hp
      have hns12 : ¬ d2.counter ≤
          vget (upState m d1 k1).applyDeferred.clock d2.actor := by
        rw [applyDeferred_clock, upState_clock, vget_vapplyDot,
          if_neg (fun hc => hne hc.symm)]
        exact s2
      have hns21 : ¬ d1.counter ≤
          vget (upState m d2 k2).applyDeferred.clock d1.actor := by
        rw [applyDeferred_clock, upState_clock, vget_vapplyDot, if_neg hne]
        exact s1
      have hEA1 := pairwise_ainsert natLtB_trans natLtB_total hw k1
        (upEntry d1 k1 m.entries)
      have hEB1 := pairwise_ainsert natLtB_trans natLtB_total hw k2
        (upEntry d2 k2 m.entries)
      have hA1p := applyDeferred_pairwise (upState m d1 k1) hEA1
      have hB1p := applyDeferred_pairwise (upState m d2 k2) hEB1
      have hA1l := applyDeferred_lookup (upState m d1 k1) hEA1 hsets
      have hB1l := applyDeferred_lookup (upState m d2 k2) hEB1 hsets
      have hA1d := applyDeferred_deferred (upState m d1 k1) hdp hsets
      have hB1d := applyDeferred_deferred (upState m d2 k2) hdp hsets
      simp only [upState_entries, upState_deferred, upState_clock]
        at hA1l hB1l hA1d hB1d
      have hA1c : (upState m d1 k1).applyDeferred.clock = vapplyDot m.clock d1 := by
        rw [applyDeferred_clock, upState_clock]
      have hB1c : (upState m d2 k2).applyDeferred.clock = vapplyDot m.clock d2 := by
        rw [applyDeferred_clock, upState_clock]
      have hA1dp : (upState m d1 k1).applyDeferred.deferred.Pairwise
          (fun p q => listLtB p.1 q.1 = true) := by
        rw [hA1d]
        exact dferKeep_pairwise hdp
      have hB1dp : (upState m d2 k2).applyDeferred.deferred.Pairwise
          (fun p q => listLtB p.1 q.1 = true) := by
        rw [hB1d]
        exact dferKeep_pairwise hdp
      have hA1sets : ∀ p ∈ (upState m d1 k1).applyDeferred.deferred,
          p.2.Pairwise (· < ·) := by
        rw [hA1d]
        exact fun p hp => hsets p (hKsub1 p hp)
      have hB1sets : ∀ p ∈ (upState m d2 k2).applyDeferred.deferred,
          p.2.Pairwise (· < ·) := by
        rw [hB1d]
        exact fun p hp => hsets p (hKsub2 p hp)
      have hEA2 := pairwise_ainsert natLtB_trans natLtB_total hA1p k2
        (upEntry d2 k2 (upState m d1 k1).applyDeferred.entries)
      have hEB2 := pairwise_ainsert natLtB_trans natLtB_total hB1p k1
        (upEntry d1 k1 (upState m d2 k2).applyDeferred.entries)
      rw [apply_up_def3 m d1 k1 s1, apply_up_def3 m d2 k2 s2,
        apply_up_def3 _ d2 k2 hns12, apply_up_def3 _ d1 k1 hns21]
      apply MapS.ext3
      · simp only [applyDeferred_clock, upState_clock]
        exact vapplyDot_comm hne m.clock
      · refine aext natLtB_irrefl natLtB_asym
          (applyDeferred_pairwise (upState ((upState m d1 k1).applyDeferred) d2 k2)
            hEA2)
          (applyDeferred_pairwise (upState ((upState m d2 k2).applyDeferred) d1 k1)
            hEB2) (fun j => ?_)
        rw [applyDeferred_lookup (upState ((upState m d1 k1).applyDeferred) d2 k2)
            hEA2 hA1sets j,
          applyDeferred_lookup (upState ((upState m d2 k2).applyDeferred) d1 k1)
            hEB2 hB1sets j]
        simp only [upState_entries, upState_deferred]
        rw [hA1d, hB1d]
        by_cases hj2 : j = k2
        · subst hj2
          by_cases hj1 : j = k1
          · subst hj1
            rw [alookup_ainsert_self, alookup_ainsert_self]
            simp only [upEntry, ClockVal_apply]
            rw [hA1l j, alookup_ainsert_self, hB1l j, alookup_ainsert_self]
            simp only [upEntry, ClockVal_apply]
            rw [@dprune_dot_pull d2 (vapplyDot m.clock d1) m.deferred j
                (some (⟨vapplyDot
                    ((alookup j m.entries).getD ⟨[], ClockVal.default⟩).clock d1,
                  vapplyDot
                    ((alookup j m.entries).getD ⟨[], ClockVal.default⟩).val d1⟩ :
                      Entry ClockVal)) (hXdisc1 j) (hdropD2 j),
              @dprune_dot_pull d1 (vapplyDot m.clock d2) m.deferred j
                (some (⟨vapplyDot
                    ((alookup j m.entries).getD ⟨[], ClockVal.default⟩).clock d2,
                  vapplyDot
                    ((alookup j m.entries).getD ⟨[], ClockVal.default⟩).val d2⟩ :
                      Entry ClockVal)) (hXdisc2 j) (hdropD1 j)]
            show dprune m.deferred j
                (some (⟨vapplyDot (vapplyDot
                    ((alookup j m.entries).getD ⟨[], ClockVal.default⟩).clock d1) d2,
                  vapplyDot (vapplyDot
                    ((alookup j m.entries).getD ⟨[], ClockVal.default⟩).val d1) d2⟩ :
                      Entry ClockVal)) =
              dprune m.deferred j
                (some (⟨vapplyDot (vapplyDot
                    ((alookup j m.entries).getD ⟨[], ClockVal.default⟩).clock d2) d1,
                  vapplyDot (vapplyDot
                    ((alookup j m.entries).getD ⟨[], ClockVal.default⟩).val d2) d1⟩ :
                      Entry ClockVal))
            rw [vapplyDot_comm hne, vapplyDot_comm hne]
          · rw [alookup_ainsert_self, alookup_ainsert_ne _ hj1, hB1l j,
              alookup_ainsert_self, dprune_sub_absorb hKsub2]
            simp only [upEntry, ClockVal_apply]
            rw [hA1l j, alookup_ainsert_ne _ hj1,
              @dprune_dot_pull d2 (vapplyDot m.clock d1) m.deferred j
                (alookup j m.entries) (hdget j) (hdropD2 j)]
        · by_cases hj1 : j = k1
          · subst hj1
            rw [alookup_ainsert_ne _ hj2, hA1l j, alookup_ainsert_self,
              dprune_sub_absorb hKsub1, alookup_ainsert_self]
            simp only [upEntry, ClockVal_apply]
            rw [hB1l j, alookup_ainsert_ne _ hj2,
              @dprune_dot_pull d1 (vapplyDot m.clock d2) m.deferred j
                (alookup j m.entries) (hdget j) (hdropD1 j)]
          · rw [alookup_ainsert_ne _ hj2, hA1l j, alookup_ainsert_ne _ hj1,
              dprune_sub_absorb hKsub1, alookup_ainsert_ne _ hj1, hB1l j,
              alookup_ainsert_ne _ hj2, dprune_sub_absorb hKsub2]
      · rw [applyDeferred_deferred (upState ((upState m d1 k1).applyDeferred) d2 k2)
            hA1dp hA1sets,
          applyDeferred_deferred (upState ((upState m d2 k2).applyDeferred) d1 k1)
            hB1dp hB1sets]
        simp only [upState_clock, upState_deferred]
        rw [hA1c, hB1c, hA1d, hB1d,
          dferKeep_dferKeep (vle_vapplyDot_self (vapplyDot m.clock d1) d2) m.deferred,
          dferKeep_dferKeep (vle_vapplyDot_self (vapplyDot m.clock d2) d1) m.deferred,
          vapplyDot_comm hne]

/-! ### Claim theorems and their witnesses -/

/-- C7: `update` and `rm` are pure — each returns an operation record and leaves
the receiver's clock, entries and deferred table completely unchanged, and the
`rm` record carries `clock = rm_ctx.clock` together with the key. -/
theorem c7_update_rm_pure {W : ValOps} (m : MapS W) (key : Nat) (actx : AddCtx)
    (rctx : RmCtx) (f : W.V → AddCtx → W.Op) :
    (m.update key actx f).2 = m ∧ (m.rm key rctx).2 = m ∧
      (m.rm key rctx).1 = .rm rctx.clock key :=
  ⟨rfl, rfl, rfl⟩

/-- C8: applying a `Remove` operation never changes the map's clock: for every
map state, key and remove clock, the clock after `apply(Rm{clock, key})` equals
the clock before. -/
theorem c8_rm_preserves_clock {W : ValOps} (m : MapS W) (c : VClock) (k : Nat) :
    (m.apply (.rm c k)).clock = m.clock :=
  applyRm_clock m k c

/-- C9 counterexample: removing the absent key `0` under clock `{(0,1)}` from the
empty map does not leave the state unchanged — the key is parked in the deferred
table. -/
theorem c9_counterexample :
    (MapS.new ClockVal).apply (.rm [(0, 1)] 0) ≠ MapS.new ClockVal := by
  decide

/-- C9 (amended): a `Remove` of a key absent from the entries leaves the clock
and the entries unchanged; the whole state is unchanged when the remove clock is
dominated by the map clock, and otherwise the only change is that the key is
inserted into `deferred[clock]`. -/
theorem c9_amended_rm_absent {W : ValOps} (m : MapS W) (c : VClock) (k : Nat)
    (habs : alookup k m.entries = none) :
    (m.apply (.rm c k)).clock = m.clock ∧
    (m.apply (.rm c k)).entries = m.entries ∧
    (m.apply (.rm c k)).deferred =
      (if vleB c m.clock then m.deferred else dinsert c k m.deferred) ∧
    (vle c m.clock → m.apply (.rm c k) = m) := by
  refine ⟨applyRm_clock m k c, ?_, applyRm_deferred m k c, ?_⟩
  · rw [show m.apply (.rm c k) = m.applyRm k c from rfl, applyRm_entries_def, habs]
  · intro hle
    apply MapS.ext3 (applyRm_clock m k c)
    · rw [applyRm_entries_def, habs]
    · rw [applyRm_deferred, if_pos (vleB_iff.2 hle)]

/-- C9 witness: the amended statement evaluated at the empty map, key 0 and
clock {(0,1)}. -/
theorem c9_witness :
    ((MapS.new ClockVal).apply (.rm [(0, 1)] 0)).clock = (MapS.new ClockVal).clock ∧
    ((MapS.new ClockVal).apply (.rm [(0, 1)] 0)).entries = (MapS.new ClockVal).entries ∧
    ((MapS.new ClockVal).apply (.rm [(0, 1)] 0)).deferred =
      (if vleB [(0, 1)] (MapS.new ClockVal).clock then (MapS.new ClockVal).deferred
        else dinsert [(0, 1)] 0 (MapS.new ClockVal).deferred) ∧
    (vle [(0, 1)] (MapS.new ClockVal).clock →
      (MapS.new ClockVal).apply (.rm [(0, 1)] 0) = MapS.new ClockVal) :=
  c9_amended_rm_absent (MapS.new ClockVal) [(0, 1)] 0 rfl

/-- C3: `apply` is idempotent — applying any operation twice in a row equals
applying it once (for a canonical state and a nested value type whose `truncate`
is idempotent, as the causal contract of §6.2 requires); moreover an `Update`
whose dot is already absorbed (`map.clock[dot.actor] ≥ dot.counter`) leaves the
map unchanged. -/
theorem c3_apply_idempotent {W : ValOps}
    (htr : ∀ v c, W.truncate (W.truncate v c) c = W.truncate v c)
    (m : MapS W) (hw : m.entries.Pairwise (fun p q => natLtB p.1 q.1 = true))
    (op : MOp W) (d : Dot) (k : Nat) (vop : W.Op)
    (hseen : d.counter ≤ vget m.clock d.actor) :
    (m.apply op).apply op = m.apply op ∧ m.apply (.up d k vop) = m := by
  constructor
  · cases op with
    | nop => rfl
    | rm c k2 => exact applyRm_idem htr m hw k2 c
    | up d2 k2 vop2 =>
      by_cases h2 : d2.counter ≤ vget m.clock d2.actor
      · rw [apply_up_skip _ _ _ _ h2, apply_up_skip _ _ _ _ h2]
      · apply apply_up_skip
        rw [apply_up_clock _ _ _ _ h2, vget_vapplyDot, if_pos rfl]
        omega
  · exact apply_up_skip _ _ _ _ hseen

/-- C5: invariant I1 holds after every apply and every merge: if the map-wide
clock dominates the clock of every live entry beforehand, it still does after
applying any operation, and the merge of two I1 states satisfies I1. -/
theorem c5_invariant_I1 {W : ValOps} (m m1 m2 r : MapS W) (op : MOp W)
    (h : m.I1) (h1 : m1.I1) (h2 : m2.I1) (hr : m1.merge m2 = some r) :
    (m.apply op).I1 ∧ r.I1 :=
  ⟨apply_I1 h op, merge_I1 h1 h2 hr⟩

/-- C5 witness: I1 after an update applied to the empty map, and after merging
two concrete one-entry maps. -/
theorem c5_witness :
    ((MapS.new ClockVal).apply
        (.up ⟨0, 1⟩ 7 ((⟨0, 1⟩ : Dot) : ClockVal.Op))).I1 ∧
    (MapS.mk [(0, 1), (1, 1)]
      [(7, (⟨[(0, 1)], ([(0, 1)] : VClock)⟩ : Entry ClockVal)),
       (9, (⟨[(1, 1)], ([] : VClock)⟩ : Entry ClockVal))] []).I1 := by
  have hmer : (MapS.mk ([(0, 1)] : VClock)
      [(7, (⟨[(0, 1)], ([(0, 1)] : VClock)⟩ : Entry ClockVal))]
      []).merge (MapS.mk [(1, 1)]
        [(9, (⟨[(1, 1)], ([] : VClock)⟩ : Entry ClockVal))] []) =
      some (MapS.mk [(0, 1), (1, 1)]
        [(7, (⟨[(0, 1)], ([(0, 1)] : VClock)⟩ : Entry ClockVal)),
         (9, (⟨[(1, 1)], ([] : VClock)⟩ : Entry ClockVal))] []) := by decide
  refine c5_invariant_I1 (MapS.new ClockVal) _ _ _ _ ?_ ?_ ?_ hmer
  · intro p hp; cases hp
  · intro p hp
    rw [List.mem_singleton] at hp
    subst hp
    exact vle_refl _
  · intro p hp
    rw [List.mem_singleton] at hp
    subst hp
    exact vle_refl _

/-- C6: deferred discharge — after any sequence of operations applied to a fresh
map, if every remove clock of the sequence is dominated by the final map clock
then the deferred table is empty; and (invariant I3) applying an operation to a
state whose deferred clocks are all undominated keeps them undominated. -/
theorem c6_deferred_discharge {W : ValOps} (ops : List (MOp W)) (m : MapS W)
    (op : MOp W)
    (hall : ∀ c ∈ rmClocksOf ops, vle c ((MapS.new W).applyList ops).clock)
    (hI3 : m.I3) :
    ((MapS.new W).applyList ops).deferred = [] ∧ (m.apply op).I3 := by
  constructor
  · cases hd : ((MapS.new W).applyList ops).deferred with
    | nil => rfl
    | cons p t =>
      have hmem : p ∈ ((MapS.new W).applyList ops).deferred := by
        rw [hd]; simp
      have hI3M : ((MapS.new W).applyList ops).I3 :=
        applyList_I3 (fun q hq => absurd hq (List.not_mem_nil q)) ops
      rcases applyList_deferred_keys ops (MapS.new W) p hmem with hk | hk
      · cases hk
      · exact absurd (hall p.1 hk) (hI3M p hmem)
  · exact apply_I3 hI3 op

/-- C6 witness: an update followed by a dominated remove leaves no deferred
entry, evaluated on a concrete two-op sequence. -/
theorem c6_witness :
    ((MapS.new ClockVal).applyList
        [.up ⟨0, 1⟩ 4 ((⟨0, 1⟩ : Dot) : ClockVal.Op), .rm [(0, 1)] 4]).deferred = [] ∧
    ((MapS.new ClockVal).apply .nop).I3 := by
  refine c6_deferred_discharge
    [.up ⟨0, 1⟩ 4 ((⟨0, 1⟩ : Dot) : ClockVal.Op), .rm [(0, 1)] 4]
    (MapS.new ClockVal) .nop ?_ ?_
  · intro c hc
    have hc2 : c = [(0, 1)] := by
      simpa [rmClocksOf] using hc
    subst hc2
    exact vle_refl _
  · intro q hq
    cases hq

/-- C10: in `merge`, the `other_remaining.remove(&key).unwrap()` of the
both-present branch never panics — for canonical (strictly key-sorted) entries
the merge always returns a result (the error branch is unreachable). -/
theorem c10_merge_unwrap_safe {W : ValOps} (m1 m2 : MapS W)
    (h1 : m1.entries.Pairwise (fun p q => natLtB p.1 q.1 = true)) :
    (m1.merge m2).isSome = true :=
  merge_isSome m1 m2 h1

/-- C10 witness: merging two concrete maps sharing key 5 succeeds. -/
theorem c10_witness :
    ((MapS.mk ([(0, 1)] : VClock)
        [(5, (⟨[(0, 1)], ([(0, 1)] : VClock)⟩ : Entry ClockVal))] []).merge
      (MapS.mk [(1, 1)] [(5, (⟨[(1, 1)], ([(1, 1)] : VClock)⟩ : Entry ClockVal))]
        [])).isSome = true :=
  c10_merge_unwrap_safe _ _ (by decide)

/-- C4 counterexample: with `dot_A = (0,2)`, a nested op putting dot `(0,1)` and
`clock_B = {(0,1)}` (which does not contain `dot_A`), merging the updater into
the remover's state leaves the entry's value untruncated: the entry survives
with clock `{dot_A}` but its value `{(0,1)}` differs from the value truncated by
`clock_B` (which would be empty). -/
theorem c4_counterexample :
    vget [(0, 1)] 0 < 2 ∧
    Option.map (fun r => alookup 3 r.entries)
      ((((MapS.new ClockVal).apply
          (.up ⟨0, 2⟩ 3 ((⟨0, 1⟩ : Dot) : ClockVal.Op))).merge
        ((MapS.new ClockVal).apply (.rm [(0, 1)] 3)))) =
      some (some ⟨[(0, 2)], [(0, 1)]⟩) ∧
    vsub (vapplyDot ClockVal.default ⟨0, 1⟩) [(0, 1)] ≠ [(0, 1)] := by
  exact ⟨by decide, by decide, by decide⟩

/-- C4 (amended): reset-remove under genuine concurrency — for an update
`Up(dot_A, k, vop)` by actor `A` and a remove `Rm(clock_B, k)` with
`clock_B[A] < counter_A` (clock_B does not contain dot_A) and `clock_B` not
dominated by `{dot_A}` (the remove really is concurrent, not causally prior),
merging the two freshly-built replicas in either direction leaves the entry at
`k` alive with `entry.clock = {dot_A}` and `entry.val` truncated by `clock_B`. -/
theorem c4_amended_reset_remove (A cA k : Nat) (vop : Dot) (cB : VClock)
    (hpos : 0 < cA) (hnc : vget cB A < cA) (hconc : ¬ vle cB [(A, cA)]) :
    Option.map (fun r => alookup k r.entries)
      (((MapS.new ClockVal).apply (.up ⟨A, cA⟩ k (vop : ClockVal.Op))).merge
        ((MapS.new ClockVal).apply (.rm cB k))) =
      some (some ⟨[(A, cA)], vsub (vapplyDot [] vop) cB⟩) ∧
    Option.map (fun r => alookup k r.entries)
      (((MapS.new ClockVal).apply (.rm cB k)).merge
        ((MapS.new ClockVal).apply (.up ⟨A, cA⟩ k (vop : ClockVal.Op)))) =
      some (some ⟨[(A, cA)], vsub (vapplyDot [] vop) cB⟩) := by
  have hSget : ∀ a, vget (vapplyDot [] (⟨A, cA⟩ : Dot)) a = if a = A then cA else 0 := by
    intro a
    rw [vget_vapplyDot, vget_nil]
    by_cases ha : a = A <;> simp [ha]
  have hincl : ∀ a, vget ([(A, cA)] : VClock) a = if a = A then cA else 0 := by
    intro a
    rw [vget_cons, vget_nil]
  have hnS : ¬ vle cB (vapplyDot [] (⟨A, cA⟩ : Dot)) := by
    intro h
    apply hconc
    intro a
    have h2 := h a
    rw [hSget] at h2
    rw [hincl]
    exact h2
  have hBnil : vleB cB [] = false := by
    rw [vleB_false_iff]
    intro h
    apply hconc
    intro a
    have h2 := h a
    rw [vget_nil] at h2
    omega
  have hBS : vleB cB (vapplyDot [] (⟨A, cA⟩ : Dot)) = false := vleB_false_iff.2 hnS
  have hvSne : ¬ visEmpty (vsub (vapplyDot [] (⟨A, cA⟩ : Dot)) []) = true := by
    rw [visEmpty_vsub_iff]
    intro h
    have h2 := h A
    rw [hSget, vget_nil, if_pos rfl] at h2
    omega
  have hup : ¬ ((⟨A, cA⟩ : Dot).counter ≤
      vget (MapS.new ClockVal).clock (⟨A, cA⟩ : Dot).actor) := by
    show ¬ (cA ≤ vget ([] : VClock) A)
    rw [vget_nil]
    omega
  have hm1 : (MapS.new ClockVal).apply (.up ⟨A, cA⟩ k (vop : ClockVal.Op)) =
      ⟨vapplyDot [] ⟨A, cA⟩, [(k, ⟨vapplyDot [] ⟨A, cA⟩, vapplyDot [] vop⟩)], []⟩ := by
    rw [MapS.apply, if_neg hup]
    rfl
  have hm2 : (MapS.new ClockVal).apply (.rm cB k) =
      (⟨[], [], [(cB, [k])]⟩ : MapS ClockVal) := by
    apply MapS.ext3
    · exact applyRm_clock _ _ _
    · rw [show (MapS.new ClockVal).apply (.rm cB k) =
        (MapS.new ClockVal).applyRm k cB from rfl, applyRm_entries_def]
      rfl
    · rw [show (MapS.new ClockVal).apply (.rm cB k) =
        (MapS.new ClockVal).applyRm k cB from rfl, applyRm_deferred]
      show (if vleB cB ([] : VClock) = true then ([] : List (VClock × List Nat))
        else dinsert cB k []) = [(cB, [k])]
      rw [hBnil]
      rfl
  have hfin : ∀ C : VClock,
      alookup k ((⟨C, [(k, ⟨vsub (vapplyDot [] ⟨A, cA⟩) [],
          vsub (vapplyDot [] vop) []⟩)], []⟩ : MapS ClockVal).applyRm k cB).entries =
        some ⟨[(A, cA)], vsub (vapplyDot [] vop) cB⟩ := by
    intro C
    rw [alookup_applyRm _ _ _ (by simp) k, if_pos rfl, alookup_cons_self, pruneOpt]
    have hne : ¬ visEmpty (vsub (vsub (vapplyDot [] (⟨A, cA⟩ : Dot)) []) cB) = true := by
      rw [visEmpty_vsub_iff]
      intro h
      have h2 := h A
      rw [vget_vsub, vget_nil, hSget, if_pos rfl,
        if_neg (show ¬ cA ≤ 0 by omega)] at h2
      omega
    rw [if_neg hne]
    have hclock : vsub (vsub (vapplyDot [] (⟨A, cA⟩ : Dot)) []) cB = [(A, cA)] := by
      apply vext (vcwf_vsub _ _)
      · refine ⟨?_, ?_⟩
        · exact List.pairwise_singleton _ _
        · intro p hp
          rw [List.mem_singleton] at hp
          subst hp
          exact hpos
      · intro a
        rw [vget_vsub, vget_vsub, vget_nil, hSget, hincl]
        by_cases ha : a = A
        · rw [if_pos ha, if_neg (show ¬ cA ≤ 0 by omega), ha,
            if_neg (show ¬ cA ≤ vget cB A by omega)]
        · rw [if_neg ha]
          simp
    have hval : (ClockVal.truncate (vsub (vapplyDot [] vop) []) cB : VClock) =
        vsub (vapplyDot [] vop) cB := by
      show vsub (vsub (vapplyDot [] vop) []) cB = vsub (vapplyDot [] vop) cB
      apply vext (vcwf_vsub _ _) (vcwf_vsub _ _)
      intro a
      rw [vget_vsub, vget_vsub, vget_vsub, vget_nil]
      by_cases h1 : vget (vapplyDot [] vop) a ≤ 0
      · have hv0 : vget (vapplyDot [] vop) a = 0 := by omega
        rw [hv0]
        simp
      · rw [if_neg h1]
    rw [hclock, hval]
  have hml : mergeLoop ClockVal (vapplyDot [] ⟨A, cA⟩) [] []
      [(k, ⟨vapplyDot [] ⟨A, cA⟩, vapplyDot [] vop⟩)] [] [] =
      some ([(k, ⟨vsub (vapplyDot [] ⟨A, cA⟩) [], vsub (vapplyDot [] vop) []⟩)], []) := by
    rw [mergeLoop]
    show (if visEmpty (vsub (vapplyDot [] (⟨A, cA⟩ : Dot)) []) = true
      then mergeLoop ClockVal (vapplyDot [] ⟨A, cA⟩) [] [] [] [] []
      else mergeLoop ClockVal (vapplyDot [] ⟨A, cA⟩) [] [] []
        (ainsert natLtB k ⟨vsub (vapplyDot [] ⟨A, cA⟩) [],
          ClockVal.truncate (vapplyDot [] vop)
            (vsub [] (vsub (vapplyDot [] ⟨A, cA⟩) []))⟩ []) []) = _
    rw [if_neg hvSne]
    rfl
  constructor
  · rw [hm1, hm2, MapS.merge]
    rw [show (⟨vapplyDot [] ⟨A, cA⟩,
        [(k, ⟨vapplyDot [] ⟨A, cA⟩, vapplyDot [] vop⟩)], []⟩ : MapS ClockVal).clock =
      vapplyDot [] ⟨A, cA⟩ from rfl]
    rw [show (⟨[], [], [(cB, [k])]⟩ : MapS ClockVal).clock = ([] : VClock) from rfl,
      show (⟨[], [], [(cB, [k])]⟩ : MapS ClockVal).entries =
        ([] : List (Nat × Entry ClockVal)) from rfl]
    rw [show (⟨vapplyDot [] ⟨A, cA⟩,
        [(k, ⟨vapplyDot [] ⟨A, cA⟩, vapplyDot [] vop⟩)], []⟩ : MapS ClockVal).entries =
      [(k, ⟨vapplyDot [] ⟨A, cA⟩, vapplyDot [] vop⟩)] from rfl]
    rw [hml]
    have hmRm : ((⟨vapplyDot [] ⟨A, cA⟩,
        [(k, ⟨vapplyDot [] ⟨A, cA⟩, vapplyDot [] vop⟩)], []⟩ : MapS ClockVal).applyRm
          k cB).deferred = [(cB, [k])] := by
      rw [applyRm_deferred]
      show (if vleB cB (vapplyDot [] ⟨A, cA⟩) = true
        then ([] : List (VClock × List Nat)) else dinsert cB k []) = _
      rw [hBS]
      rfl
    simp only [List.foldl, Option.map]
    rw [hmRm]
    rw [show ((⟨vmerge (vapplyDot [] ⟨A, cA⟩) [],
        [(k, ⟨vsub (vapplyDot [] ⟨A, cA⟩) [], vsub (vapplyDot [] vop) []⟩)],
        [(cB, [k])]⟩ : MapS ClockVal).applyDeferred) =
      ((⟨vmerge (vapplyDot [] ⟨A, cA⟩) [],
        [(k, ⟨vsub (vapplyDot [] ⟨A, cA⟩) [], vsub (vapplyDot [] vop) []⟩)],
        []⟩ : MapS ClockVal).applyRm k cB) from rfl]
    rw [hfin]
  · rw [hm1, hm2, MapS.merge]
    simp only [mergeLoop]
    simp only [List.foldl, Option.map]
    rw [if_neg hvSne]
    rw [show ((⟨vmerge [] (vapplyDot [] ⟨A, cA⟩),
        ainsert natLtB k ⟨vsub (vapplyDot [] ⟨A, cA⟩) [],
          ClockVal.truncate (vapplyDot [] vop)
            (vsub [] (vsub (vapplyDot [] ⟨A, cA⟩) []))⟩ [],
        [(cB, [k])]⟩ : MapS ClockVal).applyDeferred) =
      ((⟨vmerge [] (vapplyDot [] ⟨A, cA⟩),
        [(k, ⟨vsub (vapplyDot [] ⟨A, cA⟩) [], vsub (vapplyDot [] vop) []⟩)],
        []⟩ : MapS ClockVal).applyRm k cB) from rfl]
    rw [hfin]

/-- C4 witness: the amended reset-remove statement at `dot_A = (0,1)`, key 2,
nested dot `(1,1)` and `clock_B = {(1,1)}`. -/
theorem c4_witness :
    Option.map (fun r => alookup 2 r.entries)
      (((MapS.new ClockVal).apply (.up ⟨0, 1⟩ 2 ((⟨1, 1⟩ : Dot) : ClockVal.Op))).merge
        ((MapS.new ClockVal).apply (.rm [(1, 1)] 2))) =
      some (some ⟨[(0, 1)], vsub (vapplyDot [] ⟨1, 1⟩) [(1, 1)]⟩) ∧
    Option.map (fun r => alookup 2 r.entries)
      (((MapS.new ClockVal).apply (.rm [(1, 1)] 2)).merge
        ((MapS.new ClockVal).apply (.up ⟨0, 1⟩ 2 ((⟨1, 1⟩ : Dot) : ClockVal.Op)))) =
      some (some ⟨[(0, 1)], vsub (vapplyDot [] ⟨1, 1⟩) [(1, 1)]⟩) := by
  refine c4_amended_reset_remove 0 1 2 ⟨1, 1⟩ [(1, 1)] (by omega) (by decide) ?_
  intro h
  have h2 := h 1
  rw [show vget [(1, 1)] 1 = 1 from rfl, show vget [(0, 1)] 1 = 0 from rfl] at h2
  omega

/-- C3 witness: idempotence of a concrete remove and the already-seen check for a
concrete update, on a small concrete state. -/
theorem c3_witness :
    ((((⟨[(0, 2)], [], []⟩ : MapS ClockVal).apply (.rm [(0, 1)] 5)).apply
        (.rm [(0, 1)] 5)) =
      (⟨[(0, 2)], [], []⟩ : MapS ClockVal).apply (.rm [(0, 1)] 5)) ∧
    (⟨[(0, 2)], [], []⟩ : MapS ClockVal).apply
        (.up ⟨0, 1⟩ 3 ((⟨0, 1⟩ : Dot) : ClockVal.Op)) =
      (⟨[(0, 2)], [], []⟩ : MapS ClockVal) :=
  c3_apply_idempotent (fun v c => vsub_idem v c) _ (by decide) (.rm [(0, 1)] 5)
    ⟨0, 1⟩ 3 ((⟨0, 1⟩ : Dot) : ClockVal.Op) (by decide)

/-- C2 counterexample: `apply` is not commutative across arbitrary operation
pairs. Two updates carrying the same dot `(0,1)` on different keys do not
commute from the empty map: whichever runs second is discarded by the
already-seen check, so the surviving key differs. -/
theorem c2_counterexample :
    (((MapS.new ClockVal).apply (.up ⟨0, 1⟩ 1 ((⟨0, 1⟩ : Dot) : ClockVal.Op))).apply
        (.up ⟨0, 1⟩ 2 ((⟨0, 1⟩ : Dot) : ClockVal.Op))) ≠
      (((MapS.new ClockVal).apply (.up ⟨0, 1⟩ 2 ((⟨0, 1⟩ : Dot) : ClockVal.Op))).apply
        (.up ⟨0, 1⟩ 1 ((⟨0, 1⟩ : Dot) : ClockVal.Op))) := by
  decide

/-- C2 (amended): `apply` commutes on canonical, disciplined states for
disciplined pairs of operations: nested update ops carry the update's own dot,
and two updates never share an actor. -/
theorem c2_apply_comm_amended (m : MapS ClockVal) (a b : MOp ClockVal)
    (hwf : m.WF) (hdisc : m.Disc)
    (ha : a.Disc) (hb : b.Disc) (hab : a.DistinctUps b) :
    (m.apply a).apply b = (m.apply b).apply a := by
  have hw : m.entries.Pairwise (fun p q => natLtB p.1 q.1 = true) :=
    entries_pairwise_natLtB hwf.2.1.1
  have hdp : m.deferred.Pairwise (fun p q => listLtB p.1 q.1 = true) :=
    hwf.2.2.1
  have hsets : ∀ p ∈ m.deferred, p.2.Pairwise (· < ·) :=
    fun p hp => (hwf.2.2.2 p hp).2
  cases a with
  | nop => rfl
  | rm c1 k1 =>
    cases b with
    | nop => rfl
    | rm c2 k2 =>
      rw [apply_rm_def, apply_rm_def, apply_rm_def, apply_rm_def]
      exact applyRm_comm m hw hdp hsets k1 k2 c1 c2
    | up d2 kk2 vop2 =>
      have hv : vop2 = d2 := hb
      rw [hv]
      exact (up_rm_comm m hw hdisc hdp hsets d2 kk2 c1 k1).symm
  | up d1 k1 vop1 =>
    have hv : vop1 = d1 := ha
    rw [hv]
    cases b with
    | nop => rfl
    | rm c2 k2 => exact up_rm_comm m hw hdisc hdp hsets d1 k1 c2 k2
    | up d2 kk2 vop2 =>
      have hv2 : vop2 = d2 := hb
      rw [hv2]
      have hne : d1.actor ≠ d2.actor := hab
      exact up_up_comm m hw hdisc hdp hsets hne k1 kk2

/-- C2 witness: the amended commutation applied to a concrete disciplined state
with a non-empty deferred table and a concrete remove/update pair. -/
theorem c2_witness :
    ((⟨[(0, 1)], [(0, ⟨[(0, 1)], [(0, 1)]⟩)], [([(9, 9)], [0])]⟩ :
        MapS ClockVal).apply
        (.rm [(1, 1)] 0)).apply (.up ⟨1, 2⟩ 0 ((⟨1, 2⟩ : Dot) : ClockVal.Op)) =
      ((⟨[(0, 1)], [(0, ⟨[(0, 1)], [(0, 1)]⟩)], [([(9, 9)], [0])]⟩ :
        MapS ClockVal).apply
        (.up ⟨1, 2⟩ 0 ((⟨1, 2⟩ : Dot) : ClockVal.Op))).apply (.rm [(1, 1)] 0) :=
  c2_apply_comm_amended _ _ _
    ⟨⟨by decide, by decide⟩,
      ⟨by decide, fun p hp => by
        rcases List.mem_singleton.1 hp with rfl
        exact ⟨by decide, by decide⟩⟩,
      by decide, fun p hp => by
        rcases List.mem_singleton.1 hp with rfl
        exact ⟨⟨by decide, by decide⟩, by decide⟩⟩
    (fun p hp => by
      rcases List.mem_singleton.1 hp with rfl
      exact ⟨⟨by decide, by decide⟩, vle_refl _⟩)
    trivial rfl trivial

/-- C1 counterexample: merge is not commutative. On the reachable pair
`m1 = new.apply(Up{dot (0,2), key 0, nested dot (0,1)})` and
`m2 = new.apply(Rm{clock {(0,1)}, key 0})`, the two merge directions disagree:
merging `m2` into `m1` replays `m2`'s deferred remove against `m1` but then
discards its entry-pruning, while merging `m1` into `m2` prunes the entry. -/
theorem c1_counterexample :
    ((MapS.new ClockVal).apply (.up ⟨0, 2⟩ 0 ((⟨0, 1⟩ : Dot) : ClockVal.Op))).merge
        ((MapS.new ClockVal).apply (.rm [(0, 1)] 0)) ≠
      ((MapS.new ClockVal).apply (.rm [(0, 1)] 0)).merge
        ((MapS.new ClockVal).apply (.up ⟨0, 2⟩ 0 ((⟨0, 1⟩ : Dot) : ClockVal.Op))) := by
  decide

/-- C1 (amended): merge is commutative on states whose deferred tables are
empty, for any nested CRDT whose own merge is commutative: with both maps'
entries in canonical (sorted) form and both deferred tables empty,
`m1.merge m2 = m2.merge m1`. -/
theorem c1_merge_comm_amended {W : ValOps} (hcomm : ∀ a b, W.merge a b = W.merge b a)
    (m1 m2 : MapS W)
    (h1 : m1.entries.Pairwise (fun p q => natLtB p.1 q.1 = true))
    (h2 : m2.entries.Pairwise (fun p q => natLtB p.1 q.1 = true))
    (hd1 : m1.deferred = []) (hd2 : m2.deferred = []) :
    m1.merge m2 = m2.merge m1 := by
  obtain ⟨K, hK, hKp, hKl⟩ := merge_spec_nil m1 m2 h1 h2 hd1 hd2
  obtain ⟨K2, hK2, hKp2, hKl2⟩ := merge_spec_nil m2 m1 h2 h1 hd2 hd1
  rw [hK, hK2, vmerge_comm m1.clock m2.clock]
  have hKK : K = K2 := by
    refine aext natLtB_irrefl natLtB_asym hKp hKp2 (fun j => ?_)
    rw [hKl j, hKl2 j, mergeKeepF_comm hcomm]
  rw [hKK]

/-- C1 witness: the amended commutativity applied to two concrete single-entry
maps with empty deferred tables over the clock-valued nested CRDT. -/
theorem c1_witness :
    (MapS.mk [(0, 1)] [(0, ⟨[(0, 1)], ([] : VClock)⟩)] [] : MapS ClockVal).merge
        (MapS.mk [(1, 1)] [(1, ⟨[(1, 1)], ([] : VClock)⟩)] []) =
      (MapS.mk [(1, 1)] [(1, ⟨[(1, 1)], ([] : VClock)⟩)] [] : MapS ClockVal).merge
        (MapS.mk [(0, 1)] [(0, ⟨[(0, 1)], ([] : VClock)⟩)] []) :=
  c1_merge_comm_amended (fun a b => vmerge_comm a b) _ _ (by decide) (by decide)
    rfl rfl

end Crdt
